import Mathlib

/-!
ICEmu idempotency statistics plugin: a verification development

A shallow embedding of `src/plugins/idempotency_statistics_plugin/IdempotencyStatistics.cpp`:
the instruction tracker (`HookInstructionCount`), the byte-granular write-after-read
detector (`WarDetector`), its log (`WarLog`), and the facade (`HookIdempotencyStatistics`)
that drives four detectors from the memory hook.

Conventions.
* `armaddr_t` is `uint32_t` (memlayout.h); `uint64_t` counters are 64 bit. Machine integers are
  natural numbers, reduced modulo the width wherever the C++ code does arithmetic on them or
  narrows them.
* `unordered_set<MemAccessState, MemAccessStateHash>` is a list of records in which
  equality is equality of the `address` field (`MemAccessState::operator==`).
* A `string *` is the string it points to; a pointer that was never assigned is `none`.
* Values the plugin obtains from the emulator (the SP register, the hook argument) are
  parameters of the functions that read them.
-/

namespace ICEmu

/-! ## Machine integers -/

/-- Number of values of `armaddr_t`, which is `uint32_t` (memlayout.h line 11). -/
abbrev ADDR_MOD : Nat := 4294967296

/-- Number of values of `uint64_t`. -/
abbrev U64_MOD : Nat := 18446744073709551616

/-! ## Records -/

/-- The struct `InstructionState`: what the facade hands to a detector for one memory event. -/
structure InstructionState where
  pc : Nat
  icount : Nat
  mem_address : Nat
  mem_size : Nat
  function_address : Nat
  function_name : Option String
deriving DecidableEq, Repr

/-- The struct `MemAccessState`: one byte access. The constructor defaults are all zero. -/
structure MemAccessState where
  address : Nat
  pc : Nat
  icount : Nat
deriving DecidableEq, Repr

/-- The value `MemAccessState()` built from the default arguments of the constructor. -/
def MemAccessState.zero : MemAccessState := ⟨0, 0, 0⟩

/-- The struct `WarLogLine`: one region-end record. -/
structure WarLogLine where
  read_instruction_count : Nat
  write_instruction_count : Nat
  read_code_address : Nat
  write_code_address : Nat
  memory_address : Nat
  function_address : Nat
  function_name : Option String
  access_type : Nat
  access_type_str : String
  region_end_type : Nat
  region_end_type_str : String
deriving DecidableEq, Repr

/-! ## The access sets (`unordered_set` keyed by address) -/

/-- An `unordered_set<MemAccessState, MemAccessStateHash>`. -/
abbrev AccessSet := List MemAccessState

namespace AccessSet

/-- The call `s.find(mas)`: the stored element equal to `mas`, that is, with the same address. -/
def find (s : AccessSet) (mas : MemAccessState) : Option MemAccessState :=
  List.find? (fun x => x.address == mas.address) s

/-- The call `s.erase(it)` for the iterator `it` returned by `s.find(mas)`: removes that one element. -/
def erase (s : AccessSet) (mas : MemAccessState) : AccessSet :=
  List.eraseP (fun x => x.address == mas.address) s

/-- The call `s.insert(mas)`: does nothing when an equal element is already stored. -/
def insert (s : AccessSet) (mas : MemAccessState) : AccessSet :=
  match find s mas with
  | some _ => s
  | none => mas :: s

/-- The call `s.clear()`. -/
def clear (_s : AccessSet) : AccessSet := []

/-- Whether some stored element has address `a`. -/
def hasAddr (s : AccessSet) (a : Nat) : Bool :=
  List.any s (fun x => x.address == a)

end AccessSet

/-! ## The log -/

/-- The class `WarLog`. -/
structure WarLog where
  warLogLines : List WarLogLine
  filename : String
deriving DecidableEq, Repr

/-- The constructor `WarLog(const string &_filename)`. -/
def WarLog.init (filename : String) : WarLog := ⟨[], filename⟩

/-- The method `WarLog::add`: `push_back`. -/
def WarLog.add (log : WarLog) (l : WarLogLine) : WarLog :=
  { log with warLogLines := log.warLogLines ++ [l] }

/-! ## The detector -/

/-- The class `WarDetector`. -/
structure WarDetector where
  detect_protected_war : Bool
  reads : AccessSet
  writes : AccessSet
  violatingRead : MemAccessState
  violatingWrite : MemAccessState
  log : WarLog
deriving DecidableEq, Repr

namespace WarDetector

/-- The method `reset()`: clears both sets and zeroes the `pc` field of the two violating records. -/
def reset (wd : WarDetector) : WarDetector :=
  { wd with
    reads := AccessSet.clear wd.reads
    writes := AccessSet.clear wd.writes
    violatingRead := { wd.violatingRead with pc := 0 }
    violatingWrite := { wd.violatingWrite with pc := 0 } }

/-- The constructor `WarDetector(logfile, detect_protected_war)`: default members, then `reset()`. -/
def init (logfile : String) (detect_protected_war : Bool) : WarDetector :=
  reset
    { detect_protected_war := detect_protected_war
      reads := []
      writes := []
      violatingRead := MemAccessState.zero
      violatingWrite := MemAccessState.zero
      log := WarLog.init logfile }

/-- The overload `addRead(MemAccessState &mas)`: erase an equal element if present, then insert. -/
def addReadByte (wd : WarDetector) (mas : MemAccessState) : WarDetector :=
  match AccessSet.find wd.reads mas with
  | some _ => { wd with reads := AccessSet.insert (AccessSet.erase wd.reads mas) mas }
  | none => { wd with reads := AccessSet.insert wd.reads mas }

/-- The per-byte records `mas_byte` that the loops of `addRead(InstructionState&)` and
`addWrite(InstructionState&)` build, in loop order: `address + i` wraps in `armaddr_t`. -/
def byteStates (istate : InstructionState) : List MemAccessState :=
  (List.range istate.mem_size).map
    (fun i => ⟨(istate.mem_address + i) % ADDR_MOD, istate.pc, istate.icount⟩)

/-- The overload `addRead(InstructionState &is)`. -/
def addRead (wd : WarDetector) (istate : InstructionState) : WarDetector :=
  (byteStates istate).foldl addReadByte wd

/-- The overload `addWrite(MemAccessState &mas)`, branch for branch. -/
def addWriteByte (wd : WarDetector) (mas : MemAccessState) : Bool × WarDetector :=
  match AccessSet.find wd.reads mas, AccessSet.find wd.writes mas with
  | some rd, some _ =>
      if wd.detect_protected_war then (false, wd)
      else (true, { wd with violatingRead := rd, violatingWrite := mas })
  | some rd, none => (true, { wd with violatingRead := rd, violatingWrite := mas })
  | none, some _ =>
      (false, { wd with writes := AccessSet.insert (AccessSet.erase wd.writes mas) mas })
  | none, none => (false, { wd with writes := AccessSet.insert wd.writes mas })

/-- One iteration of the loop of `addWrite(InstructionState&)` on the pair `(war, detector)`. -/
def addWriteStep (acc : Bool × WarDetector) (mas : MemAccessState) : Bool × WarDetector :=
  let r := addWriteByte acc.2 mas
  (if r.1 == true then true else acc.1, r.2)

/-- The overload `addWrite(InstructionState &is)`. -/
def addWrite (wd : WarDetector) (istate : InstructionState) : Bool × WarDetector :=
  (byteStates istate).foldl addWriteStep (false, wd)

/-- The method `getViolatingRead()`. -/
def getViolatingRead (wd : WarDetector) : MemAccessState := wd.violatingRead

/-- The method `getViolatingWrite()`. -/
def getViolatingWrite (wd : WarDetector) : MemAccessState := wd.violatingWrite

end WarDetector

/-! ## The instruction tracker -/

/-- The class `HookInstructionCount` (its fields; `function_map` is a `map` from address to names). -/
structure HookInstructionCount where
  count : Nat
  pc : Nat
  function_name : Option String
  function_address : Nat
  function_entry_icount : Nat
  sp_function_entry : Nat
  estack : Nat
  new_function : Bool
  function_map : List (Nat × List String)
deriving DecidableEq, Repr

namespace HookInstructionCount

/-- The field initialisers of the class, for a given function map and `_estack` address.
Note `new_function = true` and the unassigned `function_name`. -/
def init (function_map : List (Nat × List String)) (estack : Nat) : HookInstructionCount :=
  { count := 0
    pc := 0
    function_name := none
    function_address := 0
    function_entry_icount := 0
    sp_function_entry := 0
    estack := estack % ADDR_MOD
    new_function := true
    function_map := function_map }

/-- The method `isFunctionStart(armaddr_t addr)`. -/
def isFunctionStart (h : HookInstructionCount) (addr : Nat) : Option (List String) :=
  (h.function_map.find? (fun e => e.1 == addr % ADDR_MOD)).map (fun e => e.2)

/-- The method `run(hook_arg_t *arg)`; `address` is `arg->address` and `sp` the value of the
SP register. `function_entry_icount` and `sp_function_entry` are `armaddr_t` fields. -/
def run (h : HookInstructionCount) (address : Nat) (sp : Nat) : HookInstructionCount :=
  let count := (h.count + 1) % U64_MOD
  match isFunctionStart h address with
  | some funcs =>
      { h with
        count := count
        pc := address % U64_MOD
        function_name := funcs.head?
        function_address := address % ADDR_MOD
        function_entry_icount := count % ADDR_MOD
        sp_function_entry := sp % ADDR_MOD
        new_function := true }
  | none => { h with count := count, pc := address % U64_MOD }

end HookInstructionCount

/-! ## The facade -/

/-- The enum `MemAccessType`. -/
inductive MemAccessType where
  | UNKNOWN
  | MEM_NONE
  | MEM_LOCAL
  | MEM_STACK
  | MEM_GLOBAL
deriving DecidableEq, Repr

/-- The integer value of a `MemAccessType` enumerator. -/
def MemAccessType.toNat : MemAccessType → Nat
  | .UNKNOWN => 0
  | .MEM_NONE => 1
  | .MEM_LOCAL => 2
  | .MEM_STACK => 3
  | .MEM_GLOBAL => 4

/-- The array `MemAccessTypeStr[5]`. -/
def MemAccessTypeStr : List String := ["UNKNOWN", "NONE", "LOCAL", "STACK", "GLOBAL"]

/-- The enum `RegionEndType`. -/
inductive RegionEndType where
  | RE_WAR
  | RE_FUNCTION_ENTRY
  | RE_SIZE_LIMIT
  | RE_FORCED
deriving DecidableEq, Repr

/-- The integer value of a `RegionEndType` enumerator. -/
def RegionEndType.toNat : RegionEndType → Nat
  | .RE_WAR => 0
  | .RE_FUNCTION_ENTRY => 1
  | .RE_SIZE_LIMIT => 2
  | .RE_FORCED => 3

/-- The array `RegionEndTypeStr[4]`. -/
def RegionEndTypeStr : List String := ["WAR", "FUNCTION_ENTRY", "SIZE_LIMIT", "FORCED"]

/-- The string an expression `&Table[i]` points to. -/
def strAt (table : List String) (i : Nat) : String := table.getD i ""

/-- The method `getMemAccessType`; `f_current_sp` is the SP register read by the method. -/
def getMemAccessType (hic : HookInstructionCount) (f_current_sp : Nat)
    (istate : InstructionState) : MemAccessType :=
  let address := istate.mem_address
  let estack_sp := hic.estack
  let f_entry_sp := hic.sp_function_entry
  if address ≥ f_current_sp ∧ address < f_entry_sp then MemAccessType.MEM_LOCAL
  else if address ≥ f_current_sp ∧ address < estack_sp then MemAccessType.MEM_STACK
  else MemAccessType.MEM_GLOBAL

/-- The record that `detectWar` logs when an inter-procedural detector sees `new_function`. -/
def functionEntryLine (hic : HookInstructionCount) (istate : InstructionState) : WarLogLine :=
  { read_instruction_count := 0
    write_instruction_count := hic.function_entry_icount
    read_code_address := 0
    write_code_address := 0
    memory_address := 0
    function_address := istate.function_address
    function_name := istate.function_name
    access_type := 1
    access_type_str := strAt MemAccessTypeStr 1
    region_end_type := RegionEndType.RE_FUNCTION_ENTRY.toNat
    region_end_type_str := strAt RegionEndTypeStr RegionEndType.RE_FUNCTION_ENTRY.toNat }

/-- The record that `detectWar` logs for a WAR, from the violating read and write. -/
def warLine (read write : MemAccessState) (istate : InstructionState)
    (mem_type : MemAccessType) : WarLogLine :=
  { read_instruction_count := read.icount
    write_instruction_count := write.icount
    read_code_address := read.pc
    write_code_address := write.pc
    memory_address := read.address
    function_address := istate.function_address
    function_name := istate.function_name
    access_type := mem_type.toNat
    access_type_str := strAt MemAccessTypeStr mem_type.toNat
    region_end_type := RegionEndType.RE_WAR.toNat
    region_end_type_str := strAt RegionEndTypeStr RegionEndType.RE_WAR.toNat }

/-- The first block of `detectWar`: the function-entry region end of an inter-procedural detector. -/
def detectWarEntry (hic : HookInstructionCount) (wd : WarDetector) (istate : InstructionState)
    (inter_procedural : Bool) : WarDetector :=
  if inter_procedural == true && hic.new_function == true then
    WarDetector.reset { wd with log := wd.log.add (functionEntryLine hic istate) }
  else wd

/-- The method `detectWar(wd, istate, is_read, inter_procedural)`. It reads the tracker
`hic` (`hook_instr_cnt`) and, on a WAR, the SP register `sp`; it returns `war_detected`
and the detector after the call. -/
def detectWar (hic : HookInstructionCount) (sp : Nat) (wd : WarDetector)
    (istate : InstructionState) (is_read : Bool) (inter_procedural : Bool) :
    Bool × WarDetector :=
  let wd1 := detectWarEntry hic wd istate inter_procedural
  let r := if is_read then (false, wd1.addRead istate) else wd1.addWrite istate
  if r.1 then
    let read := r.2.getViolatingRead
    let write := r.2.getViolatingWrite
    let mem_type := getMemAccessType hic sp istate
    let wd3 := { r.2 with log := r.2.log.add (warLine read write istate mem_type) }
    let wd4 := wd3.reset
    (true, (wd4.addWrite istate).2)
  else (false, r.2)

/-- The direction of a memory hook event (`arg->mem_type`). -/
inductive MemType where
  | MEM_READ
  | MEM_WRITE
deriving DecidableEq, Repr

/-- Modelled from the spec: the memory hook argument `hook_arg_t` (declared in
icemu/hooks, which is not among the sources): target address, access width and direction. -/
structure hook_arg_t where
  address : Nat
  size : Nat
  mem_type : MemType
deriving DecidableEq, Repr

/-- The class `HookIdempotencyStatistics`: the tracker it owns and its four detectors. -/
structure HookIdempotencyStatistics where
  max_idempotent_secion_size : Nat
  hook_instr_cnt : HookInstructionCount
  warDetector : WarDetector
  warDetectorInterProcedural : WarDetector
  warDetectorNoProtected : WarDetector
  warDetectorNoProtectedInterProcedural : WarDetector
deriving DecidableEq, Repr

namespace HookIdempotencyStatistics

/-- The member initialisers and constructor of the class. -/
def init (function_map : List (Nat × List String)) (estack : Nat) : HookIdempotencyStatistics :=
  { max_idempotent_secion_size := 1000
    hook_instr_cnt := HookInstructionCount.init function_map estack
    warDetector := WarDetector.init "idempotent-sections-intra-procedural.csv" true
    warDetectorInterProcedural :=
      WarDetector.init "idempotent-sections-inter-procedural-dump.csv" true
    warDetectorNoProtected :=
      WarDetector.init "idempotent-sections-no-protected-intra-procedural-dump.csv" false
    warDetectorNoProtectedInterProcedural :=
      WarDetector.init "idempotent-sections-no-protected-inter-procedural-dump.csv" false }

/-- The `InstructionState` that `run` builds from the tracker and the hook argument. -/
def mkIState (hic : HookInstructionCount) (arg : hook_arg_t) : InstructionState :=
  { pc := hic.pc
    icount := hic.count
    mem_address := arg.address % ADDR_MOD
    mem_size := arg.size % ADDR_MOD
    function_address := hic.function_address
    function_name := hic.function_name }

/-- The method `run(hook_arg_t *arg)` of the memory hook; `sp` is the SP register. -/
def run (h : HookIdempotencyStatistics) (arg : hook_arg_t) (sp : Nat) :
    HookIdempotencyStatistics :=
  let hic := h.hook_instr_cnt
  let istate := mkIState hic arg
  let is_read := if arg.mem_type = MemType.MEM_READ then true else false
  let wdA := (detectWar hic sp h.warDetector istate is_read false).2
  let wdB := (detectWar hic sp h.warDetectorNoProtected istate is_read false).2
  let wdC := (detectWar hic sp h.warDetectorInterProcedural istate is_read true).2
  let wdD := (detectWar hic sp h.warDetectorNoProtectedInterProcedural istate is_read true).2
  { h with
    warDetector := wdA
    warDetectorNoProtected := wdB
    warDetectorInterProcedural := wdC
    warDetectorNoProtectedInterProcedural := wdD
    hook_instr_cnt := { hic with new_function := false } }

end HookIdempotencyStatistics

/-! ## Driving one detector, and whole traces -/

/-- One call of `detectWar` on a detector: the tracker as it stands at the call, the SP
register, the instruction state and the direction of the access. -/
structure DetectCall where
  hic : HookInstructionCount
  sp : Nat
  istate : InstructionState
  is_read : Bool
deriving DecidableEq, Repr

/-- The detector after the call `c` of `detectWar`. -/
def stepDetect (inter_procedural : Bool) (wd : WarDetector) (c : DetectCall) : WarDetector :=
  (detectWar c.hic c.sp wd c.istate c.is_read inter_procedural).2

/-- The detector after a sequence of calls of `detectWar`. -/
def runDetect (inter_procedural : Bool) (wd : WarDetector) (cs : List DetectCall) : WarDetector :=
  cs.foldl (stepDetect inter_procedural) wd

/-- Whether the call added a record to the log. `detectWar` calls `reset()` exactly where it
calls `log.add`, so this is also whether the call reset the detector. -/
def logGrew (inter_procedural : Bool) (wd : WarDetector) (c : DetectCall) : Bool :=
  decide (wd.log.warLogLines.length <
    (stepDetect inter_procedural wd c).log.warLogLines.length)

/-- One step of the bookkeeping of the current region: the detector together with the calls
since its last reset, the call that caused the reset included as the first of them. -/
def regionStep (inter_procedural : Bool) (acc : WarDetector × List DetectCall)
    (c : DetectCall) : WarDetector × List DetectCall :=
  (stepDetect inter_procedural acc.1 c,
   if logGrew inter_procedural acc.1 c then [c] else acc.2 ++ [c])

/-- The calls of `cs` since the last reset of the detector (all of `cs` when there was none). -/
def regionCalls (inter_procedural : Bool) (wd : WarDetector) (cs : List DetectCall) :
    List DetectCall :=
  (cs.foldl (regionStep inter_procedural) (wd, [])).2

/-- One step of the bookkeeping of the region start: the detector together with the icount
of the call at which it was last reset. -/
def regionStartStep (inter_procedural : Bool) (acc : WarDetector × Nat)
    (c : DetectCall) : WarDetector × Nat :=
  (stepDetect inter_procedural acc.1 c,
   if logGrew inter_procedural acc.1 c then c.istate.icount else acc.2)

/-- The icount of the call of `cs` at which the detector was last reset; 0 when there was none. -/
def regionStart (inter_procedural : Bool) (wd : WarDetector) (cs : List DetectCall) : Nat :=
  (cs.foldl (regionStartStep inter_procedural) (wd, 0)).2

/-- Whether byte address `b` lies in the range of the access: `b` is `mem_address + i`, in
32-bit address arithmetic, for some `i < mem_size`. -/
def covers (c : DetectCall) (b : Nat) : Bool :=
  (List.range c.istate.mem_size).any (fun i => (c.istate.mem_address + i) % ADDR_MOD == b)

/-- Byte `b` was covered by a read among the calls `hist`. -/
def readSince (hist : List DetectCall) (b : Nat) : Prop :=
  ∃ c ∈ hist, c.is_read = true ∧ covers c b = true

/-- The first access to byte `b` among the calls `hist` was a read. -/
def firstAccessIsRead (hist : List DetectCall) (b : Nat) : Prop :=
  ∃ c, hist.find? (fun c => covers c b) = some c ∧ c.is_read = true

/-- The first access to byte `b` among the calls `hist` was a write. -/
def firstAccessIsWrite (hist : List DetectCall) (b : Nat) : Prop :=
  ∃ c, hist.find? (fun c => covers c b) = some c ∧ c.is_read = false

/-- The condition under which a call ends the region `hist` with a WAR: it is a write and some
byte of its range was read in the region and, when protecting writes are honoured, was
first accessed in the region by a read. -/
def warCondition (detect_protected_war : Bool) (hist : List DetectCall) (c : DetectCall) : Prop :=
  c.is_read = false ∧
  ∃ b, covers c b = true ∧ readSince hist b ∧
    (detect_protected_war = true → firstAccessIsRead hist b)

/-- Whether a write to byte address `a` is a WAR in the detector state `wd`. -/
def warAt (wd : WarDetector) (a : Nat) : Bool :=
  AccessSet.hasAddr wd.reads a &&
    (!AccessSet.hasAddr wd.writes a || !wd.detect_protected_war)

/-- An event of the execution host: an executed instruction (code hook) or a memory access
(memory hook), each with the value the SP register has when the hook runs. -/
inductive TraceEvent where
  | instruction (address : Nat) (sp : Nat)
  | memory (arg : hook_arg_t) (sp : Nat)
deriving DecidableEq, Repr

/-- The analyzer after one event: the code hook runs the tracker, the memory hook the facade. -/
def HookIdempotencyStatistics.step (h : HookIdempotencyStatistics) :
    TraceEvent → HookIdempotencyStatistics
  | .instruction address sp => { h with hook_instr_cnt := h.hook_instr_cnt.run address sp }
  | .memory arg sp => h.run arg sp

/-- The analyzer after a trace of events. -/
def HookIdempotencyStatistics.runTrace (h : HookIdempotencyStatistics)
    (tr : List TraceEvent) : HookIdempotencyStatistics :=
  tr.foldl HookIdempotencyStatistics.step h

/-- An analyzer with a single detector: the tracker and that detector. -/
structure SoloAnalyzer where
  hook_instr_cnt : HookInstructionCount
  detector : WarDetector
deriving DecidableEq, Repr

/-- The single-detector analyzer after one event: `HookIdempotencyStatistics::run` with the
calls of `detectWar` for the other three detectors left out. -/
def SoloAnalyzer.step (inter_procedural : Bool) (s : SoloAnalyzer) : TraceEvent → SoloAnalyzer
  | .instruction address sp => { s with hook_instr_cnt := s.hook_instr_cnt.run address sp }
  | .memory arg sp =>
      let hic := s.hook_instr_cnt
      let istate := HookIdempotencyStatistics.mkIState hic arg
      let is_read := if arg.mem_type = MemType.MEM_READ then true else false
      { hook_instr_cnt := { hic with new_function := false }
        detector := (detectWar hic sp s.detector istate is_read inter_procedural).2 }

/-- The single-detector analyzer after a trace of events. -/
def SoloAnalyzer.runTrace (inter_procedural : Bool) (s : SoloAnalyzer)
    (tr : List TraceEvent) : SoloAnalyzer :=
  tr.foldl (SoloAnalyzer.step inter_procedural) s

/-- The number of FUNCTION_ENTRY records in a log. -/
def countFunctionEntry (log : WarLog) : Nat :=
  (log.warLogLines.filter
    (fun l => l.region_end_type == RegionEndType.RE_FUNCTION_ENTRY.toNat)).length

/-- The number of WAR records in a log. -/
def countWar (log : WarLog) : Nat :=
  (log.warLogLines.filter (fun l => l.region_end_type == RegionEndType.RE_WAR.toNat)).length

/-- Whether the event is an instruction at a function entry of the function map `fm`. -/
def isEntryInstruction (fm : List (Nat × List String)) : TraceEvent → Bool
  | .instruction address _ =>
      (HookInstructionCount.isFunctionStart (HookInstructionCount.init fm 0) address).isSome
  | .memory _ _ => false

/-- Whether the event is a memory event. -/
def isMemoryEvent : TraceEvent → Bool
  | .instruction _ _ => false
  | .memory _ _ => true

/-- The events of `tr` after its last memory event (all of `tr` when it has none). -/
def afterLastMemory (tr : List TraceEvent) : List TraceEvent :=
  (tr.reverse.takeWhile (fun e => !isMemoryEvent e)).reverse

/-- A memory event that comes next after `tr` is the first memory event following a
function-entry instruction: such an instruction occurs in `tr` after the last memory event. -/
def followsFunctionEntry (fm : List (Nat × List String)) (tr : List TraceEvent) : Bool :=
  (afterLastMemory tr).any (isEntryInstruction fm)

/-- No memory event has occurred in `tr`. -/
def noMemoryYet (tr : List TraceEvent) : Bool :=
  tr.all (fun e => !isMemoryEvent e)

/-- The detector state `wd` describes the region `hist`: the read set holds the bytes read in
the region, the write set the bytes whose first access in the region was a write. -/
def Tracks (detect_protected_war : Bool) (wd : WarDetector) (hist : List DetectCall) : Prop :=
  wd.detect_protected_war = detect_protected_war ∧
  (∀ b, AccessSet.hasAddr wd.reads b = true ↔ readSince hist b) ∧
  (∀ b, AccessSet.hasAddr wd.writes b = true ↔ firstAccessIsWrite hist b)

/-- An example call of `detectWar`: an access of `size` bytes at `addr` issued at `pc` with
instruction count `icount`, under a tracker with `_estack` = 0x20002000 whose `new_function`
flag is `nf`, and SP = 0x20001000. -/
def exampleCall (is_read : Bool) (addr size pc icount : Nat) (nf : Bool) : DetectCall :=
  { hic := { HookInstructionCount.init [] 536879104 with new_function := nf }
    sp := 536875008
    istate := ⟨pc, icount, addr, size, 0, none⟩
    is_read := is_read }

/-- The detector at the start of iteration `i` of the loop of `addWrite(InstructionState&)`. -/
def addWriteLoopState (wd : WarDetector) (istate : InstructionState) (i : Nat) : WarDetector :=
  (((WarDetector.byteStates istate).take i).foldl WarDetector.addWriteStep (false, wd)).2

/-- The record `mas_byte` of iteration `i` of the byte loops. -/
def byteState (istate : InstructionState) (i : Nat) : MemAccessState :=
  ⟨(istate.mem_address + i) % ADDR_MOD, istate.pc, istate.icount⟩

/-! ## Further definitions: set update, log output, teardown -/

/-- The update that `addRead(MemAccessState&)` and the two non-WAR branches of
`addWrite(MemAccessState&)` without a prior read apply to a set: erase the equal element
when `find` returns one, then insert. -/
def AccessSet.upsert (s : AccessSet) (mas : MemAccessState) : AccessSet :=
  match AccessSet.find s mas with
  | some _ => AccessSet.insert (AccessSet.erase s mas) mas
  | none => AccessSet.insert s mas

/-- A set holds at most one element per address, as an `unordered_set` does. -/
def AccessSet.WF (s : AccessSet) : Prop := (s.map (fun x => x.address)).Nodup

/-- The detector in the WAR branch of `detectWar` right after `wd.log.add(l); wd.reset();`
and before the write is applied again. -/
def afterWarReset (hic : HookInstructionCount) (sp : Nat) (wd : WarDetector)
    (istate : InstructionState) (inter_procedural : Bool) : WarDetector :=
  let r := (detectWarEntry hic wd istate inter_procedural).addWrite istate
  WarDetector.reset
    { r.2 with
      log := r.2.log.add (warLine r.2.getViolatingRead r.2.getViolatingWrite istate
        (getMemAccessType hic sp istate)) }

/-- The number of SIZE_LIMIT records in a log. -/
def countSizeLimit (log : WarLog) : Nat :=
  (log.warLogLines.filter
    (fun l => l.region_end_type == RegionEndType.RE_SIZE_LIMIT.toNat)).length

/-- The character of the decimal digit `d` (for `d < 10`). -/
def digitChar (d : Nat) : Char :=
  if d = 0 then '0' else if d = 1 then '1' else if d = 2 then '2' else if d = 3 then '3'
  else if d = 4 then '4' else if d = 5 then '5' else if d = 6 then '6' else if d = 7 then '7'
  else if d = 8 then '8' else '9'

/-- The decimal text of `n` with `fuel` bounding the number of digits. -/
def decimalFuel : Nat → Nat → List Char
  | 0, _ => []
  | fuel + 1, n =>
      if n < 10 then [digitChar n] else decimalFuel fuel (n / 10) ++ [digitChar (n % 10)]

/-- What `ostream << n` writes for an unsigned integer `n` under the default flags: its
decimal digits, most significant first, no sign, no padding. -/
def decimal (n : Nat) : List Char := decimalFuel (n + 1) n

/-- The function `operator<<(std::ostream&, const WarLogLine&)`: the characters written, the
eleven fields separated by `d = ','`. Dereferencing a `function_name` that was never
assigned has no defined result (`none`). -/
def WarLogLine.print (l : WarLogLine) : Option (List Char) :=
  match l.function_name with
  | none => none
  | some name =>
      some (decimal l.read_instruction_count ++ ',' ::
        (decimal l.write_instruction_count ++ ',' ::
        (decimal l.read_code_address ++ ',' ::
        (decimal l.write_code_address ++ ',' ::
        (decimal l.memory_address ++ ',' ::
        (decimal l.function_address ++ ',' ::
        (name.data ++ ',' ::
        (decimal l.access_type ++ ',' ::
        (l.access_type_str.data ++ ',' ::
        (decimal l.region_end_type ++ ',' ::
        l.region_end_type_str.data))))))))))

/-- Splitting a row on the separator `sep`. -/
def splitRow (sep : Char) : List Char → List (List Char)
  | [] => [[]]
  | c :: cs =>
      if c = sep then [] :: splitRow sep cs
      else
        match splitRow sep cs with
        | [] => [[c]]
        | f :: fs => (c :: f) :: fs

/-- The value of a decimal digit character. -/
def digitValue (c : Char) : Option Nat :=
  if c = '0' then some 0 else if c = '1' then some 1 else if c = '2' then some 2
  else if c = '3' then some 3 else if c = '4' then some 4 else if c = '5' then some 5
  else if c = '6' then some 6 else if c = '7' then some 7 else if c = '8' then some 8
  else if c = '9' then some 9 else none

/-- One step of reading a decimal number: the value so far and the next character. -/
def parseStep (acc : Option Nat) (c : Char) : Option Nat :=
  match acc, digitValue c with
  | some v, some d => some (v * 10 + d)
  | _, _ => none

/-- Parsing a decimal field: a non-empty run of digits. -/
def parseDecimal (cs : List Char) : Option Nat :=
  match cs with
  | [] => none
  | _ :: _ => cs.foldl parseStep (some 0)

/-- The outcome of `WarLog::write`: the path handed to `ofstream`, whether it opened, the
rows written (one per record), and the message printed when it did not open. -/
structure FileWrite where
  filename_cmplt : String
  is_open : Bool
  rows : List (Option (List Char))
  message : Option String
deriving DecidableEq, Repr

/-- The method `WarLog::write(string prefix)`; `pfx` is the parameter `prefix` and
`opens` tells whether `ofstream f(filename_cmplt)` succeeds in opening the path. -/
def WarLog.write (log : WarLog) (pfx : String) (opens : String → Bool) : FileWrite :=
  let filename_cmplt := pfx ++ "/" ++ log.filename
  if opens filename_cmplt then
    { filename_cmplt := filename_cmplt
      is_open := true
      rows := log.warLogLines.map WarLogLine.print
      message := none }
  else
    { filename_cmplt := filename_cmplt
      is_open := false
      rows := []
      message := some ("Error opening log file: " ++ filename_cmplt) }

/-- The call `a.find(pat)` of `std::string`: the position of the first occurrence of `pat`
in `a`, or `none` for `npos`. -/
def strFind (a pat : List Char) : Option Nat :=
  if pat.isPrefixOf a then some 0
  else
    match a with
    | [] => none
    | _ :: t => (strFind t pat).map (fun pos => pos + 1)

/-- The string `find_arg` of the destructor. -/
def find_arg : String := "idempotent-stats-output-dir="

/-- The loop of the destructor `~HookIdempotencyStatistics` that resolves `out_dir` from the
plugin arguments: the first argument in which `find_arg` is found gives
`a.substr(pos + find_arg.length())`; `out_dir` stays empty when there is none. -/
def resolveOutDir : List String → String
  | [] => ""
  | a :: rest =>
      match strFind a.data find_arg.data with
      | some pos => String.mk (a.data.drop (pos + find_arg.length))
      | none => resolveOutDir rest

/-- The destructor `~HookIdempotencyStatistics`: the four logs written under `out_dir`, in
the order of the source. -/
def HookIdempotencyStatistics.destructor (h : HookIdempotencyStatistics) (args : List String)
    (opens : String → Bool) : List FileWrite :=
  let out_dir := resolveOutDir args
  [h.warDetector.log.write out_dir opens,
   h.warDetectorInterProcedural.log.write out_dir opens,
   h.warDetectorNoProtected.log.write out_dir opens,
   h.warDetectorNoProtectedInterProcedural.log.write out_dir opens]

/-- Every entry of the read set is the record of the most recent read call of the region
`hist` that covers its address, and the read set holds one entry per address. -/
def ReadsRecent (wd : WarDetector) (hist : List DetectCall) : Prop :=
  AccessSet.WF wd.reads ∧
  ∀ x ∈ wd.reads, ∃ h1 r h2, hist = h1 ++ r :: h2 ∧ r.is_read = true ∧
    covers r x.address = true ∧ x.pc = r.istate.pc ∧ x.icount = r.istate.icount ∧
    ∀ y ∈ h2, y.is_read = true → covers y x.address = false

/-- The most recent WAR record of a log, if the log holds one. -/
def lastWarLine (log : WarLog) : Option WarLogLine :=
  log.warLogLines.foldl
    (fun acc l => if l.region_end_type == RegionEndType.RE_WAR.toNat then some l else acc) none

/-! ## Basic facts about the access sets -/

theorem AccessSet.find_isSome_iff (s : AccessSet) (m : MemAccessState) :
    (AccessSet.find s m).isSome = true ↔ ∃ x ∈ s, x.address = m.address := by
  unfold AccessSet.find
  rw [List.find?_isSome]
  simp

theorem AccessSet.find_eq_none_iff (s : AccessSet) (m : MemAccessState) :
    AccessSet.find s m = none ↔ ∀ x ∈ s, x.address ≠ m.address := by
  unfold AccessSet.find
  rw [List.find?_eq_none]
  simp

theorem AccessSet.find_some_mem {s : AccessSet} {m r : MemAccessState}
    (h : AccessSet.find s m = some r) : r ∈ s ∧ r.address = m.address := by
  unfold AccessSet.find at h
  refine ⟨List.mem_of_find?_eq_some h, ?_⟩
  have := List.find?_some h
  simpa using this

theorem AccessSet.hasAddr_iff (s : AccessSet) (a : Nat) :
    AccessSet.hasAddr s a = true ↔ ∃ x ∈ s, x.address = a := by
  unfold AccessSet.hasAddr
  simp

theorem AccessSet.hasAddr_eq_false_iff (s : AccessSet) (a : Nat) :
    AccessSet.hasAddr s a = false ↔ ∀ x ∈ s, x.address ≠ a := by
  unfold AccessSet.hasAddr
  simp

theorem AccessSet.find_isSome_eq_hasAddr (s : AccessSet) (m : MemAccessState) :
    (AccessSet.find s m).isSome = AccessSet.hasAddr s m.address := by
  rw [Bool.eq_iff_iff, AccessSet.find_isSome_iff, AccessSet.hasAddr_iff]

theorem AccessSet.hasAddr_insert (s : AccessSet) (m : MemAccessState) (a : Nat) :
    AccessSet.hasAddr (AccessSet.insert s m) a = true ↔
      AccessSet.hasAddr s a = true ∨ a = m.address := by
  unfold AccessSet.insert
  cases h : AccessSet.find s m with
  | none =>
    simp only [AccessSet.hasAddr, List.any_cons, Bool.or_eq_true, beq_iff_eq]
    constructor
    · rintro (h1 | h1)
      · exact Or.inr h1.symm
      · exact Or.inl h1
    · rintro (h1 | h1)
      · exact Or.inr h1
      · exact Or.inl h1.symm
  | some r =>
    have hm := AccessSet.find_some_mem h
    constructor
    · intro h1; exact Or.inl h1
    · rintro (h1 | h1)
      · exact h1
      · exact (AccessSet.hasAddr_iff s a).mpr ⟨r, hm.1, by rw [h1]; exact hm.2⟩

theorem AccessSet.hasAddr_erase_of_ne (s : AccessSet) (m : MemAccessState) (a : Nat)
    (hne : a ≠ m.address) :
    AccessSet.hasAddr (AccessSet.erase s m) a = AccessSet.hasAddr s a := by
  rw [Bool.eq_iff_iff, AccessSet.hasAddr_iff, AccessSet.hasAddr_iff]
  unfold AccessSet.erase
  constructor
  · rintro ⟨x, hx, hxa⟩
    exact ⟨x, List.mem_of_mem_eraseP hx, hxa⟩
  · rintro ⟨x, hx, hxa⟩
    refine ⟨x, ?_, hxa⟩
    have hp : ¬ ((fun y : MemAccessState => y.address == m.address) x = true) := by
      simp only [beq_iff_eq]
      intro h; exact hne (hxa ▸ h)
    exact (@List.mem_eraseP_of_neg _ (fun y : MemAccessState => y.address == m.address)
      x s hp).mpr hx

theorem AccessSet.hasAddr_erase_insert (s : AccessSet) (m : MemAccessState) (a : Nat) :
    AccessSet.hasAddr (AccessSet.insert (AccessSet.erase s m) m) a = true ↔
      AccessSet.hasAddr s a = true ∨ a = m.address := by
  rw [AccessSet.hasAddr_insert]
  by_cases hne : a = m.address
  · simp [hne]
  · rw [AccessSet.hasAddr_erase_of_ne s m a hne]

theorem AccessSet.mem_insert_sub (s : AccessSet) (m x : MemAccessState)
    (h : x ∈ AccessSet.insert s m) : x ∈ s ∨ x = m := by
  unfold AccessSet.insert at h
  cases hf : AccessSet.find s m with
  | none =>
    rw [hf] at h
    rcases List.mem_cons.mp h with h1 | h1
    · exact Or.inr h1
    · exact Or.inl h1
  | some r =>
    rw [hf] at h
    exact Or.inl h

theorem AccessSet.mem_erase_sub (s : AccessSet) (m x : MemAccessState)
    (h : x ∈ AccessSet.erase s m) : x ∈ s :=
  List.mem_of_mem_eraseP h

/-! ## Facts about the per-byte operations -/

theorem byteStates_mem_iff (istate : InstructionState) (m : MemAccessState) :
    m ∈ WarDetector.byteStates istate ↔
      ∃ i, i < istate.mem_size ∧
        m = ⟨(istate.mem_address + i) % ADDR_MOD, istate.pc, istate.icount⟩ := by
  unfold WarDetector.byteStates
  simp only [List.mem_map, List.mem_range]
  constructor
  · rintro ⟨i, hi, rfl⟩
    exact ⟨i, hi, rfl⟩
  · rintro ⟨i, hi, rfl⟩
    exact ⟨i, hi, rfl⟩

theorem byteStates_addr_iff (istate : InstructionState) (a : Nat) :
    (∃ m ∈ WarDetector.byteStates istate, m.address = a) ↔
      ∃ i, i < istate.mem_size ∧ (istate.mem_address + i) % ADDR_MOD = a := by
  constructor
  · rintro ⟨m, hm, rfl⟩
    obtain ⟨i, hi, rfl⟩ := (byteStates_mem_iff istate m).mp hm
    exact ⟨i, hi, rfl⟩
  · rintro ⟨i, hi, rfl⟩
    exact ⟨_, (byteStates_mem_iff istate _).mpr ⟨i, hi, rfl⟩, rfl⟩

theorem addWriteByte_fst (wd : WarDetector) (m : MemAccessState) :
    (wd.addWriteByte m).1 = warAt wd m.address := by
  obtain ⟨dpw, R, W, vr, vw, lg⟩ := wd
  have hr := AccessSet.find_isSome_eq_hasAddr R m
  have hw := AccessSet.find_isSome_eq_hasAddr W m
  unfold WarDetector.addWriteByte warAt
  dsimp only
  rw [← hr, ← hw]
  cases AccessSet.find R m <;> cases AccessSet.find W m <;> cases dpw <;> rfl

theorem addWriteByte_frame (wd : WarDetector) (m : MemAccessState) :
    (wd.addWriteByte m).2.reads = wd.reads ∧
    (wd.addWriteByte m).2.detect_protected_war = wd.detect_protected_war ∧
    (wd.addWriteByte m).2.log = wd.log := by
  obtain ⟨dpw, R, W, vr, vw, lg⟩ := wd
  unfold WarDetector.addWriteByte
  dsimp only
  cases AccessSet.find R m <;> cases AccessSet.find W m <;> cases dpw <;>
    exact ⟨rfl, rfl, rfl⟩

theorem addWriteByte_writes (wd : WarDetector) (m : MemAccessState) (a : Nat) :
    AccessSet.hasAddr (wd.addWriteByte m).2.writes a = true ↔
      AccessSet.hasAddr wd.writes a = true ∨
        (a = m.address ∧ AccessSet.hasAddr wd.reads a = false) := by
  have hr := AccessSet.find_isSome_eq_hasAddr wd.reads m
  have hw := AccessSet.find_isSome_eq_hasAddr wd.writes m
  unfold WarDetector.addWriteByte
  cases hfr : AccessSet.find wd.reads m with
  | some rd =>
    rw [hfr] at hr
    have hr1 : AccessSet.hasAddr wd.reads m.address = true := by rw [← hr]; rfl
    have key : AccessSet.hasAddr wd.writes a = true ↔
        AccessSet.hasAddr wd.writes a = true ∨
          (a = m.address ∧ AccessSet.hasAddr wd.reads a = false) := by
      constructor
      · intro h; exact Or.inl h
      · rintro (h | ⟨h1, h2⟩)
        · exact h
        · rw [h1, hr1] at h2; exact absurd h2 (by simp)
    cases hfw : AccessSet.find wd.writes m with
    | some wv =>
      by_cases hd : wd.detect_protected_war = true
      · simp only [hd, if_true]; exact key
      · simp only [hd, if_false]; exact key
    | none => exact key
  | none =>
    rw [hfr] at hr
    have hr0 : AccessSet.hasAddr wd.reads m.address = false := by rw [← hr]; rfl
    have key : (AccessSet.hasAddr wd.writes a = true ∨ a = m.address) ↔
        AccessSet.hasAddr wd.writes a = true ∨
          (a = m.address ∧ AccessSet.hasAddr wd.reads a = false) := by
      constructor
      · rintro (h | h)
        · exact Or.inl h
        · exact Or.inr ⟨h, by rw [h]; exact hr0⟩
      · rintro (h | ⟨h1, _⟩)
        · exact Or.inl h
        · exact Or.inr h1
    cases hfw : AccessSet.find wd.writes m with
    | some wv => exact (AccessSet.hasAddr_erase_insert wd.writes m a).trans key
    | none => exact (AccessSet.hasAddr_insert wd.writes m a).trans key

theorem addWriteByte_warAt (wd : WarDetector) (m : MemAccessState) (x : Nat) :
    warAt (wd.addWriteByte m).2 x = warAt wd x := by
  obtain ⟨h1, h2, _⟩ := addWriteByte_frame wd m
  have hw := addWriteByte_writes wd m x
  unfold warAt
  rw [h1, h2]
  cases hr : AccessSet.hasAddr wd.reads x with
  | false => simp
  | true =>
    have : AccessSet.hasAddr (wd.addWriteByte m).2.writes x = AccessSet.hasAddr wd.writes x := by
      rw [Bool.eq_iff_iff, hw]
      constructor
      · rintro (h | ⟨_, h⟩)
        · exact h
        · rw [hr] at h; exact absurd h (by simp)
      · intro h; exact Or.inl h
    rw [this]

theorem addWriteByte_violating (wd : WarDetector) (m : MemAccessState) :
    (warAt wd m.address = false →
      (wd.addWriteByte m).2.violatingRead = wd.violatingRead ∧
      (wd.addWriteByte m).2.violatingWrite = wd.violatingWrite) ∧
    (warAt wd m.address = true →
      AccessSet.find wd.reads m = some (wd.addWriteByte m).2.violatingRead ∧
      (wd.addWriteByte m).2.violatingWrite = m ∧
      (wd.addWriteByte m).2.writes = wd.writes) := by
  obtain ⟨dpw, R, W, vr, vw, lg⟩ := wd
  have hr := AccessSet.find_isSome_eq_hasAddr R m
  have hw := AccessSet.find_isSome_eq_hasAddr W m
  unfold WarDetector.addWriteByte warAt
  dsimp only
  rw [← hr, ← hw]
  cases AccessSet.find R m <;> cases AccessSet.find W m <;> cases dpw <;> simp

/-! ## Facts about the per-event loops -/

theorem addWriteFold_spec (ms : List MemAccessState) (w0 : Bool) (wd : WarDetector) :
    (ms.foldl WarDetector.addWriteStep (w0, wd)).2.reads = wd.reads ∧
    (ms.foldl WarDetector.addWriteStep (w0, wd)).2.detect_protected_war =
      wd.detect_protected_war ∧
    (ms.foldl WarDetector.addWriteStep (w0, wd)).2.log = wd.log ∧
    ((ms.foldl WarDetector.addWriteStep (w0, wd)).1 = true ↔
      w0 = true ∨ ∃ m ∈ ms, warAt wd m.address = true) ∧
    (∀ a, AccessSet.hasAddr (ms.foldl WarDetector.addWriteStep (w0, wd)).2.writes a = true ↔
      AccessSet.hasAddr wd.writes a = true ∨
        ((∃ m ∈ ms, m.address = a) ∧ AccessSet.hasAddr wd.reads a = false)) := by
  induction ms generalizing w0 wd with
  | nil => simp
  | cons m rest ih =>
    rw [List.foldl_cons]
    obtain ⟨f1, f2, f3⟩ := addWriteByte_frame wd m
    have hstep : WarDetector.addWriteStep (w0, wd) m =
        (if (wd.addWriteByte m).1 == true then true else w0, (wd.addWriteByte m).2) := rfl
    rw [hstep]
    obtain ⟨i1, i2, i3, i4, i5⟩ :=
      ih (if (wd.addWriteByte m).1 == true then true else w0) (wd.addWriteByte m).2
    refine ⟨i1.trans f1, i2.trans f2, i3.trans f3, ?_, ?_⟩
    · rw [i4]
      simp only [addWriteByte_warAt, addWriteByte_fst, List.mem_cons, exists_eq_or_imp]
      cases warAt wd m.address <;> simp
    · intro a
      rw [i5 a, addWriteByte_writes wd m a, f1]
      simp only [List.mem_cons, exists_eq_or_imp]
      constructor
      · rintro ((h | ⟨h1, h2⟩) | ⟨h1, h2⟩)
        · exact Or.inl h
        · exact Or.inr ⟨Or.inl h1.symm, h2⟩
        · exact Or.inr ⟨Or.inr h1, h2⟩
      · rintro (h | ⟨h1 | h1, h2⟩)
        · exact Or.inl (Or.inl h)
        · exact Or.inl (Or.inr ⟨h1.symm, h2⟩)
        · exact Or.inr ⟨h1, h2⟩

theorem addWriteFold_violating_none (ms : List MemAccessState) (w0 : Bool) (wd : WarDetector)
    (h : ∀ m ∈ ms, warAt wd m.address = false) :
    (ms.foldl WarDetector.addWriteStep (w0, wd)).2.violatingRead = wd.violatingRead ∧
    (ms.foldl WarDetector.addWriteStep (w0, wd)).2.violatingWrite = wd.violatingWrite := by
  induction ms generalizing w0 wd with
  | nil => exact ⟨rfl, rfl⟩
  | cons m rest ih =>
    rw [List.foldl_cons]
    have hstep : WarDetector.addWriteStep (w0, wd) m =
        (if (wd.addWriteByte m).1 == true then true else w0, (wd.addWriteByte m).2) := rfl
    rw [hstep]
    have hm := (addWriteByte_violating wd m).1 (h m (List.mem_cons_self _ _))
    have hrest : ∀ m2 ∈ rest, warAt (wd.addWriteByte m).2 m2.address = false := by
      intro m2 hm2
      rw [addWriteByte_warAt]
      exact h m2 (List.mem_cons_of_mem _ hm2)
    obtain ⟨j1, j2⟩ := ih (if (wd.addWriteByte m).1 == true then true else w0)
      (wd.addWriteByte m).2 hrest
    exact ⟨j1.trans hm.1, j2.trans hm.2⟩

theorem addWriteFold_violating_last (pre post : List MemAccessState) (m : MemAccessState)
    (w0 : Bool) (wd : WarDetector) (hm : warAt wd m.address = true)
    (hpost : ∀ m2 ∈ post, warAt wd m2.address = false) :
    AccessSet.find wd.reads m =
      some ((pre ++ m :: post).foldl WarDetector.addWriteStep (w0, wd)).2.violatingRead ∧
    ((pre ++ m :: post).foldl WarDetector.addWriteStep (w0, wd)).2.violatingWrite = m := by
  induction pre generalizing w0 wd with
  | nil =>
    rw [List.nil_append, List.foldl_cons]
    have hstep : WarDetector.addWriteStep (w0, wd) m =
        (if (wd.addWriteByte m).1 == true then true else w0, (wd.addWriteByte m).2) := rfl
    rw [hstep]
    have h1 := (addWriteByte_violating wd m).2 hm
    have hrest : ∀ m2 ∈ post, warAt (wd.addWriteByte m).2 m2.address = false := by
      intro m2 hm2
      rw [addWriteByte_warAt]
      exact hpost m2 hm2
    obtain ⟨j1, j2⟩ := addWriteFold_violating_none post
      (if (wd.addWriteByte m).1 == true then true else w0) (wd.addWriteByte m).2 hrest
    rw [j1, j2]
    exact ⟨h1.1, h1.2.1⟩
  | cons p pre ih =>
    rw [List.cons_append, List.foldl_cons]
    have hstep : WarDetector.addWriteStep (w0, wd) p =
        (if (wd.addWriteByte p).1 == true then true else w0, (wd.addWriteByte p).2) := rfl
    rw [hstep]
    have hm2 : warAt (wd.addWriteByte p).2 m.address = true := by
      rw [addWriteByte_warAt]; exact hm
    have hpost2 : ∀ m2 ∈ post, warAt (wd.addWriteByte p).2 m2.address = false := by
      intro m2 h2
      rw [addWriteByte_warAt]
      exact hpost m2 h2
    have := ih (if (wd.addWriteByte p).1 == true then true else w0) (wd.addWriteByte p).2
      hm2 hpost2
    rw [(addWriteByte_frame wd p).1] at this
    exact this

theorem addReadByte_frame (wd : WarDetector) (m : MemAccessState) :
    (wd.addReadByte m).writes = wd.writes ∧
    (wd.addReadByte m).detect_protected_war = wd.detect_protected_war ∧
    (wd.addReadByte m).log = wd.log ∧
    (wd.addReadByte m).violatingRead = wd.violatingRead ∧
    (wd.addReadByte m).violatingWrite = wd.violatingWrite := by
  unfold WarDetector.addReadByte
  cases AccessSet.find wd.reads m <;> exact ⟨rfl, rfl, rfl, rfl, rfl⟩

theorem addReadByte_reads (wd : WarDetector) (m : MemAccessState) (a : Nat) :
    AccessSet.hasAddr (wd.addReadByte m).reads a = true ↔
      AccessSet.hasAddr wd.reads a = true ∨ a = m.address := by
  unfold WarDetector.addReadByte
  cases AccessSet.find wd.reads m with
  | some r => exact AccessSet.hasAddr_erase_insert wd.reads m a
  | none => exact AccessSet.hasAddr_insert wd.reads m a

theorem addReadByte_mem (wd : WarDetector) (m x : MemAccessState)
    (h : x ∈ (wd.addReadByte m).reads) : x ∈ wd.reads ∨ x = m := by
  unfold WarDetector.addReadByte at h
  cases hf : AccessSet.find wd.reads m with
  | some r =>
    rw [hf] at h
    rcases AccessSet.mem_insert_sub _ m x h with h1 | h1
    · exact Or.inl (AccessSet.mem_erase_sub _ m x h1)
    · exact Or.inr h1
  | none =>
    rw [hf] at h
    exact AccessSet.mem_insert_sub _ m x h

theorem addReadFold_spec (ms : List MemAccessState) (wd : WarDetector) :
    (ms.foldl WarDetector.addReadByte wd).writes = wd.writes ∧
    (ms.foldl WarDetector.addReadByte wd).detect_protected_war = wd.detect_protected_war ∧
    (ms.foldl WarDetector.addReadByte wd).log = wd.log ∧
    (ms.foldl WarDetector.addReadByte wd).violatingRead = wd.violatingRead ∧
    (ms.foldl WarDetector.addReadByte wd).violatingWrite = wd.violatingWrite ∧
    (∀ a, AccessSet.hasAddr (ms.foldl WarDetector.addReadByte wd).reads a = true ↔
      AccessSet.hasAddr wd.reads a = true ∨ ∃ m ∈ ms, m.address = a) ∧
    (∀ x ∈ (ms.foldl WarDetector.addReadByte wd).reads, x ∈ wd.reads ∨ x ∈ ms) := by
  induction ms generalizing wd with
  | nil => simp
  | cons m rest ih =>
    rw [List.foldl_cons]
    obtain ⟨f1, f2, f3, f4, f5⟩ := addReadByte_frame wd m
    obtain ⟨i1, i2, i3, i4, i5, i6, i7⟩ := ih (wd.addReadByte m)
    refine ⟨i1.trans f1, i2.trans f2, i3.trans f3, i4.trans f4, i5.trans f5, ?_, ?_⟩
    · intro a
      rw [i6 a, addReadByte_reads wd m a]
      simp only [List.mem_cons, exists_eq_or_imp]
      constructor
      · rintro ((h | h) | h)
        · exact Or.inl h
        · exact Or.inr (Or.inl h.symm)
        · exact Or.inr (Or.inr h)
      · rintro (h | h | h)
        · exact Or.inl (Or.inl h)
        · exact Or.inl (Or.inr h.symm)
        · exact Or.inr h
    · intro x hx
      rcases i7 x hx with h | h
      · rcases addReadByte_mem wd m x h with h2 | h2
        · exact Or.inl h2
        · exact Or.inr (h2 ▸ List.mem_cons_self _ _)
      · exact Or.inr (List.mem_cons_of_mem _ h)

theorem addWrite_spec (wd : WarDetector) (istate : InstructionState) :
    (wd.addWrite istate).2.reads = wd.reads ∧
    (wd.addWrite istate).2.detect_protected_war = wd.detect_protected_war ∧
    (wd.addWrite istate).2.log = wd.log ∧
    ((wd.addWrite istate).1 = true ↔
      ∃ i, i < istate.mem_size ∧ warAt wd ((istate.mem_address + i) % ADDR_MOD) = true) ∧
    (∀ a, AccessSet.hasAddr (wd.addWrite istate).2.writes a = true ↔
      AccessSet.hasAddr wd.writes a = true ∨
        ((∃ i, i < istate.mem_size ∧ (istate.mem_address + i) % ADDR_MOD = a) ∧
          AccessSet.hasAddr wd.reads a = false)) := by
  obtain ⟨h1, h2, h3, h4, h5⟩ := addWriteFold_spec (WarDetector.byteStates istate) false wd
  refine ⟨h1, h2, h3, ?_, ?_⟩
  · unfold WarDetector.addWrite
    rw [h4]
    simp only [Bool.false_eq_true, false_or]
    constructor
    · rintro ⟨m, hm, hw⟩
      obtain ⟨i, hi, rfl⟩ := (byteStates_mem_iff istate m).mp hm
      exact ⟨i, hi, hw⟩
    · rintro ⟨i, hi, hw⟩
      exact ⟨_, (byteStates_mem_iff istate _).mpr ⟨i, hi, rfl⟩, hw⟩
  · intro a
    unfold WarDetector.addWrite
    rw [h5 a, byteStates_addr_iff]

theorem addRead_spec (wd : WarDetector) (istate : InstructionState) :
    (wd.addRead istate).writes = wd.writes ∧
    (wd.addRead istate).detect_protected_war = wd.detect_protected_war ∧
    (wd.addRead istate).log = wd.log ∧
    (wd.addRead istate).violatingRead = wd.violatingRead ∧
    (wd.addRead istate).violatingWrite = wd.violatingWrite ∧
    (∀ a, AccessSet.hasAddr (wd.addRead istate).reads a = true ↔
      AccessSet.hasAddr wd.reads a = true ∨
        ∃ i, i < istate.mem_size ∧ (istate.mem_address + i) % ADDR_MOD = a) ∧
    (∀ x ∈ (wd.addRead istate).reads, x ∈ wd.reads ∨ x.icount = istate.icount) := by
  obtain ⟨h1, h2, h3, h4, h5, h6, h7⟩ := addReadFold_spec (WarDetector.byteStates istate) wd
  refine ⟨h1, h2, h3, h4, h5, ?_, ?_⟩
  · intro a
    unfold WarDetector.addRead
    rw [h6 a, byteStates_addr_iff]
  · intro x hx
    rcases h7 x hx with h | h
    · exact Or.inl h
    · obtain ⟨i, _, rfl⟩ := (byteStates_mem_iff istate x).mp h
      exact Or.inr rfl

theorem hasAddr_nil (a : Nat) : AccessSet.hasAddr [] a = false := rfl

theorem warAt_of_reads_nil (wd : WarDetector) (h : wd.reads = []) (a : Nat) :
    warAt wd a = false := by
  unfold warAt
  rw [h, hasAddr_nil]
  rfl

/-! ## Facts about detectWar -/

theorem detectWarEntry_skip (hic : HookInstructionCount) (wd : WarDetector)
    (istate : InstructionState) (inter : Bool)
    (h : ¬ (inter = true ∧ hic.new_function = true)) :
    detectWarEntry hic wd istate inter = wd := by
  unfold detectWarEntry
  have : (inter == true && hic.new_function == true) = false := by
    cases inter <;> cases hn : hic.new_function <;> simp_all
  rw [this]
  rfl

theorem detectWarEntry_taken (hic : HookInstructionCount) (wd : WarDetector)
    (istate : InstructionState) (inter : Bool)
    (h : inter = true ∧ hic.new_function = true) :
    detectWarEntry hic wd istate inter =
      WarDetector.reset { wd with log := wd.log.add (functionEntryLine hic istate) } := by
  unfold detectWarEntry
  rw [h.1, h.2]
  rfl

theorem detectWar_read (hic : HookInstructionCount) (sp : Nat) (wd : WarDetector)
    (istate : InstructionState) (inter : Bool) :
    detectWar hic sp wd istate true inter =
      (false, (detectWarEntry hic wd istate inter).addRead istate) := by
  unfold detectWar
  simp

theorem detectWar_write_quiet (hic : HookInstructionCount) (sp : Nat) (wd : WarDetector)
    (istate : InstructionState) (inter : Bool)
    (h : ((detectWarEntry hic wd istate inter).addWrite istate).1 = false) :
    detectWar hic sp wd istate false inter =
      (false, ((detectWarEntry hic wd istate inter).addWrite istate).2) := by
  unfold detectWar
  simp [h]

theorem detectWar_write_war (hic : HookInstructionCount) (sp : Nat) (wd : WarDetector)
    (istate : InstructionState) (inter : Bool)
    (h : ((detectWarEntry hic wd istate inter).addWrite istate).1 = true) :
    detectWar hic sp wd istate false inter =
      (true, ((WarDetector.reset
        { ((detectWarEntry hic wd istate inter).addWrite istate).2 with
          log := ((detectWarEntry hic wd istate inter).addWrite istate).2.log.add
            (warLine ((detectWarEntry hic wd istate inter).addWrite istate).2.violatingRead
              ((detectWarEntry hic wd istate inter).addWrite istate).2.violatingWrite istate
              (getMemAccessType hic sp istate)) }).addWrite istate).2) := by
  unfold detectWar
  simp [h, WarDetector.getViolatingRead, WarDetector.getViolatingWrite]

/-- The detector that `detectWar` leaves behind after logging a WAR for the write `istate`:
the read set is empty, the write set holds the bytes of the write, the log has one more line. -/
theorem afterWar_spec (wd : WarDetector) (l : WarLogLine) (istate : InstructionState) :
    ((WarDetector.reset { wd with log := wd.log.add l }).addWrite istate).2.reads = [] ∧
    ((WarDetector.reset { wd with log := wd.log.add l }).addWrite istate).2.detect_protected_war
      = wd.detect_protected_war ∧
    ((WarDetector.reset { wd with log := wd.log.add l }).addWrite istate).2.log.warLogLines
      = wd.log.warLogLines ++ [l] ∧
    (∀ a, AccessSet.hasAddr
        ((WarDetector.reset { wd with log := wd.log.add l }).addWrite istate).2.writes a = true ↔
      ∃ i, i < istate.mem_size ∧ (istate.mem_address + i) % ADDR_MOD = a) := by
  obtain ⟨h1, h2, h3, _, h5⟩ :=
    addWrite_spec (WarDetector.reset { wd with log := wd.log.add l }) istate
  refine ⟨h1, h2, ?_, ?_⟩
  · rw [h3]; rfl
  · intro a
    rw [h5 a]
    have e1 : AccessSet.hasAddr (WarDetector.reset { wd with log := wd.log.add l }).writes a
        = false := rfl
    have e2 : AccessSet.hasAddr (WarDetector.reset { wd with log := wd.log.add l }).reads a
        = false := rfl
    rw [e1, e2]
    simp

/-! ## Facts about regions -/

theorem covers_iff (c : DetectCall) (b : Nat) :
    covers c b = true ↔
      ∃ i, i < c.istate.mem_size ∧ (c.istate.mem_address + i) % ADDR_MOD = b := by
  unfold covers
  simp [List.any_eq_true]

theorem readSince_append (hist : List DetectCall) (c : DetectCall) (b : Nat) :
    readSince (hist ++ [c]) b ↔ readSince hist b ∨ (c.is_read = true ∧ covers c b = true) := by
  unfold readSince
  simp only [List.mem_append, List.mem_singleton]
  constructor
  · rintro ⟨x, hx | hx, h1, h2⟩
    · exact Or.inl ⟨x, hx, h1, h2⟩
    · subst hx; exact Or.inr ⟨h1, h2⟩
  · rintro (⟨x, hx, h1, h2⟩ | ⟨h1, h2⟩)
    · exact ⟨x, Or.inl hx, h1, h2⟩
    · exact ⟨c, Or.inr rfl, h1, h2⟩

theorem readSince_nil (b : Nat) : ¬ readSince [] b := by
  unfold readSince
  simp

theorem findCover_none_iff (hist : List DetectCall) (b : Nat) :
    hist.find? (fun c => covers c b) = none ↔ ∀ x ∈ hist, covers x b = false := by
  rw [List.find?_eq_none]
  simp

theorem firstAccessIsWrite_append (hist : List DetectCall) (c : DetectCall) (b : Nat) :
    firstAccessIsWrite (hist ++ [c]) b ↔
      firstAccessIsWrite hist b ∨
        ((∀ x ∈ hist, covers x b = false) ∧ c.is_read = false ∧ covers c b = true) := by
  unfold firstAccessIsWrite
  rw [List.find?_append]
  cases h : hist.find? (fun c => covers c b) with
  | none =>
    have hn := (findCover_none_iff hist b).mp h
    simp only [Option.none_or, List.find?_singleton]
    constructor
    · rintro ⟨d, hd, hw⟩
      by_cases hc : covers c b = true
      · rw [if_pos hc] at hd
        cases hd
        exact Or.inr ⟨hn, hw, hc⟩
      · rw [if_neg hc] at hd
        cases hd
    · rintro (⟨d, hd, _⟩ | ⟨_, hw, hc⟩)
      · cases hd
      · exact ⟨c, by rw [if_pos hc], hw⟩
  | some d =>
    have hd := List.find?_some h
    have hmem := List.mem_of_find?_eq_some h
    simp only [Option.or_some]
    constructor
    · intro hx; exact Or.inl hx
    · rintro (hx | ⟨hn, _, _⟩)
      · exact hx
      · have := hn d hmem
        rw [this] at hd
        cases hd

theorem firstAccessIsWrite_singleton (c : DetectCall) (b : Nat) :
    firstAccessIsWrite [c] b ↔ (c.is_read = false ∧ covers c b = true) := by
  have := firstAccessIsWrite_append [] c b
  simp only [List.nil_append] at this
  rw [this]
  unfold firstAccessIsWrite
  simp

theorem firstAccess_not_both (hist : List DetectCall) (b : Nat)
    (h1 : firstAccessIsRead hist b) : ¬ firstAccessIsWrite hist b := by
  obtain ⟨c, hc, hr⟩ := h1
  rintro ⟨d, hd, hw⟩
  rw [hc] at hd
  cases hd
  rw [hr] at hw
  cases hw

theorem firstAccess_read_of_not_write (hist : List DetectCall) (b : Nat)
    (h1 : readSince hist b) (h2 : ¬ firstAccessIsWrite hist b) : firstAccessIsRead hist b := by
  obtain ⟨c, hc, _, hcov⟩ := h1
  cases hf : hist.find? (fun c => covers c b) with
  | none =>
    have := (findCover_none_iff hist b).mp hf c hc
    rw [this] at hcov
    cases hcov
  | some d =>
    cases hd : d.is_read with
    | true => exact ⟨d, hf, hd⟩
    | false => exact absurd ⟨d, hf, hd⟩ h2

theorem Tracks.warAt_iff {dpw : Bool} {wd : WarDetector} {hist : List DetectCall}
    (hT : Tracks dpw wd hist) (b : Nat) :
    warAt wd b = true ↔ readSince hist b ∧ (dpw = true → firstAccessIsRead hist b) := by
  obtain ⟨hd, hR, hW⟩ := hT
  unfold warAt
  rw [Bool.and_eq_true, hR b, hd]
  constructor
  · rintro ⟨h1, h2⟩
    refine ⟨h1, fun hp => ?_⟩
    subst hp
    apply firstAccess_read_of_not_write hist b h1
    intro hw
    have := (hW b).mpr hw
    rw [this] at h2
    simp at h2
  · rintro ⟨h1, h2⟩
    refine ⟨h1, ?_⟩
    cases dpw with
    | false => simp
    | true =>
      have hnw := firstAccess_not_both hist b (h2 rfl)
      have : AccessSet.hasAddr wd.writes b = false := by
        cases hh : AccessSet.hasAddr wd.writes b with
        | false => rfl
        | true => exact absurd ((hW b).mp hh) hnw
      rw [this]
      rfl

theorem Tracks.untouched_iff {dpw : Bool} {wd : WarDetector} {hist : List DetectCall}
    (hT : Tracks dpw wd hist) (b : Nat) :
    (∀ x ∈ hist, covers x b = false) ↔
      (AccessSet.hasAddr wd.reads b = false ∧ AccessSet.hasAddr wd.writes b = false) := by
  obtain ⟨_, hR, hW⟩ := hT
  constructor
  · intro hn
    constructor
    · cases hh : AccessSet.hasAddr wd.reads b with
      | false => rfl
      | true =>
        obtain ⟨c, hc, _, hcov⟩ := (hR b).mp hh
        rw [hn c hc] at hcov
        cases hcov
    · cases hh : AccessSet.hasAddr wd.writes b with
      | false => rfl
      | true =>
        obtain ⟨c, hc, _⟩ := (hW b).mp hh
        have h1 := List.find?_some hc
        have h2 := List.mem_of_find?_eq_some hc
        rw [hn c h2] at h1
        cases h1
  · rintro ⟨h1, h2⟩
    rw [← findCover_none_iff]
    cases hf : hist.find? (fun c => covers c b) with
    | none => rfl
    | some d =>
      have hcov := List.find?_some hf
      have hmem := List.mem_of_find?_eq_some hf
      cases hd : d.is_read with
      | true =>
        have := (hR b).mpr ⟨d, hmem, hd, hcov⟩
        rw [this] at h1
        cases h1
      | false =>
        have := (hW b).mpr ⟨d, hf, hd⟩
        rw [this] at h2
        cases h2

theorem Tracks.init (logfile : String) (dpw : Bool) :
    Tracks dpw (WarDetector.init logfile dpw) [] := by
  refine ⟨rfl, fun b => ?_, fun b => ?_⟩
  · have : AccessSet.hasAddr (WarDetector.init logfile dpw).reads b = false := rfl
    rw [this]
    simp [readSince]
  · have : AccessSet.hasAddr (WarDetector.init logfile dpw).writes b = false := rfl
    rw [this]
    simp [firstAccessIsWrite]

/-! ## One call of detectWar against the region it tracks -/

theorem addWrite_fst_iff_warCondition {dpw : Bool} {wd : WarDetector} {hist : List DetectCall}
    (hT : Tracks dpw wd hist) (c : DetectCall) (hr : c.is_read = false) :
    (wd.addWrite c.istate).1 = true ↔ warCondition dpw hist c := by
  rw [(addWrite_spec wd c.istate).2.2.2.1]
  unfold warCondition
  constructor
  · rintro ⟨i, hi, hw⟩
    have := (hT.warAt_iff _).mp hw
    exact ⟨hr, _, (covers_iff c _).mpr ⟨i, hi, rfl⟩, this.1, this.2⟩
  · rintro ⟨_, b, hcov, h1, h2⟩
    obtain ⟨i, hi, rfl⟩ := (covers_iff c b).mp hcov
    exact ⟨i, hi, (hT.warAt_iff _).mpr ⟨h1, h2⟩⟩

theorem step_of_tracks (dpw : Bool) (wd : WarDetector) (hist : List DetectCall)
    (c : DetectCall) (inter : Bool)
    (hne : ¬ (inter = true ∧ c.hic.new_function = true)) (hT : Tracks dpw wd hist) :
    (warCondition dpw hist c →
      (detectWar c.hic c.sp wd c.istate c.is_read inter).1 = true ∧
      (∃ l, l.region_end_type = RegionEndType.RE_WAR.toNat ∧
        (stepDetect inter wd c).log.warLogLines = wd.log.warLogLines ++ [l]) ∧
      Tracks dpw (stepDetect inter wd c) [c]) ∧
    (¬ warCondition dpw hist c →
      (detectWar c.hic c.sp wd c.istate c.is_read inter).1 = false ∧
      (stepDetect inter wd c).log = wd.log ∧
      Tracks dpw (stepDetect inter wd c) (hist ++ [c])) := by
  have hskip := detectWarEntry_skip c.hic wd c.istate inter hne
  have hT0 := hT
  obtain ⟨hd, hR, hW⟩ := hT
  unfold stepDetect
  cases hr : c.is_read with
  | true =>
    rw [detectWar_read, hskip]
    have hnw : ¬ warCondition dpw hist c := by
      rintro ⟨h, _⟩
      rw [hr] at h
      cases h
    obtain ⟨a1, a2, a3, _, _, a6, _⟩ := addRead_spec wd c.istate
    refine ⟨fun h => absurd h hnw, fun _ => ⟨rfl, a3, a2.trans hd, fun b => ?_, fun b => ?_⟩⟩
    · show AccessSet.hasAddr (wd.addRead c.istate).reads b = true ↔ _
      rw [a6 b, readSince_append, hR b, hr, covers_iff]
      simp
    · show AccessSet.hasAddr (wd.addRead c.istate).writes b = true ↔ _
      rw [a1, hW b, firstAccessIsWrite_append, hr]
      simp
  | false =>
    have hiff := addWrite_fst_iff_warCondition hT0 c hr
    obtain ⟨b1, b2, b3, _, b5⟩ := addWrite_spec wd c.istate
    constructor
    · intro hw
      have h1 : ((detectWarEntry c.hic wd c.istate inter).addWrite c.istate).1 = true := by
        rw [hskip]; exact hiff.mpr hw
      rw [detectWar_write_war _ _ _ _ _ h1, hskip]
      obtain ⟨e1, e2, e3, e4⟩ := afterWar_spec (wd.addWrite c.istate).2
        (warLine (wd.addWrite c.istate).2.violatingRead (wd.addWrite c.istate).2.violatingWrite
          c.istate (getMemAccessType c.hic c.sp c.istate)) c.istate
      refine ⟨rfl, ⟨warLine (wd.addWrite c.istate).2.violatingRead
        (wd.addWrite c.istate).2.violatingWrite c.istate
        (getMemAccessType c.hic c.sp c.istate), rfl, ?_⟩, ?_, fun b => ?_, fun b => ?_⟩
      · rw [← b3]; exact e3
      · exact e2.trans (b2.trans hd)
      · show AccessSet.hasAddr _ b = true ↔ _
        rw [e1, hasAddr_nil]
        have := readSince_append [] c b
        rw [List.nil_append] at this
        rw [this, hr]
        simp [readSince_nil]
      · show AccessSet.hasAddr _ b = true ↔ _
        rw [e4 b, firstAccessIsWrite_singleton, covers_iff, hr]
        simp
    · intro hw
      have h0 : (wd.addWrite c.istate).1 = false := by
        cases hh : (wd.addWrite c.istate).1 with
        | false => rfl
        | true => exact absurd (hiff.mp hh) hw
      have h1 : ((detectWarEntry c.hic wd c.istate inter).addWrite c.istate).1 = false := by
        rw [hskip]; exact h0
      rw [detectWar_write_quiet _ _ _ _ _ h1, hskip]
      refine ⟨rfl, b3, b2.trans hd, fun b => ?_, fun b => ?_⟩
      · show AccessSet.hasAddr (wd.addWrite c.istate).2.reads b = true ↔ _
        rw [b1, readSince_append, hR b, hr]
        simp
      · show AccessSet.hasAddr (wd.addWrite c.istate).2.writes b = true ↔ _
        rw [b5 b, firstAccessIsWrite_append, hT0.untouched_iff b, ← hW b, covers_iff, hr]
        constructor
        · rintro (h | ⟨hc, hrd⟩)
          · exact Or.inl h
          · cases hwb : AccessSet.hasAddr wd.writes b with
            | true => exact Or.inl rfl
            | false => exact Or.inr ⟨⟨hrd, rfl⟩, rfl, hc⟩
        · rintro (h | ⟨⟨hrd, _⟩, _, hc⟩)
          · exact Or.inl h
          · exact Or.inr ⟨hc, hrd⟩

/-! ## Runs of detectWar -/

theorem regionFold_fst (inter : Bool) (cs : List DetectCall) (wd : WarDetector)
    (h0 : List DetectCall) :
    (cs.foldl (regionStep inter) (wd, h0)).1 = runDetect inter wd cs := by
  induction cs generalizing wd h0 with
  | nil => rfl
  | cons c cs ih =>
    rw [List.foldl_cons]
    unfold runDetect
    rw [List.foldl_cons]
    exact ih _ _

theorem regionStartFold_fst (inter : Bool) (cs : List DetectCall) (wd : WarDetector)
    (n0 : Nat) :
    (cs.foldl (regionStartStep inter) (wd, n0)).1 = runDetect inter wd cs := by
  induction cs generalizing wd n0 with
  | nil => rfl
  | cons c cs ih =>
    rw [List.foldl_cons]
    unfold runDetect
    rw [List.foldl_cons]
    exact ih _ _

theorem runDetect_snoc (inter : Bool) (wd : WarDetector) (cs : List DetectCall)
    (c : DetectCall) :
    runDetect inter wd (cs ++ [c]) = stepDetect inter (runDetect inter wd cs) c := by
  unfold runDetect
  rw [List.foldl_append]
  rfl

theorem regionCalls_snoc (inter : Bool) (wd : WarDetector) (cs : List DetectCall)
    (c : DetectCall) :
    regionCalls inter wd (cs ++ [c]) =
      if logGrew inter (runDetect inter wd cs) c = true then [c]
      else regionCalls inter wd cs ++ [c] := by
  unfold regionCalls
  rw [List.foldl_append, List.foldl_cons, List.foldl_nil]
  have key : ∀ acc : WarDetector × List DetectCall, (regionStep inter acc c).2 =
      if logGrew inter acc.1 c = true then [c] else acc.2 ++ [c] := fun _ => rfl
  rw [key, regionFold_fst]

theorem regionStart_snoc (inter : Bool) (wd : WarDetector) (cs : List DetectCall)
    (c : DetectCall) :
    regionStart inter wd (cs ++ [c]) =
      if logGrew inter (runDetect inter wd cs) c = true then c.istate.icount
      else regionStart inter wd cs := by
  unfold regionStart
  rw [List.foldl_append, List.foldl_cons, List.foldl_nil]
  have key : ∀ acc : WarDetector × Nat, (regionStartStep inter acc c).2 =
      if logGrew inter acc.1 c = true then c.istate.icount else acc.2 := fun _ => rfl
  rw [key, regionStartFold_fst]

theorem logGrew_of_append (inter : Bool) (wd : WarDetector) (c : DetectCall) (l : WarLogLine)
    (h : (stepDetect inter wd c).log.warLogLines = wd.log.warLogLines ++ [l]) :
    logGrew inter wd c = true := by
  unfold logGrew
  rw [h]
  simp

theorem logGrew_of_same (inter : Bool) (wd : WarDetector) (c : DetectCall)
    (h : (stepDetect inter wd c).log = wd.log) :
    logGrew inter wd c = false := by
  unfold logGrew
  rw [h]
  simp

theorem warCondition_nil (dpw : Bool) (c : DetectCall) : ¬ warCondition dpw [] c := by
  rintro ⟨_, b, _, h, _⟩
  exact readSince_nil b h

theorem intra_run_tracks (logfile : String) (dpw : Bool) (cs : List DetectCall) :
    Tracks dpw (runDetect false (WarDetector.init logfile dpw) cs)
      (regionCalls false (WarDetector.init logfile dpw) cs) ∧
    (∀ h1 w h2, regionCalls false (WarDetector.init logfile dpw) cs = h1 ++ w :: h2 →
      ¬ warCondition dpw h1 w) := by
  induction cs using List.reverseRecOn with
  | nil =>
    refine ⟨Tracks.init logfile dpw, ?_⟩
    intro h1 w h2 h
    have : regionCalls false (WarDetector.init logfile dpw) [] = [] := rfl
    rw [this] at h
    cases h1 <;> cases h
  | append_singleton cs c ih =>
    obtain ⟨hT, hI⟩ := ih
    have hne : ¬ (false = true ∧ c.hic.new_function = true) := by simp
    obtain ⟨sw, sq⟩ := step_of_tracks dpw _ _ c false hne hT
    rw [runDetect_snoc, regionCalls_snoc]
    by_cases hw : warCondition dpw (regionCalls false (WarDetector.init logfile dpw) cs) c
    · obtain ⟨_, ⟨l, _, hl⟩, hT2⟩ := sw hw
      rw [if_pos (logGrew_of_append _ _ _ l hl)]
      refine ⟨hT2, ?_⟩
      intro h1 w h2 h
      cases h1 with
      | nil => exact warCondition_nil dpw w
      | cons x xs =>
        simp only [List.cons_append, List.cons.injEq] at h
        have := h.2
        cases xs <;> cases this
    · obtain ⟨_, hl, hT2⟩ := sq hw
      rw [if_neg (by rw [logGrew_of_same _ _ _ hl]; simp)]
      refine ⟨hT2, ?_⟩
      intro h1 w h2 h
      rcases List.eq_nil_or_concat h2 with h2n | ⟨h2p, x, rfl⟩
      · subst h2n
        have := List.append_inj' h rfl
        obtain ⟨e1, e2⟩ := this
        cases e2
        rw [← e1]
        exact hw
      · have h3 : regionCalls false (WarDetector.init logfile dpw) cs ++ [c] =
            (h1 ++ w :: h2p) ++ [x] := by
          rw [h]; simp
        have := List.append_inj' h3 rfl
        exact hI h1 w h2p this.1

/-! ## The violating records of a multi-byte write -/

theorem byteStates_split (istate : InstructionState) (i : Nat) (hi : i < istate.mem_size) :
    ∃ pre post, WarDetector.byteStates istate =
        pre ++ ⟨(istate.mem_address + i) % ADDR_MOD, istate.pc, istate.icount⟩ :: post ∧
      ∀ m ∈ post, ∃ j, i < j ∧ j < istate.mem_size ∧
        m = ⟨(istate.mem_address + j) % ADDR_MOD, istate.pc, istate.icount⟩ := by
  obtain ⟨k, hk⟩ : ∃ k, istate.mem_size = i + (k + 1) := ⟨istate.mem_size - i - 1, by omega⟩
  unfold WarDetector.byteStates
  rw [hk, List.range_add, List.range_succ_eq_map, List.map_append, List.map_cons,
    List.map_cons]
  refine ⟨_, _, rfl, ?_⟩
  intro m hm
  simp only [List.map_map, List.mem_map, List.mem_range, Function.comp] at hm
  obtain ⟨j, hj, rfl⟩ := hm
  exact ⟨i + (j + 1), by omega, by omega, rfl⟩

theorem exists_last_war (wd : WarDetector) (ms : List MemAccessState)
    (h : ∃ m ∈ ms, warAt wd m.address = true) :
    ∃ pre m post, ms = pre ++ m :: post ∧ warAt wd m.address = true ∧
      ∀ x ∈ post, warAt wd x.address = false := by
  induction ms with
  | nil => simp at h
  | cons a rest ih =>
    by_cases hr : ∃ m ∈ rest, warAt wd m.address = true
    · obtain ⟨pre, m, post, e, hm, hp⟩ := ih hr
      exact ⟨a :: pre, m, post, by rw [e]; rfl, hm, hp⟩
    · obtain ⟨m, hm, hw⟩ := h
      rcases List.mem_cons.mp hm with e | e
      · subst e
        refine ⟨[], m, rest, rfl, hw, ?_⟩
        intro x hx
        cases hh : warAt wd x.address with
        | false => rfl
        | true => exact absurd ⟨x, hx, hh⟩ hr
      · exact absurd ⟨m, e, hw⟩ hr

theorem addWrite_violating_of_war (wd : WarDetector) (istate : InstructionState)
    (h : (wd.addWrite istate).1 = true) :
    (wd.addWrite istate).2.violatingRead ∈ wd.reads ∧
    (wd.addWrite istate).2.violatingRead.address = (wd.addWrite istate).2.violatingWrite.address ∧
    (wd.addWrite istate).2.violatingWrite ∈ WarDetector.byteStates istate := by
  have h4 := (addWriteFold_spec (WarDetector.byteStates istate) false wd).2.2.2.1
  have hex : ∃ m ∈ WarDetector.byteStates istate, warAt wd m.address = true := by
    have := h4.mp h
    simpa using this
  obtain ⟨pre, m, post, e, hm, hp⟩ := exists_last_war wd _ hex
  obtain ⟨v1, v2⟩ := addWriteFold_violating_last pre post m false wd hm hp
  unfold WarDetector.addWrite
  rw [e]
  have hmem := AccessSet.find_some_mem v1
  refine ⟨hmem.1, ?_, ?_⟩
  · rw [hmem.2, v2]
  · rw [v2]; simp

theorem addWrite_fst_false_of_reads_nil (wd : WarDetector) (istate : InstructionState)
    (h : wd.reads = []) : (wd.addWrite istate).1 = false := by
  cases hh : (wd.addWrite istate).1 with
  | false => rfl
  | true =>
    obtain ⟨i, _, hw⟩ := (addWrite_spec wd istate).2.2.2.1.mp hh
    rw [warAt_of_reads_nil wd h] at hw
    cases hw

theorem detectWar_entry_write (hic : HookInstructionCount) (sp : Nat) (wd : WarDetector)
    (istate : InstructionState) (inter : Bool)
    (h : inter = true ∧ hic.new_function = true) :
    (detectWar hic sp wd istate false inter).1 = false ∧
    (detectWar hic sp wd istate false inter).2.log.warLogLines =
      wd.log.warLogLines ++ [functionEntryLine hic istate] := by
  have ht := detectWarEntry_taken hic wd istate inter h
  have h0 : ((detectWarEntry hic wd istate inter).addWrite istate).1 = false := by
    apply addWrite_fst_false_of_reads_nil
    rw [ht]
    rfl
  rw [detectWar_write_quiet _ _ _ _ _ h0, ht]
  refine ⟨rfl, ?_⟩
  rw [(addWrite_spec _ istate).2.2.1]
  rfl

theorem detectWar_entry_read (hic : HookInstructionCount) (sp : Nat) (wd : WarDetector)
    (istate : InstructionState) (inter : Bool)
    (h : inter = true ∧ hic.new_function = true) :
    (detectWar hic sp wd istate true inter).1 = false ∧
    (detectWar hic sp wd istate true inter).2.log.warLogLines =
      wd.log.warLogLines ++ [functionEntryLine hic istate] := by
  have ht := detectWarEntry_taken hic wd istate inter h
  rw [detectWar_read, ht]
  refine ⟨rfl, ?_⟩
  rw [(addRead_spec _ istate).2.2.1]
  rfl

theorem warAt_iff_mem (wd : WarDetector) (a : Nat) :
    warAt wd a = true ↔
      (∃ r ∈ wd.reads, r.address = a) ∧
      ((¬ ∃ w ∈ wd.writes, w.address = a) ∨ wd.detect_protected_war = false) := by
  unfold warAt
  rw [Bool.and_eq_true, Bool.or_eq_true, AccessSet.hasAddr_iff, ← AccessSet.hasAddr_iff wd.writes]
  cases AccessSet.hasAddr wd.writes a <;> cases wd.detect_protected_war <;> simp

theorem addWriteFold_warAt (ms : List MemAccessState) (w0 : Bool) (wd : WarDetector) (x : Nat) :
    warAt (ms.foldl WarDetector.addWriteStep (w0, wd)).2 x = warAt wd x := by
  induction ms generalizing w0 wd with
  | nil => rfl
  | cons m rest ih =>
    rw [List.foldl_cons]
    have hstep : WarDetector.addWriteStep (w0, wd) m =
        (if (wd.addWriteByte m).1 == true then true else w0, (wd.addWriteByte m).2) := rfl
    rw [hstep, ih, addWriteByte_warAt]

theorem addWriteLoopState_byte (wd : WarDetector) (istate : InstructionState) (i : Nat) :
    ((addWriteLoopState wd istate i).addWriteByte (byteState istate i)).1 =
      (wd.addWriteByte (byteState istate i)).1 := by
  rw [addWriteByte_fst, addWriteByte_fst]
  unfold addWriteLoopState
  rw [addWriteFold_warAt]

theorem addWrite_fst_iff_byte (wd : WarDetector) (istate : InstructionState) :
    (wd.addWrite istate).1 = true ↔
      ∃ i, i < istate.mem_size ∧ (wd.addWriteByte (byteState istate i)).1 = true := by
  rw [(addWrite_spec wd istate).2.2.2.1]
  constructor
  · rintro ⟨i, hi, h⟩
    exact ⟨i, hi, by rw [addWriteByte_fst]; exact h⟩
  · rintro ⟨i, hi, h⟩
    exact ⟨i, hi, by rw [addWriteByte_fst] at h; exact h⟩

theorem detectWar_war_line (hic : HookInstructionCount) (sp : Nat) (wd : WarDetector)
    (istate : InstructionState) (inter : Bool)
    (hne : ¬ (inter = true ∧ hic.new_function = true))
    (h : (wd.addWrite istate).1 = true) :
    (detectWar hic sp wd istate false inter).1 = true ∧
    (detectWar hic sp wd istate false inter).2.log.warLogLines =
      wd.log.warLogLines ++ [warLine (wd.addWrite istate).2.violatingRead
        (wd.addWrite istate).2.violatingWrite istate (getMemAccessType hic sp istate)] := by
  have hskip := detectWarEntry_skip hic wd istate inter hne
  have h1 : ((detectWarEntry hic wd istate inter).addWrite istate).1 = true := by
    rw [hskip]; exact h
  rw [detectWar_write_war _ _ _ _ _ h1, hskip]
  refine ⟨rfl, ?_⟩
  rw [(afterWar_spec _ _ istate).2.2.1, (addWrite_spec wd istate).2.2.1]

/-! ## What one call of detectWar does to the read set and to the record counts -/

theorem detectWarEntry_reads (hic : HookInstructionCount) (wd : WarDetector)
    (istate : InstructionState) (inter : Bool) :
    detectWarEntry hic wd istate inter = wd ∨
    ((inter = true ∧ hic.new_function = true) ∧
      (detectWarEntry hic wd istate inter).reads = [] ∧
      (detectWarEntry hic wd istate inter).log.warLogLines =
        wd.log.warLogLines ++ [functionEntryLine hic istate]) := by
  by_cases h : inter = true ∧ hic.new_function = true
  · right
    rw [detectWarEntry_taken hic wd istate inter h]
    exact ⟨h, rfl, rfl⟩
  · left
    exact detectWarEntry_skip hic wd istate inter h

theorem stepDetect_cases (inter : Bool) (wd : WarDetector) (c : DetectCall) :
    (c.is_read = true ∧
      stepDetect inter wd c = (detectWarEntry c.hic wd c.istate inter).addRead c.istate) ∨
    (c.is_read = false ∧
      ((detectWarEntry c.hic wd c.istate inter).addWrite c.istate).1 = false ∧
      stepDetect inter wd c =
        ((detectWarEntry c.hic wd c.istate inter).addWrite c.istate).2) ∨
    (c.is_read = false ∧
      ((detectWarEntry c.hic wd c.istate inter).addWrite c.istate).1 = true ∧
      (stepDetect inter wd c).reads = [] ∧
      (stepDetect inter wd c).log.warLogLines =
        (detectWarEntry c.hic wd c.istate inter).log.warLogLines ++
          [warLine
            ((detectWarEntry c.hic wd c.istate inter).addWrite c.istate).2.violatingRead
            ((detectWarEntry c.hic wd c.istate inter).addWrite c.istate).2.violatingWrite
            c.istate (getMemAccessType c.hic c.sp c.istate)]) := by
  unfold stepDetect
  cases hr : c.is_read with
  | true =>
    left
    rw [detectWar_read]
    exact ⟨rfl, rfl⟩
  | false =>
    right
    cases hw : ((detectWarEntry c.hic wd c.istate inter).addWrite c.istate).1 with
    | false =>
      left
      rw [detectWar_write_quiet _ _ _ _ _ hw]
      exact ⟨rfl, rfl, rfl⟩
    | true =>
      right
      rw [detectWar_write_war _ _ _ _ _ hw]
      obtain ⟨e1, _, e3, _⟩ := afterWar_spec
        ((detectWarEntry c.hic wd c.istate inter).addWrite c.istate).2
        (warLine
          ((detectWarEntry c.hic wd c.istate inter).addWrite c.istate).2.violatingRead
          ((detectWarEntry c.hic wd c.istate inter).addWrite c.istate).2.violatingWrite
          c.istate (getMemAccessType c.hic c.sp c.istate)) c.istate
      refine ⟨rfl, rfl, e1, ?_⟩
      exact e3.trans (by rw [(addWrite_spec _ c.istate).2.2.1])

theorem stepDetect_reads_covered (inter : Bool) (wd : WarDetector) (c : DetectCall) (b : Nat)
    (h : AccessSet.hasAddr (stepDetect inter wd c).reads b = true) :
    AccessSet.hasAddr wd.reads b = true ∨ (c.is_read = true ∧ covers c b = true) := by
  have hentry : AccessSet.hasAddr (detectWarEntry c.hic wd c.istate inter).reads b = true →
      AccessSet.hasAddr wd.reads b = true := by
    intro h1
    rcases detectWarEntry_reads c.hic wd c.istate inter with e | ⟨_, e, _⟩
    · rw [e] at h1; exact h1
    · rw [e, hasAddr_nil] at h1; cases h1
  rcases stepDetect_cases inter wd c with ⟨hr, e⟩ | ⟨_, _, e⟩ | ⟨_, _, e, _⟩
  · rw [e, (addRead_spec _ c.istate).2.2.2.2.2.1 b] at h
    rcases h with h | h
    · exact Or.inl (hentry h)
    · exact Or.inr ⟨hr, (covers_iff c b).mpr h⟩
  · rw [e, (addWrite_spec _ c.istate).1] at h
    exact Or.inl (hentry h)
  · rw [e, hasAddr_nil] at h
    cases h

theorem runDetect_reads_covered (inter : Bool) (wd : WarDetector) (hwd : wd.reads = [])
    (ops : List DetectCall) (b : Nat)
    (h : AccessSet.hasAddr (runDetect inter wd ops).reads b = true) : readSince ops b := by
  induction ops using List.reverseRecOn with
  | nil =>
    have : runDetect inter wd [] = wd := rfl
    rw [this, hwd, hasAddr_nil] at h
    cases h
  | append_singleton ops c ih =>
    rw [runDetect_snoc] at h
    rw [readSince_append]
    rcases stepDetect_reads_covered inter _ c b h with h1 | h1
    · exact Or.inl (ih h1)
    · exact Or.inr h1

theorem countWar_lines_append (log1 log2 : WarLog) (l : WarLogLine)
    (h : log2.warLogLines = log1.warLogLines ++ [l]) :
    countWar log2 = countWar log1 +
      (if l.region_end_type = RegionEndType.RE_WAR.toNat then 1 else 0) := by
  unfold countWar
  rw [h, List.filter_append, List.length_append]
  by_cases hl : l.region_end_type = RegionEndType.RE_WAR.toNat
  · simp [hl]
  · simp [hl]

theorem countFunctionEntry_lines_append (log1 log2 : WarLog) (l : WarLogLine)
    (h : log2.warLogLines = log1.warLogLines ++ [l]) :
    countFunctionEntry log2 = countFunctionEntry log1 +
      (if l.region_end_type = RegionEndType.RE_FUNCTION_ENTRY.toNat then 1 else 0) := by
  unfold countFunctionEntry
  rw [h, List.filter_append, List.length_append]
  by_cases hl : l.region_end_type = RegionEndType.RE_FUNCTION_ENTRY.toNat
  · simp [hl]
  · simp [hl]

theorem countWar_congr (log1 log2 : WarLog) (h : log2.warLogLines = log1.warLogLines) :
    countWar log2 = countWar log1 := by
  unfold countWar
  rw [h]

theorem countFunctionEntry_congr (log1 log2 : WarLog)
    (h : log2.warLogLines = log1.warLogLines) :
    countFunctionEntry log2 = countFunctionEntry log1 := by
  unfold countFunctionEntry
  rw [h]

theorem stepDetect_summary (inter : Bool) (wd : WarDetector) (c : DetectCall) :
    ((inter = true ∧ c.hic.new_function = true) ∧
      (stepDetect inter wd c).log.warLogLines =
        wd.log.warLogLines ++ [functionEntryLine c.hic c.istate] ∧
      ∀ x ∈ (stepDetect inter wd c).reads, x.icount = c.istate.icount) ∨
    (¬ (inter = true ∧ c.hic.new_function = true) ∧
      (stepDetect inter wd c).log.warLogLines = wd.log.warLogLines ∧
      ∀ x ∈ (stepDetect inter wd c).reads, x ∈ wd.reads ∨ x.icount = c.istate.icount) ∨
    (¬ (inter = true ∧ c.hic.new_function = true) ∧
      c.is_read = false ∧ (wd.addWrite c.istate).1 = true ∧
      (stepDetect inter wd c).log.warLogLines =
        wd.log.warLogLines ++ [warLine (wd.addWrite c.istate).2.violatingRead
          (wd.addWrite c.istate).2.violatingWrite c.istate
          (getMemAccessType c.hic c.sp c.istate)] ∧
      (stepDetect inter wd c).reads = []) := by
  rcases detectWarEntry_reads c.hic wd c.istate inter with e | ⟨he, er, el⟩
  · have hne : ¬ (inter = true ∧ c.hic.new_function = true) := by
      intro h
      have ht := detectWarEntry_taken c.hic wd c.istate inter h
      rw [e] at ht
      have := congrArg (fun w => w.log.warLogLines.length) ht
      simp [WarDetector.reset, WarLog.add] at this
    right
    rcases stepDetect_cases inter wd c with ⟨_, s⟩ | ⟨_, _, s⟩ | ⟨hr, hw, sr, sl⟩
    · left
      rw [e] at s
      rw [s]
      obtain ⟨_, _, a3, _, _, _, a7⟩ := addRead_spec wd c.istate
      exact ⟨hne, by rw [a3], a7⟩
    · left
      rw [e] at s
      rw [s]
      obtain ⟨b1, _, b3, _, _⟩ := addWrite_spec wd c.istate
      refine ⟨hne, by rw [b3], ?_⟩
      intro x hx
      rw [b1] at hx
      exact Or.inl hx
    · right
      rw [e] at hw sl
      exact ⟨hne, hr, hw, sl, sr⟩
  · left
    refine ⟨he, ?_, ?_⟩
    · rcases stepDetect_cases inter wd c with ⟨_, s⟩ | ⟨_, _, s⟩ | ⟨_, hw, _, _⟩
      · rw [s, (addRead_spec _ c.istate).2.2.1, el]
      · rw [s, (addWrite_spec _ c.istate).2.2.1, el]
      · rw [addWrite_fst_false_of_reads_nil _ _ er] at hw
        cases hw
    · intro x hx
      rcases stepDetect_cases inter wd c with ⟨_, s⟩ | ⟨_, _, s⟩ | ⟨_, _, sr, _⟩
      · rw [s] at hx
        rcases (addRead_spec _ c.istate).2.2.2.2.2.2 x hx with h | h
        · rw [er] at h; cases h
        · exact h
      · rw [s, (addWrite_spec _ c.istate).1, er] at hx
        cases hx
      · rw [sr] at hx
        cases hx

theorem logGrew_of_lines_eq (inter : Bool) (wd : WarDetector) (c : DetectCall)
    (h : (stepDetect inter wd c).log.warLogLines = wd.log.warLogLines) :
    logGrew inter wd c = false := by
  unfold logGrew
  rw [h]
  simp

theorem runDetect_reads_icount (inter : Bool) (wd : WarDetector) (hwd : wd.reads = [])
    (cs : List DetectCall)
    (hmono : List.Pairwise (fun x y => x ≤ y) (cs.map (fun x => x.istate.icount))) :
    (∀ x ∈ (runDetect inter wd cs).reads,
      regionStart inter wd cs ≤ x.icount ∧ ∃ d ∈ cs, x.icount = d.istate.icount) ∧
    (regionStart inter wd cs = 0 ∨ ∃ d ∈ cs, regionStart inter wd cs = d.istate.icount) := by
  induction cs using List.reverseRecOn with
  | nil =>
    refine ⟨?_, Or.inl rfl⟩
    intro x hx
    have : runDetect inter wd [] = wd := rfl
    rw [this, hwd] at hx
    cases hx
  | append_singleton cs c ih =>
    rw [List.map_append, List.pairwise_append] at hmono
    obtain ⟨hm1, _, hm3⟩ := hmono
    obtain ⟨ihR, ihS⟩ := ih hm1
    have hle : ∀ d ∈ cs, d.istate.icount ≤ c.istate.icount := by
      intro d hd
      exact hm3 _ (List.mem_map_of_mem _ hd) _ (by simp)
    have hstart : regionStart inter wd cs ≤ c.istate.icount := by
      rcases ihS with h | ⟨d, hd, h⟩
      · rw [h]; exact Nat.zero_le _
      · rw [h]; exact hle d hd
    rw [runDetect_snoc, regionStart_snoc]
    constructor
    · intro x hx
      rcases stepDetect_summary inter (runDetect inter wd cs) c with
        ⟨_, hl, hr⟩ | ⟨_, hl, hr⟩ | ⟨_, _, _, _, hr⟩
      · have hx2 := hr x hx
        rw [if_pos (logGrew_of_append _ _ _ _ hl), hx2]
        exact ⟨le_refl _, c, by simp, rfl⟩
      · rw [if_neg (by rw [logGrew_of_lines_eq _ _ _ hl]; simp)]
        rcases hr x hx with h | h
        · obtain ⟨h1, d, hd, h2⟩ := ihR x h
          exact ⟨h1, d, by simp [hd], h2⟩
        · rw [h]
          exact ⟨hstart, c, by simp, rfl⟩
      · rw [hr] at hx
        cases hx
    · by_cases hg : logGrew inter (runDetect inter wd cs) c = true
      · rw [if_pos hg]
        exact Or.inr ⟨c, by simp, rfl⟩
      · rw [if_neg hg]
        rcases ihS with h | ⟨d, hd, h⟩
        · exact Or.inl h
        · exact Or.inr ⟨d, by simp [hd], h⟩

/-! ## Facts about whole traces -/

theorem countFunctionEntry_step (inter : Bool) (wd : WarDetector) (c : DetectCall) :
    countFunctionEntry (stepDetect inter wd c).log =
      countFunctionEntry wd.log +
        (if inter = true ∧ c.hic.new_function = true then 1 else 0) := by
  rcases stepDetect_summary inter wd c with ⟨he, hl, _⟩ | ⟨hne, hl, _⟩ | ⟨hne, _, _, hl, _⟩
  · rw [countFunctionEntry_lines_append _ _ _ hl, if_pos he]
    rfl
  · rw [countFunctionEntry_congr _ _ hl, if_neg hne, Nat.add_zero]
  · rw [countFunctionEntry_lines_append _ _ _ hl, if_neg hne]
    rfl

theorem runTrace_snoc (h : HookIdempotencyStatistics) (tr : List TraceEvent) (e : TraceEvent) :
    h.runTrace (tr ++ [e]) = (h.runTrace tr).step e := by
  unfold HookIdempotencyStatistics.runTrace
  rw [List.foldl_append]
  rfl

theorem afterLastMemory_snoc (tr : List TraceEvent) (e : TraceEvent) :
    afterLastMemory (tr ++ [e]) =
      if isMemoryEvent e = true then [] else afterLastMemory tr ++ [e] := by
  unfold afterLastMemory
  rw [List.reverse_append, List.reverse_singleton, List.singleton_append, List.takeWhile_cons]
  cases isMemoryEvent e <;> simp

theorem noMemoryYet_snoc (tr : List TraceEvent) (e : TraceEvent) :
    noMemoryYet (tr ++ [e]) = (noMemoryYet tr && !isMemoryEvent e) := by
  unfold noMemoryYet
  simp [List.all_append]

theorem runTrace_new_function (fm : List (Nat × List String)) (estack : Nat)
    (tr : List TraceEvent) :
    ((HookIdempotencyStatistics.init fm estack).runTrace tr).hook_instr_cnt.function_map = fm ∧
    ((HookIdempotencyStatistics.init fm estack).runTrace tr).hook_instr_cnt.new_function =
      (noMemoryYet tr || followsFunctionEntry fm tr) := by
  induction tr using List.reverseRecOn with
  | nil => exact ⟨rfl, rfl⟩
  | append_singleton tr e ih =>
    obtain ⟨ih1, ih2⟩ := ih
    rw [runTrace_snoc, noMemoryYet_snoc]
    unfold followsFunctionEntry at ih2 ⊢
    rw [afterLastMemory_snoc]
    cases e with
    | memory arg sp =>
      refine ⟨ih1, ?_⟩
      simp [HookIdempotencyStatistics.step, HookIdempotencyStatistics.run, isMemoryEvent]
    | instruction address sp =>
      have hfs : HookInstructionCount.isFunctionStart
          ((HookIdempotencyStatistics.init fm estack).runTrace tr).hook_instr_cnt address =
          HookInstructionCount.isFunctionStart (HookInstructionCount.init fm 0) address := by
        unfold HookInstructionCount.isFunctionStart
        rw [ih1]
        rfl
      have hentry : isEntryInstruction fm (TraceEvent.instruction address sp) =
          (HookInstructionCount.isFunctionStart (HookInstructionCount.init fm 0)
            address).isSome := rfl
      simp only [HookIdempotencyStatistics.step, HookInstructionCount.run, isMemoryEvent,
        Bool.false_eq_true, if_false, List.any_append, List.any_cons, List.any_nil,
        Bool.or_false, Bool.not_false, Bool.and_true, hentry, hfs]
      cases hf : HookInstructionCount.isFunctionStart (HookInstructionCount.init fm 0)
          address with
      | none =>
        refine ⟨ih1, ?_⟩
        simp only [Option.isSome_none, Bool.or_false]
        exact ih2
      | some funcs =>
        refine ⟨ih1, ?_⟩
        simp

theorem run_interProcedural (h : HookIdempotencyStatistics) (arg : hook_arg_t) (sp : Nat) :
    (h.run arg sp).warDetectorInterProcedural =
      stepDetect true h.warDetectorInterProcedural
        ⟨h.hook_instr_cnt, sp, HookIdempotencyStatistics.mkIState h.hook_instr_cnt arg,
          if arg.mem_type = MemType.MEM_READ then true else false⟩ ∧
    (h.run arg sp).warDetectorNoProtectedInterProcedural =
      stepDetect true h.warDetectorNoProtectedInterProcedural
        ⟨h.hook_instr_cnt, sp, HookIdempotencyStatistics.mkIState h.hook_instr_cnt arg,
          if arg.mem_type = MemType.MEM_READ then true else false⟩ ∧
    (h.run arg sp).warDetector =
      stepDetect false h.warDetector
        ⟨h.hook_instr_cnt, sp, HookIdempotencyStatistics.mkIState h.hook_instr_cnt arg,
          if arg.mem_type = MemType.MEM_READ then true else false⟩ ∧
    (h.run arg sp).warDetectorNoProtected =
      stepDetect false h.warDetectorNoProtected
        ⟨h.hook_instr_cnt, sp, HookIdempotencyStatistics.mkIState h.hook_instr_cnt arg,
          if arg.mem_type = MemType.MEM_READ then true else false⟩ :=
  ⟨rfl, rfl, rfl, rfl⟩

theorem runTrace_intra_no_functionEntry (fm : List (Nat × List String)) (estack : Nat)
    (tr : List TraceEvent) :
    countFunctionEntry ((HookIdempotencyStatistics.init fm estack).runTrace tr).warDetector.log
      = 0 ∧
    countFunctionEntry
      ((HookIdempotencyStatistics.init fm estack).runTrace tr).warDetectorNoProtected.log
      = 0 := by
  induction tr using List.reverseRecOn with
  | nil => exact ⟨rfl, rfl⟩
  | append_singleton tr e ih =>
    rw [runTrace_snoc]
    cases e with
    | instruction address sp => exact ih
    | memory arg sp =>
      obtain ⟨_, _, r3, r4⟩ := run_interProcedural
        ((HookIdempotencyStatistics.init fm estack).runTrace tr) arg sp
      show countFunctionEntry
          (((HookIdempotencyStatistics.init fm estack).runTrace tr).run arg sp).warDetector.log
          = 0 ∧
        countFunctionEntry
          (((HookIdempotencyStatistics.init fm estack).runTrace tr).run arg
            sp).warDetectorNoProtected.log = 0
      rw [r3, r4, countFunctionEntry_step, countFunctionEntry_step, ih.1, ih.2]
      simp

/-! ## Sets with one element per address -/

theorem AccessSet.erase_no_key (s : AccessSet) (m : MemAccessState) (hwf : AccessSet.WF s) :
    ∀ x ∈ AccessSet.erase s m, x.address ≠ m.address := by
  unfold AccessSet.WF at hwf
  unfold AccessSet.erase
  induction s with
  | nil => intro x hx; cases hx
  | cons a t ih =>
    rw [List.map_cons, List.nodup_cons] at hwf
    obtain ⟨ha, ht⟩ := hwf
    by_cases hp : a.address = m.address
    · have e : List.eraseP (fun y : MemAccessState => y.address == m.address) (a :: t) = t := by
        simp [List.eraseP_cons, hp]
      rw [e]
      intro x hx hxa
      apply ha
      rw [List.mem_map]
      exact ⟨x, hx, by rw [hxa, hp]⟩
    · have e : List.eraseP (fun y : MemAccessState => y.address == m.address) (a :: t) =
          a :: List.eraseP (fun y : MemAccessState => y.address == m.address) t := by
        simp [List.eraseP_cons, hp]
      rw [e]
      intro x hx
      rcases List.mem_cons.mp hx with h | h
      · rw [h]; exact hp
      · exact ih ht x h

theorem AccessSet.WF_erase (s : AccessSet) (m : MemAccessState) (hwf : AccessSet.WF s) :
    AccessSet.WF (AccessSet.erase s m) := by
  unfold AccessSet.WF at hwf ⊢
  unfold AccessSet.erase
  exact List.Nodup.sublist ((List.eraseP_sublist s).map _) hwf

theorem AccessSet.insert_of_none (s : AccessSet) (m : MemAccessState)
    (h : AccessSet.find s m = none) : AccessSet.insert s m = m :: s := by
  unfold AccessSet.insert
  rw [h]

theorem AccessSet.WF_insert (s : AccessSet) (m : MemAccessState) (hwf : AccessSet.WF s) :
    AccessSet.WF (AccessSet.insert s m) := by
  cases h : AccessSet.find s m with
  | some r =>
    unfold AccessSet.insert
    rw [h]
    exact hwf
  | none =>
    rw [AccessSet.insert_of_none s m h]
    unfold AccessSet.WF at hwf ⊢
    rw [List.map_cons, List.nodup_cons]
    refine ⟨?_, hwf⟩
    rw [List.mem_map]
    rintro ⟨x, hx, hxa⟩
    exact (AccessSet.find_eq_none_iff s m).mp h x hx hxa

theorem AccessSet.mem_erase_iff (s : AccessSet) (m x : MemAccessState)
    (hwf : AccessSet.WF s) :
    x ∈ AccessSet.erase s m ↔ x ∈ s ∧ x.address ≠ m.address := by
  constructor
  · intro h
    exact ⟨AccessSet.mem_erase_sub s m x h, AccessSet.erase_no_key s m hwf x h⟩
  · rintro ⟨h1, h2⟩
    have hp : ¬ ((fun y : MemAccessState => y.address == m.address) x = true) := by
      simp [h2]
    exact (@List.mem_eraseP_of_neg _ (fun y : MemAccessState => y.address == m.address)
      x s hp).mpr h1

theorem AccessSet.find_erase_none (s : AccessSet) (m : MemAccessState)
    (hwf : AccessSet.WF s) : AccessSet.find (AccessSet.erase s m) m = none :=
  (AccessSet.find_eq_none_iff _ m).mpr (AccessSet.erase_no_key s m hwf)

theorem AccessSet.upsert_mem (s : AccessSet) (m x : MemAccessState) (hwf : AccessSet.WF s) :
    x ∈ AccessSet.upsert s m ↔ (x ∈ s ∧ x.address ≠ m.address) ∨ x = m := by
  unfold AccessSet.upsert
  cases h : AccessSet.find s m with
  | some r =>
    show x ∈ AccessSet.insert (AccessSet.erase s m) m ↔ _
    rw [AccessSet.insert_of_none _ m (AccessSet.find_erase_none s m hwf), List.mem_cons,
      AccessSet.mem_erase_iff s m x hwf]
    constructor
    · rintro (h1 | h1)
      · exact Or.inr h1
      · exact Or.inl h1
    · rintro (h1 | h1)
      · exact Or.inr h1
      · exact Or.inl h1
  | none =>
    show x ∈ AccessSet.insert s m ↔ _
    rw [AccessSet.insert_of_none s m h, List.mem_cons]
    constructor
    · rintro (h1 | h1)
      · exact Or.inr h1
      · exact Or.inl ⟨h1, (AccessSet.find_eq_none_iff s m).mp h x h1⟩
    · rintro (⟨h1, _⟩ | h1)
      · exact Or.inr h1
      · exact Or.inl h1

theorem AccessSet.upsert_WF (s : AccessSet) (m : MemAccessState) (hwf : AccessSet.WF s) :
    AccessSet.WF (AccessSet.upsert s m) := by
  unfold AccessSet.upsert
  cases h : AccessSet.find s m with
  | some r => exact AccessSet.WF_insert _ m (AccessSet.WF_erase s m hwf)
  | none => exact AccessSet.WF_insert s m hwf

theorem AccessSet.upsertFold (ms : List MemAccessState) (s : AccessSet)
    (hwf : AccessSet.WF s)
    (hco : ∀ m ∈ ms, ∀ m2 ∈ ms, m.address = m2.address → m = m2) :
    AccessSet.WF (ms.foldl AccessSet.upsert s) ∧
    ∀ x, x ∈ ms.foldl AccessSet.upsert s ↔
      (x ∈ s ∧ ∀ m ∈ ms, m.address ≠ x.address) ∨ x ∈ ms := by
  induction ms generalizing s with
  | nil =>
    refine ⟨hwf, fun x => ?_⟩
    simp
  | cons a rest ih =>
    rw [List.foldl_cons]
    have hco2 : ∀ m ∈ rest, ∀ m2 ∈ rest, m.address = m2.address → m = m2 :=
      fun m hm m2 hm2 => hco m (List.mem_cons_of_mem _ hm) m2 (List.mem_cons_of_mem _ hm2)
    obtain ⟨w, hmem⟩ := ih (AccessSet.upsert s a) (AccessSet.upsert_WF s a hwf) hco2
    refine ⟨w, fun x => ?_⟩
    rw [hmem x, AccessSet.upsert_mem s a x hwf]
    constructor
    · rintro (⟨(⟨h1, h2⟩ | h1), h3⟩ | h1)
      · left
        refine ⟨h1, ?_⟩
        intro m hm
        rcases List.mem_cons.mp hm with e | e
        · rw [e]; exact fun h => h2 h.symm
        · exact h3 m e
      · right
        rw [h1]
        exact List.mem_cons_self _ _
      · right
        exact List.mem_cons_of_mem _ h1
    · rintro (⟨h1, h2⟩ | h1)
      · left
        exact ⟨Or.inl ⟨h1, fun h => h2 a (List.mem_cons_self _ _) h.symm⟩,
          fun m hm => h2 m (List.mem_cons_of_mem _ hm)⟩
      · rcases List.mem_cons.mp h1 with e | e
        · by_cases hex : ∃ m ∈ rest, m.address = x.address
          · obtain ⟨m, hm, hma⟩ := hex
            right
            have : m = x := by
              rw [e]
              exact hco m (List.mem_cons_of_mem _ hm) a (List.mem_cons_self _ _)
                (by rw [hma, e])
            rw [← this]
            exact hm
          · left
            refine ⟨Or.inr e, ?_⟩
            intro m hm hma
            exact hex ⟨m, hm, hma⟩
        · right
          exact e

theorem byteStates_coherent (istate : InstructionState) :
    ∀ m ∈ WarDetector.byteStates istate, ∀ m2 ∈ WarDetector.byteStates istate,
      m.address = m2.address → m = m2 := by
  intro m hm m2 hm2 h
  obtain ⟨i, _, rfl⟩ := (byteStates_mem_iff istate m).mp hm
  obtain ⟨j, _, rfl⟩ := (byteStates_mem_iff istate m2).mp hm2
  simp only at h
  rw [h]

theorem addReadByte_eq_upsert (wd : WarDetector) (m : MemAccessState) :
    wd.addReadByte m = { wd with reads := AccessSet.upsert wd.reads m } := by
  unfold WarDetector.addReadByte AccessSet.upsert
  cases AccessSet.find wd.reads m <;> rfl

theorem addReadFold_eq_upsert (ms : List MemAccessState) (wd : WarDetector) :
    ms.foldl WarDetector.addReadByte wd =
      { wd with reads := ms.foldl AccessSet.upsert wd.reads } := by
  induction ms generalizing wd with
  | nil => rfl
  | cons m rest ih =>
    rw [List.foldl_cons, List.foldl_cons, ih, addReadByte_eq_upsert]

theorem addWriteByte_eq_upsert (wd : WarDetector) (m : MemAccessState)
    (h : AccessSet.find wd.reads m = none) :
    wd.addWriteByte m = (false, { wd with writes := AccessSet.upsert wd.writes m }) := by
  unfold WarDetector.addWriteByte AccessSet.upsert
  rw [h]
  cases AccessSet.find wd.writes m <;> rfl

theorem addWriteFold_eq_upsert (ms : List MemAccessState) (w0 : Bool) (wd : WarDetector)
    (h : wd.reads = []) :
    ms.foldl WarDetector.addWriteStep (w0, wd) =
      (w0, { wd with writes := ms.foldl AccessSet.upsert wd.writes }) := by
  induction ms generalizing wd with
  | nil => rfl
  | cons m rest ih =>
    have hf : AccessSet.find wd.reads m = none := by rw [h]; rfl
    have hstep : WarDetector.addWriteStep (w0, wd) m =
        (w0, { wd with writes := AccessSet.upsert wd.writes m }) := by
      unfold WarDetector.addWriteStep
      simp only [addWriteByte_eq_upsert wd m hf]
      rfl
    rw [List.foldl_cons, hstep, List.foldl_cons]
    exact ih { wd with writes := AccessSet.upsert wd.writes m } h

theorem byteStates_mem_byteState (istate : InstructionState) (x : MemAccessState) :
    x ∈ WarDetector.byteStates istate ↔ ∃ i, i < istate.mem_size ∧ x = byteState istate i :=
  byteStates_mem_iff istate x

theorem upsertFold_fresh (ms : List MemAccessState) (s : AccessSet)
    (hnd : (ms.map (fun x => x.address)).Nodup)
    (hdis : ∀ m ∈ ms, ∀ x ∈ s, x.address ≠ m.address) :
    ms.foldl AccessSet.upsert s = ms.reverse ++ s := by
  induction ms generalizing s with
  | nil => rfl
  | cons a rest ih =>
    rw [List.map_cons, List.nodup_cons] at hnd
    obtain ⟨ha, hrest⟩ := hnd
    have hf : AccessSet.find s a = none :=
      (AccessSet.find_eq_none_iff s a).mpr (hdis a (List.mem_cons_self _ _))
    have hu : AccessSet.upsert s a = a :: s := by
      unfold AccessSet.upsert
      rw [hf]
      exact AccessSet.insert_of_none s a hf
    rw [List.foldl_cons, hu, ih (a :: s) hrest, List.reverse_cons, List.append_assoc]
    · rfl
    · intro m hm x hx
      rcases List.mem_cons.mp hx with e | e
      · rw [e]
        intro h
        apply ha
        rw [List.mem_map]
        exact ⟨m, hm, h.symm⟩
      · exact hdis m (List.mem_cons_of_mem _ hm) x e

theorem byteStates_nodup (istate : InstructionState) (h : istate.mem_size ≤ ADDR_MOD) :
    ((WarDetector.byteStates istate).map (fun x => x.address)).Nodup := by
  unfold WarDetector.byteStates
  rw [List.map_map]
  apply List.Nodup.map_on _ (List.nodup_range _)
  intro i hi j hj hij
  rw [List.mem_range] at hi hj
  simp only [Function.comp] at hij
  have hM : ADDR_MOD = 4294967296 := rfl
  rw [hM] at h hij
  omega

theorem detectWar_war_unfold (hic : HookInstructionCount) (sp : Nat) (wd : WarDetector)
    (istate : InstructionState) (inter : Bool)
    (hwar : (detectWar hic sp wd istate false inter).1 = true) :
    ((detectWarEntry hic wd istate inter).addWrite istate).1 = true ∧
    (detectWar hic sp wd istate false inter).2 =
      ((afterWarReset hic sp wd istate inter).addWrite istate).2 := by
  cases h : ((detectWarEntry hic wd istate inter).addWrite istate).1 with
  | false =>
    rw [detectWar_write_quiet _ _ _ _ _ h] at hwar
    cases hwar
  | true =>
    rw [detectWar_write_war _ _ _ _ _ h]
    exact ⟨rfl, rfl⟩

theorem afterWarReset_addWrite (hic : HookInstructionCount) (sp : Nat) (wd : WarDetector)
    (istate : InstructionState) (inter : Bool) :
    (afterWarReset hic sp wd istate inter).addWrite istate =
      (false, { afterWarReset hic sp wd istate inter with
        writes := (WarDetector.byteStates istate).foldl AccessSet.upsert [] }) := by
  unfold WarDetector.addWrite
  rw [addWriteFold_eq_upsert _ false _ rfl]
  rfl

/-! ## Facts about the size limit and the records appended -/

theorem countSizeLimit_step (inter : Bool) (wd : WarDetector) (c : DetectCall) :
    countSizeLimit (stepDetect inter wd c).log = countSizeLimit wd.log := by
  have happ : ∀ (l : WarLogLine), l.region_end_type ≠ RegionEndType.RE_SIZE_LIMIT.toNat →
      (stepDetect inter wd c).log.warLogLines = wd.log.warLogLines ++ [l] →
      countSizeLimit (stepDetect inter wd c).log = countSizeLimit wd.log := by
    intro l hl h
    unfold countSizeLimit
    rw [h, List.filter_append, List.length_append]
    simp [hl]
  rcases stepDetect_summary inter wd c with ⟨_, hl, _⟩ | ⟨_, hl, _⟩ | ⟨_, _, _, hl, _⟩
  · refine happ _ ?_ hl
    have h12 : ¬ ((1 : Nat) = 2) := by decide
    exact h12
  · unfold countSizeLimit
    rw [hl]
  · refine happ _ ?_ hl
    have h02 : ¬ ((0 : Nat) = 2) := by decide
    exact h02

theorem step_limit (h : HookIdempotencyStatistics) (limit : Nat) (e : TraceEvent) :
    HookIdempotencyStatistics.step { h with max_idempotent_secion_size := limit } e =
      { h.step e with max_idempotent_secion_size := limit } := by
  cases e <;> rfl

theorem runTrace_limit (h : HookIdempotencyStatistics) (limit : Nat) (tr : List TraceEvent) :
    HookIdempotencyStatistics.runTrace { h with max_idempotent_secion_size := limit } tr =
      { h.runTrace tr with max_idempotent_secion_size := limit } := by
  induction tr generalizing h with
  | nil => rfl
  | cons e tr ih =>
    have h1 : HookIdempotencyStatistics.runTrace
        { h with max_idempotent_secion_size := limit } (e :: tr) =
        HookIdempotencyStatistics.runTrace
          (HookIdempotencyStatistics.step { h with max_idempotent_secion_size := limit } e)
          tr := rfl
    have h2 : h.runTrace (e :: tr) = (h.step e).runTrace tr := rfl
    rw [h1, h2, step_limit, ih]

theorem runTrace_countSizeLimit (h : HookIdempotencyStatistics) (tr : List TraceEvent) :
    countSizeLimit (h.runTrace tr).warDetector.log = countSizeLimit h.warDetector.log ∧
    countSizeLimit (h.runTrace tr).warDetectorNoProtected.log =
      countSizeLimit h.warDetectorNoProtected.log ∧
    countSizeLimit (h.runTrace tr).warDetectorInterProcedural.log =
      countSizeLimit h.warDetectorInterProcedural.log ∧
    countSizeLimit (h.runTrace tr).warDetectorNoProtectedInterProcedural.log =
      countSizeLimit h.warDetectorNoProtectedInterProcedural.log := by
  induction tr generalizing h with
  | nil => exact ⟨rfl, rfl, rfl, rfl⟩
  | cons e tr ih =>
    have h2 : h.runTrace (e :: tr) = (h.step e).runTrace tr := rfl
    rw [h2]
    obtain ⟨i1, i2, i3, i4⟩ := ih (h.step e)
    rw [i1, i2, i3, i4]
    cases e with
    | instruction address sp => exact ⟨rfl, rfl, rfl, rfl⟩
    | memory arg sp =>
      obtain ⟨r1, r2, r3, r4⟩ := run_interProcedural h arg sp
      show countSizeLimit (h.run arg sp).warDetector.log = _ ∧
        countSizeLimit (h.run arg sp).warDetectorNoProtected.log = _ ∧
        countSizeLimit (h.run arg sp).warDetectorInterProcedural.log = _ ∧
        countSizeLimit (h.run arg sp).warDetectorNoProtectedInterProcedural.log = _
      rw [r1, r2, r3, r4]
      exact ⟨countSizeLimit_step _ _ _, countSizeLimit_step _ _ _, countSizeLimit_step _ _ _,
        countSizeLimit_step _ _ _⟩

theorem runTrace_instructions (h : HookIdempotencyStatistics) (address sp : Nat) (n : Nat) :
    (h.runTrace (List.replicate n (TraceEvent.instruction address sp))).warDetector =
      h.warDetector := by
  induction n generalizing h with
  | zero => rfl
  | succ n ih =>
    have h2 : h.runTrace (List.replicate (n + 1) (TraceEvent.instruction address sp)) =
        (h.step (TraceEvent.instruction address sp)).runTrace
          (List.replicate n (TraceEvent.instruction address sp)) := rfl
    rw [h2, ih]
    rfl

theorem run_count (hic : HookInstructionCount) (address sp : Nat) :
    (hic.run address sp).count = (hic.count + 1) % U64_MOD := by
  unfold HookInstructionCount.run
  cases HookInstructionCount.isFunctionStart hic address <;> rfl

theorem runTrace_instructions_count (h : HookIdempotencyStatistics) (address sp : Nat)
    (n : Nat) (hc : h.hook_instr_cnt.count < U64_MOD) :
    (h.runTrace (List.replicate n (TraceEvent.instruction address sp))).hook_instr_cnt.count =
      (h.hook_instr_cnt.count + n) % U64_MOD := by
  induction n generalizing h with
  | zero =>
    show h.hook_instr_cnt.count = (h.hook_instr_cnt.count + 0) % U64_MOD
    rw [Nat.add_zero, Nat.mod_eq_of_lt hc]
  | succ n ih =>
    have h2 : h.runTrace (List.replicate (n + 1) (TraceEvent.instruction address sp)) =
        (h.step (TraceEvent.instruction address sp)).runTrace
          (List.replicate n (TraceEvent.instruction address sp)) := rfl
    have hcnt : (h.step (TraceEvent.instruction address sp)).hook_instr_cnt.count =
        (h.hook_instr_cnt.count + 1) % U64_MOD := run_count h.hook_instr_cnt address sp
    have hlt : (h.step (TraceEvent.instruction address sp)).hook_instr_cnt.count < U64_MOD := by
      rw [hcnt]
      exact Nat.mod_lt _ (by decide)
    rw [h2, ih _ hlt, hcnt]
    have hM : U64_MOD = 18446744073709551616 := rfl
    rw [hM]
    omega

theorem stepDetect_write_of_reads_nil (wd : WarDetector) (c : DetectCall)
    (hr : wd.reads = []) (hw : c.is_read = false) :
    (stepDetect false wd c).log = wd.log := by
  have hskip := detectWarEntry_skip c.hic wd c.istate false (by simp)
  have h0 : ((detectWarEntry c.hic wd c.istate false).addWrite c.istate).1 = false := by
    rw [hskip]
    exact addWrite_fst_false_of_reads_nil wd c.istate hr
  unfold stepDetect
  rw [hw, detectWar_write_quiet _ _ _ _ _ h0, hskip]
  exact (addWrite_spec wd c.istate).2.2.1

theorem write_after_instructions (h : HookIdempotencyStatistics) (address sp : Nat) (n : Nat)
    (arg : hook_arg_t) (sp2 : Nat) (hr : h.warDetector.reads = [])
    (hw : arg.mem_type = MemType.MEM_WRITE) :
    (h.runTrace (List.replicate n (TraceEvent.instruction address sp) ++
      [TraceEvent.memory arg sp2])).warDetector.log = h.warDetector.log := by
  rw [runTrace_snoc]
  have h1 := runTrace_instructions h address sp n
  generalize h.runTrace (List.replicate n (TraceEvent.instruction address sp)) = S at h1
  show (S.run arg sp2).warDetector.log = _
  rw [(run_interProcedural S arg sp2).2.2.1,
    stepDetect_write_of_reads_nil _ _ (by rw [h1]; exact hr) (by simp [hw]), h1]

theorem getMemAccessType_range (hic : HookInstructionCount) (sp : Nat)
    (istate : InstructionState) :
    getMemAccessType hic sp istate = MemAccessType.MEM_LOCAL ∨
    getMemAccessType hic sp istate = MemAccessType.MEM_STACK ∨
    getMemAccessType hic sp istate = MemAccessType.MEM_GLOBAL := by
  unfold getMemAccessType
  dsimp only
  split_ifs
  · exact Or.inl rfl
  · exact Or.inr (Or.inl rfl)
  · exact Or.inr (Or.inr rfl)

/-! ## Facts about string search and the output directory -/

theorem isPrefixOf_iff_append (pat a : List Char) :
    pat.isPrefixOf a = true ↔ ∃ t, a = pat ++ t := by
  rw [List.isPrefixOf_iff_prefix]
  constructor
  · rintro ⟨t, ht⟩
    exact ⟨t, ht.symm⟩
  · rintro ⟨t, ht⟩
    exact ⟨t, ht.symm⟩

theorem strFind_nil (pat : List Char) :
    strFind [] pat = if pat.isPrefixOf [] = true then some 0 else none := by
  unfold strFind
  rfl

theorem strFind_cons (c : Char) (t pat : List Char) :
    strFind (c :: t) pat =
      if pat.isPrefixOf (c :: t) = true then some 0
      else (strFind t pat).map (fun pos => pos + 1) := by
  rw [strFind]

theorem strFind_none (a pat : List Char) (h : strFind a pat = none) :
    ∀ j, ¬ ∃ t, a.drop j = pat ++ t := by
  induction a with
  | nil =>
    rw [strFind_nil] at h
    by_cases hp : pat.isPrefixOf [] = true
    · rw [if_pos hp] at h
      cases h
    · intro j hj
      rw [List.drop_nil] at hj
      exact hp ((isPrefixOf_iff_append pat []).mpr hj)
  | cons c t ih =>
    rw [strFind_cons] at h
    by_cases hp : pat.isPrefixOf (c :: t) = true
    · rw [if_pos hp] at h
      cases h
    · rw [if_neg hp] at h
      have ht : strFind t pat = none := by
        cases hs : strFind t pat with
        | none => rfl
        | some v => rw [hs] at h; cases h
      intro j hj
      cases j with
      | zero => exact hp ((isPrefixOf_iff_append pat _).mpr hj)
      | succ j => exact ih ht j hj

theorem strFind_some (a pat : List Char) (pos : Nat) (h : strFind a pat = some pos) :
    (∃ t, a.drop pos = pat ++ t) ∧ ∀ j, j < pos → ¬ ∃ t, a.drop j = pat ++ t := by
  induction a generalizing pos with
  | nil =>
    rw [strFind_nil] at h
    by_cases hp : pat.isPrefixOf [] = true
    · rw [if_pos hp] at h
      cases h
      exact ⟨(isPrefixOf_iff_append pat []).mp hp, fun j hj => absurd hj (Nat.not_lt_zero j)⟩
    · rw [if_neg hp] at h
      cases h
  | cons c t ih =>
    rw [strFind_cons] at h
    by_cases hp : pat.isPrefixOf (c :: t) = true
    · rw [if_pos hp] at h
      cases h
      exact ⟨(isPrefixOf_iff_append pat _).mp hp, fun j hj => absurd hj (Nat.not_lt_zero j)⟩
    · rw [if_neg hp] at h
      cases hs : strFind t pat with
      | none => rw [hs] at h; cases h
      | some v =>
        rw [hs] at h
        simp only [Option.map_some', Option.some.injEq] at h
        subst h
        obtain ⟨i1, i2⟩ := ih v hs
        refine ⟨i1, ?_⟩
        intro j hj hex
        cases j with
        | zero => exact hp ((isPrefixOf_iff_append pat _).mpr hex)
        | succ j => exact i2 j (by omega) hex

theorem resolveOutDir_none (args : List String)
    (h : ∀ a ∈ args, strFind a.data find_arg.data = none) : resolveOutDir args = "" := by
  induction args with
  | nil => rfl
  | cons a rest ih =>
    unfold resolveOutDir
    rw [h a (List.mem_cons_self _ _)]
    exact ih (fun x hx => h x (List.mem_cons_of_mem _ hx))

theorem resolveOutDir_first (pre : List String) (a : String) (post : List String) (pos : Nat)
    (hpre : ∀ x ∈ pre, strFind x.data find_arg.data = none)
    (ha : strFind a.data find_arg.data = some pos) :
    resolveOutDir (pre ++ a :: post) = String.mk (a.data.drop (pos + find_arg.length)) := by
  induction pre with
  | nil =>
    rw [List.nil_append]
    unfold resolveOutDir
    rw [ha]
  | cons x rest ih =>
    rw [List.cons_append]
    unfold resolveOutDir
    rw [hpre x (List.mem_cons_self _ _)]
    exact ih (fun y hy => hpre y (List.mem_cons_of_mem _ hy))

/-! ## Facts about decimal text and rows -/

theorem digitChar_ne_comma (d : Nat) : digitChar d ≠ ',' := by
  unfold digitChar
  split_ifs <;> decide

theorem digitValue_digitChar (d : Nat) (h : d < 10) : digitValue (digitChar d) = some d := by
  interval_cases d <;> rfl

theorem decimalFuel_spec (fuel n : Nat) (h : n < fuel) :
    (∀ c ∈ decimalFuel fuel n, c ≠ ',') ∧ decimalFuel fuel n ≠ [] ∧
    (decimalFuel fuel n).foldl parseStep (some 0) = some n := by
  induction fuel generalizing n with
  | zero => exact absurd h (Nat.not_lt_zero n)
  | succ fuel ih =>
    unfold decimalFuel
    by_cases h10 : n < 10
    · rw [if_pos h10]
      refine ⟨?_, by simp, ?_⟩
      · intro c hc
        rw [List.mem_singleton] at hc
        rw [hc]
        exact digitChar_ne_comma n
      · simp only [List.foldl_cons, List.foldl_nil, parseStep, digitValue_digitChar n h10]
        simp
    · rw [if_neg h10]
      obtain ⟨i1, _, i3⟩ := ih (n / 10) (by omega)
      refine ⟨?_, by simp, ?_⟩
      · intro c hc
        rcases List.mem_append.mp hc with hc1 | hc1
        · exact i1 c hc1
        · rw [List.mem_singleton] at hc1
          rw [hc1]
          exact digitChar_ne_comma _
      · rw [List.foldl_append, i3]
        simp only [List.foldl_cons, List.foldl_nil, parseStep,
          digitValue_digitChar (n % 10) (Nat.mod_lt n (by decide))]
        congr 1
        omega

theorem decimal_no_comma (n : Nat) : ',' ∉ decimal n := by
  intro h
  exact (decimalFuel_spec (n + 1) n (Nat.lt_succ_self n)).1 ',' h rfl

theorem parseDecimal_decimal (n : Nat) : parseDecimal (decimal n) = some n := by
  obtain ⟨_, h2, h3⟩ := decimalFuel_spec (n + 1) n (Nat.lt_succ_self n)
  unfold parseDecimal decimal
  cases hd : decimalFuel (n + 1) n with
  | nil => exact absurd hd h2
  | cons c cs =>
    rw [hd] at h3
    exact h3

theorem splitRow_no_sep (sep : Char) (f : List Char) (h : sep ∉ f) :
    splitRow sep f = [f] := by
  induction f with
  | nil => rfl
  | cons c cs ih =>
    have hc : c ≠ sep := fun e => h (e ▸ List.mem_cons_self _ _)
    have hcs : sep ∉ cs := fun e => h (List.mem_cons_of_mem _ e)
    unfold splitRow
    rw [if_neg hc, ih hcs]

theorem splitRow_append (sep : Char) (f rest : List Char) (h : sep ∉ f) :
    splitRow sep (f ++ sep :: rest) = f :: splitRow sep rest := by
  induction f with
  | nil =>
    rw [List.nil_append, splitRow, if_pos rfl]
  | cons c cs ih =>
    have hc : c ≠ sep := fun e => h (e ▸ List.mem_cons_self _ _)
    have hcs : sep ∉ cs := fun e => h (List.mem_cons_of_mem _ e)
    rw [List.cons_append]
    rw [splitRow, if_neg hc, ih hcs]

theorem tableStr_no_comma :
    (∀ s ∈ MemAccessTypeStr, ',' ∉ s.data) ∧ (∀ s ∈ RegionEndTypeStr, ',' ∉ s.data) := by
  constructor
  · intro s hs
    simp only [MemAccessTypeStr, List.mem_cons, List.mem_singleton, List.not_mem_nil,
      or_false] at hs
    rcases hs with rfl | rfl | rfl | rfl | rfl <;> decide
  · intro s hs
    simp only [RegionEndTypeStr, List.mem_cons, List.mem_singleton, List.not_mem_nil,
      or_false] at hs
    rcases hs with rfl | rfl | rfl | rfl <;> decide

/-! ## The read set holds the most recent read of each byte -/

theorem WF_nil : AccessSet.WF ([] : AccessSet) := by
  unfold AccessSet.WF
  exact List.nodup_nil

theorem stepDetect_reads_detail (inter : Bool) (wd : WarDetector) (c : DetectCall)
    (hwf : AccessSet.WF wd.reads) :
    AccessSet.WF (stepDetect inter wd c).reads ∧
    ∀ x ∈ (stepDetect inter wd c).reads,
      (c.is_read = true ∧ x ∈ WarDetector.byteStates c.istate) ∨
      (logGrew inter wd c = false ∧ x ∈ wd.reads ∧
        (c.is_read = true → covers c x.address = false)) := by
  have hwf1 : AccessSet.WF (detectWarEntry c.hic wd c.istate inter).reads := by
    rcases detectWarEntry_reads c.hic wd c.istate inter with e | ⟨_, e, _⟩
    · rw [e]; exact hwf
    · rw [e]; exact WF_nil
  rcases stepDetect_cases inter wd c with ⟨hr, s⟩ | ⟨hr, _, s⟩ | ⟨_, _, sr, _⟩
  · have he : (detectWarEntry c.hic wd c.istate inter).addRead c.istate =
        { detectWarEntry c.hic wd c.istate inter with
          reads := (WarDetector.byteStates c.istate).foldl AccessSet.upsert
            (detectWarEntry c.hic wd c.istate inter).reads } :=
      addReadFold_eq_upsert _ _
    obtain ⟨w, hmem⟩ := AccessSet.upsertFold (WarDetector.byteStates c.istate)
      (detectWarEntry c.hic wd c.istate inter).reads hwf1 (byteStates_coherent c.istate)
    rw [s, he]
    refine ⟨w, ?_⟩
    intro x hx
    have hx2 : x ∈ (WarDetector.byteStates c.istate).foldl AccessSet.upsert
        (detectWarEntry c.hic wd c.istate inter).reads := hx
    rcases (hmem x).mp hx2 with ⟨h1, h2⟩ | h1
    · right
      rcases detectWarEntry_reads c.hic wd c.istate inter with e | ⟨_, e, _⟩
      · rw [e] at h1
        refine ⟨?_, h1, ?_⟩
        · apply logGrew_of_lines_eq
          rw [s, (addRead_spec _ c.istate).2.2.1, e]
        · intro _
          cases hcov : covers c x.address with
          | false => rfl
          | true =>
            obtain ⟨i, hi, hia⟩ := (covers_iff c x.address).mp hcov
            exact absurd hia (h2 _ ((byteStates_mem_iff c.istate _).mpr ⟨i, hi, rfl⟩))
      · rw [e] at h1
        cases h1
    · exact Or.inl ⟨hr, h1⟩
  · rw [s, (addWrite_spec _ c.istate).1]
    refine ⟨hwf1, ?_⟩
    intro x hx
    right
    rcases detectWarEntry_reads c.hic wd c.istate inter with e | ⟨_, e, _⟩
    · rw [e] at hx
      refine ⟨?_, hx, ?_⟩
      · apply logGrew_of_lines_eq
        rw [s, (addWrite_spec _ c.istate).2.2.1, e]
      · intro h
        rw [hr] at h
        cases h
    · rw [e] at hx
      cases hx
  · rw [sr]
    exact ⟨WF_nil, fun x hx => by cases hx⟩

theorem runDetect_reads_recent (inter : Bool) (wd : WarDetector) (hwd : wd.reads = [])
    (cs : List DetectCall) :
    ReadsRecent (runDetect inter wd cs) (regionCalls inter wd cs) := by
  induction cs using List.reverseRecOn with
  | nil =>
    have e : runDetect inter wd [] = wd := rfl
    unfold ReadsRecent
    rw [e, hwd]
    exact ⟨WF_nil, fun x hx => by cases hx⟩
  | append_singleton cs c ih =>
    obtain ⟨hwf, hrec⟩ := ih
    obtain ⟨w, hd⟩ := stepDetect_reads_detail inter (runDetect inter wd cs) c hwf
    unfold ReadsRecent
    rw [runDetect_snoc, regionCalls_snoc]
    refine ⟨w, ?_⟩
    intro x hx
    rcases hd x hx with ⟨hr, hb⟩ | ⟨hg, hxr, hnc⟩
    · obtain ⟨i, hi, rfl⟩ := (byteStates_mem_iff c.istate x).mp hb
      have hcov : covers c ((c.istate.mem_address + i) % ADDR_MOD) = true :=
        (covers_iff c _).mpr ⟨i, hi, rfl⟩
      by_cases hg : logGrew inter (runDetect inter wd cs) c = true
      · rw [if_pos hg]
        exact ⟨[], c, [], rfl, hr, hcov, rfl, rfl, fun y hy => by cases hy⟩
      · rw [if_neg hg]
        exact ⟨regionCalls inter wd cs, c, [], rfl, hr, hcov, rfl, rfl,
          fun y hy => by cases hy⟩
    · rw [if_neg (by rw [hg]; simp)]
      obtain ⟨h1, r, h2, e, r1, r2, r3, r4, r5⟩ := hrec x hxr
      refine ⟨h1, r, h2 ++ [c], by rw [e]; simp, r1, r2, r3, r4, ?_⟩
      intro y hy
      rcases List.mem_append.mp hy with hy1 | hy1
      · exact r5 y hy1
      · rw [List.mem_singleton] at hy1
        rw [hy1]
        exact hnc

/-! ## The violating records along a run -/

theorem lastWarLine_snoc (log1 log2 : WarLog) (l : WarLogLine)
    (h : log2.warLogLines = log1.warLogLines ++ [l]) :
    lastWarLine log2 =
      if l.region_end_type = RegionEndType.RE_WAR.toNat then some l else lastWarLine log1 := by
  unfold lastWarLine
  rw [h, List.foldl_append]
  simp

theorem detectWarEntry_violating (hic : HookInstructionCount) (wd : WarDetector)
    (istate : InstructionState) (inter : Bool) :
    lastWarLine (detectWarEntry hic wd istate inter).log = lastWarLine wd.log ∧
    ((detectWarEntry hic wd istate inter).violatingRead = wd.violatingRead ∨
      (detectWarEntry hic wd istate inter).violatingRead = { wd.violatingRead with pc := 0 }) ∧
    ((detectWarEntry hic wd istate inter).violatingWrite = wd.violatingWrite ∨
      (detectWarEntry hic wd istate inter).violatingWrite =
        { wd.violatingWrite with pc := 0 }) := by
  by_cases h : inter = true ∧ hic.new_function = true
  · rw [detectWarEntry_taken hic wd istate inter h]
    refine ⟨?_, Or.inr rfl, Or.inr rfl⟩
    rw [lastWarLine_snoc wd.log _ (functionEntryLine hic istate) rfl]
    have hne : ¬ ((functionEntryLine hic istate).region_end_type = RegionEndType.RE_WAR.toNat) :=
      Nat.one_ne_zero
    exact if_neg hne
  · rw [detectWarEntry_skip hic wd istate inter h]
    exact ⟨rfl, Or.inl rfl, Or.inl rfl⟩

theorem afterWar_violating (wd : WarDetector) (l : WarLogLine) (istate : InstructionState) :
    ((WarDetector.reset { wd with log := wd.log.add l }).addWrite istate).2.violatingRead =
      { wd.violatingRead with pc := 0 } ∧
    ((WarDetector.reset { wd with log := wd.log.add l }).addWrite istate).2.violatingWrite =
      { wd.violatingWrite with pc := 0 } := by
  unfold WarDetector.addWrite
  rw [addWriteFold_eq_upsert _ false _ rfl]
  exact ⟨rfl, rfl⟩

theorem addWrite_quiet_violating (wd : WarDetector) (istate : InstructionState)
    (h : (wd.addWrite istate).1 = false) :
    (wd.addWrite istate).2.violatingRead = wd.violatingRead ∧
    (wd.addWrite istate).2.violatingWrite = wd.violatingWrite := by
  have hnone : ∀ m ∈ WarDetector.byteStates istate, warAt wd m.address = false := by
    intro m hm
    cases hh : warAt wd m.address with
    | false => rfl
    | true =>
      have ht : (wd.addWrite istate).1 = true :=
        (addWriteFold_spec (WarDetector.byteStates istate) false wd).2.2.2.1.mpr
          (Or.inr ⟨m, hm, hh⟩)
      rw [h] at ht
      exact absurd ht (by decide)
  exact addWriteFold_violating_none (WarDetector.byteStates istate) false wd hnone

/-- One call of `detectWar` either logs no WAR record and leaves the violating records as they
were up to their pc being zeroed, or logs a WAR record and leaves the violating records with
the address and instruction counts of that record and pc 0. -/
theorem stepDetect_violating (inter : Bool) (wd : WarDetector) (c : DetectCall) :
    (lastWarLine (stepDetect inter wd c).log = lastWarLine wd.log ∧
      ((stepDetect inter wd c).violatingRead = wd.violatingRead ∨
        (stepDetect inter wd c).violatingRead = { wd.violatingRead with pc := 0 }) ∧
      ((stepDetect inter wd c).violatingWrite = wd.violatingWrite ∨
        (stepDetect inter wd c).violatingWrite = { wd.violatingWrite with pc := 0 })) ∨
    (∃ l, l.region_end_type = RegionEndType.RE_WAR.toNat ∧
      lastWarLine (stepDetect inter wd c).log = some l ∧
      (stepDetect inter wd c).violatingRead =
        ⟨l.memory_address, 0, l.read_instruction_count⟩ ∧
      (stepDetect inter wd c).violatingWrite =
        ⟨l.memory_address, 0, l.write_instruction_count⟩) := by
  obtain ⟨e1, e2, e3⟩ := detectWarEntry_violating c.hic wd c.istate inter
  rcases stepDetect_cases inter wd c with ⟨_, hs⟩ | ⟨_, hq, hs⟩ | ⟨hf, hw, _, hl⟩
  · left
    obtain ⟨_, _, a3, a4, a5, _⟩ :=
      addRead_spec (detectWarEntry c.hic wd c.istate inter) c.istate
    rw [hs, a3, a4, a5]
    exact ⟨e1, e2, e3⟩
  · left
    obtain ⟨v1, v2⟩ := addWrite_quiet_violating (detectWarEntry c.hic wd c.istate inter)
      c.istate hq
    have l3 := (addWrite_spec (detectWarEntry c.hic wd c.istate inter) c.istate).2.2.1
    rw [hs, l3, v1, v2]
    exact ⟨e1, e2, e3⟩
  · right
    refine ⟨warLine
      ((detectWarEntry c.hic wd c.istate inter).addWrite c.istate).2.violatingRead
      ((detectWarEntry c.hic wd c.istate inter).addWrite c.istate).2.violatingWrite
      c.istate (getMemAccessType c.hic c.sp c.istate), rfl, ?_, ?_, ?_⟩
    · rw [lastWarLine_snoc (detectWarEntry c.hic wd c.istate inter).log _ _ hl]
      exact if_pos rfl
    · unfold stepDetect
      rw [hf, detectWar_write_war _ _ _ _ _ hw]
      exact (afterWar_violating _ _ c.istate).1
    · unfold stepDetect
      rw [hf, detectWar_write_war _ _ _ _ _ hw]
      refine (afterWar_violating _ _ c.istate).2.trans ?_
      have hv := (addWrite_violating_of_war (detectWarEntry c.hic wd c.istate inter)
        c.istate hw).2.1
      show (⟨((detectWarEntry c.hic wd c.istate inter).addWrite c.istate).2.violatingWrite.address,
          0, ((detectWarEntry c.hic wd c.istate inter).addWrite c.istate).2.violatingWrite.icount⟩
          : MemAccessState) =
        ⟨((detectWarEntry c.hic wd c.istate inter).addWrite c.istate).2.violatingRead.address,
          0, ((detectWarEntry c.hic wd c.istate inter).addWrite c.istate).2.violatingWrite.icount⟩
      rw [hv]

/-- On a run from a freshly constructed detector the violating records are (0, 0, 0) as long as
the log holds no WAR record, and afterwards carry the address and the two instruction counts
of the most recent WAR record, with pc 0. -/
theorem runDetect_violating (inter : Bool) (logfile : String) (dpw : Bool)
    (cs : List DetectCall) :
    (lastWarLine (runDetect inter (WarDetector.init logfile dpw) cs).log = none →
      (runDetect inter (WarDetector.init logfile dpw) cs).violatingRead = ⟨0, 0, 0⟩ ∧
      (runDetect inter (WarDetector.init logfile dpw) cs).violatingWrite = ⟨0, 0, 0⟩) ∧
    (∀ l, lastWarLine (runDetect inter (WarDetector.init logfile dpw) cs).log = some l →
      (runDetect inter (WarDetector.init logfile dpw) cs).violatingRead =
        ⟨l.memory_address, 0, l.read_instruction_count⟩ ∧
      (runDetect inter (WarDetector.init logfile dpw) cs).violatingWrite =
        ⟨l.memory_address, 0, l.write_instruction_count⟩) := by
  induction cs using List.reverseRecOn with
  | nil =>
    have h0 : lastWarLine (runDetect inter (WarDetector.init logfile dpw) []).log = none := rfl
    refine ⟨fun _ => ⟨rfl, rfl⟩, ?_⟩
    intro l hl
    rw [h0] at hl
    cases hl
  | append_singleton cs c ih =>
    rw [runDetect_snoc]
    rcases stepDetect_violating inter (runDetect inter (WarDetector.init logfile dpw) cs) c
      with ⟨e1, e2, e3⟩ | ⟨l, _, hl, hr, hw⟩
    · rw [e1]
      constructor
      · intro hn
        obtain ⟨i1, i2⟩ := ih.1 hn
        constructor
        · rcases e2 with e | e <;> rw [e, i1]
        · rcases e3 with e | e <;> rw [e, i2]
      · intro l hl
        obtain ⟨i1, i2⟩ := ih.2 l hl
        constructor
        · rcases e2 with e | e <;> rw [e, i1]
        · rcases e3 with e | e <;> rw [e, i2]
    · constructor
      · intro hn
        rw [hl] at hn
        cases hn
      · intro l2 h2
        rw [hl] at h2
        cases h2
        exact ⟨hr, hw⟩

/-! ## Classification of an access (getMemAccessType) -/

/-- C9: `getMemAccessType` returns MEM_LOCAL iff `current_sp ≤ a < entry_sp`, MEM_STACK iff
`current_sp ≤ a < estack` and the access is not LOCAL, and MEM_GLOBAL otherwise; it never
returns UNKNOWN or MEM_NONE, and it never returns MEM_LOCAL when `entry_sp ≤ current_sp`. -/
theorem getMemAccessType_classifies (hic : HookInstructionCount) (current_sp : Nat)
    (istate : InstructionState) :
    (getMemAccessType hic current_sp istate = MemAccessType.MEM_LOCAL ↔
      (current_sp ≤ istate.mem_address ∧ istate.mem_address < hic.sp_function_entry)) ∧
    (getMemAccessType hic current_sp istate = MemAccessType.MEM_STACK ↔
      (current_sp ≤ istate.mem_address ∧ istate.mem_address < hic.estack) ∧
      ¬ (current_sp ≤ istate.mem_address ∧ istate.mem_address < hic.sp_function_entry)) ∧
    (getMemAccessType hic current_sp istate = MemAccessType.MEM_GLOBAL ↔
      ¬ (current_sp ≤ istate.mem_address ∧ istate.mem_address < hic.sp_function_entry) ∧
      ¬ (current_sp ≤ istate.mem_address ∧ istate.mem_address < hic.estack)) ∧
    getMemAccessType hic current_sp istate ≠ MemAccessType.UNKNOWN ∧
    getMemAccessType hic current_sp istate ≠ MemAccessType.MEM_NONE ∧
    (hic.sp_function_entry ≤ current_sp →
      getMemAccessType hic current_sp istate ≠ MemAccessType.MEM_LOCAL) := by
  unfold getMemAccessType
  dsimp only
  split_ifs with h1 h2
  · refine ⟨?_, ?_, ?_, ?_, ?_, ?_⟩ <;> simp <;> omega
  · refine ⟨?_, ?_, ?_, ?_, ?_, ?_⟩ <;> simp <;> omega
  · refine ⟨?_, ?_, ?_, ?_, ?_, ?_⟩ <;> simp <;> omega

/-- Witness for C9 at a pre-prologue frame: entry SP 0x2000 equals the current SP, the
address 0x2004 lies below `_estack` = 0x3000, so the access is STACK and not LOCAL. -/
theorem getMemAccessType_classifies_witness :
    getMemAccessType { HookInstructionCount.init [] 12288 with sp_function_entry := 8192 } 8192
        ⟨0, 0, 8196, 1, 0, none⟩ = MemAccessType.MEM_STACK ∧
    getMemAccessType { HookInstructionCount.init [] 12288 with sp_function_entry := 8192 } 8192
        ⟨0, 0, 8196, 1, 0, none⟩ ≠ MemAccessType.MEM_LOCAL :=
  ⟨by decide,
   (getMemAccessType_classifies
      { HookInstructionCount.init [] 12288 with sp_function_entry := 8192 } 8192
      ⟨0, 0, 8196, 1, 0, none⟩).2.2.2.2.2 (by decide)⟩

/-! ## The per-byte write decision (addWrite on a MemAccessState) -/

/-- C2: `addWrite(MemAccessState b)` returns true exactly when `b.address` is in the read set
and (it is not in the write set or `detect_protected_war` is false); when it returns true the
violating read is the read-set entry found for `b.address`, the violating write is `b`, and
both sets are unchanged. -/
theorem addWriteByte_war_iff (wd : WarDetector) (b : MemAccessState) :
    ((wd.addWriteByte b).1 = true ↔
      (∃ r ∈ wd.reads, r.address = b.address) ∧
      ((¬ ∃ w ∈ wd.writes, w.address = b.address) ∨ wd.detect_protected_war = false)) ∧
    ((wd.addWriteByte b).1 = true →
      AccessSet.find wd.reads b = some (wd.addWriteByte b).2.violatingRead ∧
      (wd.addWriteByte b).2.violatingRead ∈ wd.reads ∧
      (wd.addWriteByte b).2.violatingRead.address = b.address ∧
      (wd.addWriteByte b).2.violatingWrite = b ∧
      (wd.addWriteByte b).2.reads = wd.reads ∧
      (wd.addWriteByte b).2.writes = wd.writes) := by
  have hr := AccessSet.find_isSome_iff wd.reads b
  have hw := AccessSet.find_isSome_iff wd.writes b
  unfold WarDetector.addWriteByte
  cases hfr : AccessSet.find wd.reads b with
  | none =>
    rw [hfr] at hr
    have hr2 : ¬ ∃ r ∈ wd.reads, r.address = b.address := by
      intro h; have := hr.mpr h; simp at this
    cases hfw : AccessSet.find wd.writes b <;> simp [hr2]
  | some rd =>
    rw [hfr] at hr
    have hr2 : ∃ r ∈ wd.reads, r.address = b.address := hr.mp (by simp)
    have hm := AccessSet.find_some_mem hfr
    cases hfw : AccessSet.find wd.writes b with
    | none =>
      rw [hfw] at hw
      have hw2 : ¬ ∃ w ∈ wd.writes, w.address = b.address := by
        intro h; have := hw.mpr h; simp at this
      exact ⟨⟨fun _ => ⟨hr2, Or.inl hw2⟩, fun _ => rfl⟩,
        fun _ => ⟨rfl, hm.1, hm.2, rfl, rfl, rfl⟩⟩
    | some wv =>
      rw [hfw] at hw
      have hw2 : ∃ w ∈ wd.writes, w.address = b.address := hw.mp (by simp)
      cases hd : wd.detect_protected_war with
      | true =>
        simp only [if_true]
        refine ⟨⟨fun h => by simp at h, fun h => ?_⟩, fun h => by simp at h⟩
        rcases h.2 with h2 | h2
        · exact absurd hw2 h2
        · simp at h2
      | false =>
        exact ⟨⟨fun _ => ⟨hr2, Or.inr rfl⟩, fun _ => rfl⟩,
          fun _ => ⟨rfl, hm.1, hm.2, rfl, rfl, rfl⟩⟩

/-- Witness for C2: byte 0x100 was read at (pc 8, icount 1) and never written; the write at
(pc 12, icount 2) is a WAR whose violating read is that read. -/
theorem addWriteByte_war_iff_witness :
    (({ WarDetector.init "log.csv" true with reads := [⟨256, 8, 1⟩] }).addWriteByte
        ⟨256, 12, 2⟩).1 = true ∧
    AccessSet.find [⟨256, 8, 1⟩] ⟨256, 12, 2⟩ =
      some (({ WarDetector.init "log.csv" true with reads := [⟨256, 8, 1⟩] }).addWriteByte
        ⟨256, 12, 2⟩).2.violatingRead :=
  ⟨by decide,
   ((addWriteByte_war_iff ({ WarDetector.init "log.csv" true with reads := [⟨256, 8, 1⟩] })
      ⟨256, 12, 2⟩).2 (by decide)).1⟩

/-! ## Regions of an intra-procedural detector -/

/-- C1: for a freshly constructed intra-procedural detector driven through `detectWar`, a call
appends a WAR record (and starts a new region with itself as first access) exactly when it is
a write and some byte of its range was read since the last reset and, when
`detect_protected_war` is true, was first accessed since that reset by a read; otherwise the
log is unchanged and the region goes on. Hence no call inside a region satisfies that
condition against the calls before it in the region. -/
theorem detectWar_intra_war_iff (logfile : String) (dpw : Bool) (cs : List DetectCall)
    (c : DetectCall) :
    (warCondition dpw (regionCalls false (WarDetector.init logfile dpw) cs) c →
      (detectWar c.hic c.sp (runDetect false (WarDetector.init logfile dpw) cs)
        c.istate c.is_read false).1 = true ∧
      (∃ l, l.region_end_type = RegionEndType.RE_WAR.toNat ∧
        (runDetect false (WarDetector.init logfile dpw) (cs ++ [c])).log.warLogLines =
          (runDetect false (WarDetector.init logfile dpw) cs).log.warLogLines ++ [l]) ∧
      regionCalls false (WarDetector.init logfile dpw) (cs ++ [c]) = [c]) ∧
    (¬ warCondition dpw (regionCalls false (WarDetector.init logfile dpw) cs) c →
      (detectWar c.hic c.sp (runDetect false (WarDetector.init logfile dpw) cs)
        c.istate c.is_read false).1 = false ∧
      (runDetect false (WarDetector.init logfile dpw) (cs ++ [c])).log =
        (runDetect false (WarDetector.init logfile dpw) cs).log ∧
      regionCalls false (WarDetector.init logfile dpw) (cs ++ [c]) =
        regionCalls false (WarDetector.init logfile dpw) cs ++ [c]) ∧
    (∀ h1 w h2, regionCalls false (WarDetector.init logfile dpw) cs = h1 ++ w :: h2 →
      ¬ warCondition dpw h1 w) := by
  obtain ⟨hT, hI⟩ := intra_run_tracks logfile dpw cs
  have hne : ¬ (false = true ∧ c.hic.new_function = true) := by simp
  obtain ⟨sw, sq⟩ := step_of_tracks dpw _ _ c false hne hT
  rw [runDetect_snoc, regionCalls_snoc]
  refine ⟨fun hw => ?_, fun hw => ?_, hI⟩
  · obtain ⟨h1, ⟨l, hl1, hl2⟩, _⟩ := sw hw
    exact ⟨h1, ⟨l, hl1, hl2⟩, by rw [if_pos (logGrew_of_append _ _ _ l hl2)]⟩
  · obtain ⟨h1, hl, _⟩ := sq hw
    exact ⟨h1, hl, by rw [if_neg (by rw [logGrew_of_same _ _ _ hl]; simp)]⟩

/-- Witness for C1: after the 4-byte read at 0x100 the 1-byte write at 0x102 is a WAR. -/
theorem detectWar_intra_war_iff_witness :
    (detectWar (exampleCall false 258 1 12 2 false).hic (exampleCall false 258 1 12 2 false).sp
      (runDetect false (WarDetector.init "w.csv" true) [exampleCall true 256 4 8 1 false])
      (exampleCall false 258 1 12 2 false).istate false false).1 = true := by
  have hreg : regionCalls false (WarDetector.init "w.csv" true)
      [exampleCall true 256 4 8 1 false] = [exampleCall true 256 4 8 1 false] := by decide
  have hw : warCondition true (regionCalls false (WarDetector.init "w.csv" true)
      [exampleCall true 256 4 8 1 false]) (exampleCall false 258 1 12 2 false) := by
    rw [hreg]
    exact ⟨rfl, 258, by decide, ⟨exampleCall true 256 4 8 1 false, by simp, rfl, by decide⟩,
      fun _ => ⟨exampleCall true 256 4 8 1 false, by decide, rfl⟩⟩
  exact ((detectWar_intra_war_iff "w.csv" true [exampleCall true 256 4 8 1 false]
    (exampleCall false 258 1 12 2 false)).1 hw).1

/-! ## Multi-byte writes -/

/-- C3 (as stated, refuted): on an inter-procedural detector whose tracker has `new_function`
set, a write to a byte that is in the read set and not in the write set appends no WAR
record: the call logs a FUNCTION_ENTRY record and resets before the write is examined. -/
theorem detectWar_write_at_function_entry_no_war :
    (∃ r ∈ (runDetect true (WarDetector.init "w.csv" true)
        [exampleCall true 256 1 8 1 false]).reads, r.address = 256) ∧
    (¬ ∃ w ∈ (runDetect true (WarDetector.init "w.csv" true)
        [exampleCall true 256 1 8 1 false]).writes, w.address = 256) ∧
    countWar (detectWar (exampleCall false 256 1 12 2 true).hic
      (exampleCall false 256 1 12 2 true).sp
      (runDetect true (WarDetector.init "w.csv" true) [exampleCall true 256 1 8 1 false])
      (exampleCall false 256 1 12 2 true).istate false true).2.log = 0 ∧
    countFunctionEntry (detectWar (exampleCall false 256 1 12 2 true).hic
      (exampleCall false 256 1 12 2 true).sp
      (runDetect true (WarDetector.init "w.csv" true) [exampleCall true 256 1 8 1 false])
      (exampleCall false 256 1 12 2 true).istate false true).2.log = 1 := by
  decide

/-- C3 (amended): for every detector state and every write of width N at A, if some byte of
the range is in the read set and not protected and the call does not end the region on
function entry (`inter_procedural` false or `new_function` false), `detectWar` reports a WAR
and appends exactly one record, a WAR record; when `inter_procedural` and `new_function` are
both true it appends only the FUNCTION_ENTRY record. In every state
`addWrite(InstructionState)` returns WAR iff some iteration of its byte loop raised WAR, iff
some byte of the range raises WAR in the state before the call. -/
theorem detectWar_multibyte_write (hic : HookInstructionCount) (sp : Nat) (wd : WarDetector)
    (istate : InstructionState) (inter : Bool) :
    (¬ (inter = true ∧ hic.new_function = true) →
      (∃ i, i < istate.mem_size ∧
        (∃ r ∈ wd.reads, r.address = (istate.mem_address + i) % ADDR_MOD) ∧
        ((¬ ∃ w ∈ wd.writes, w.address = (istate.mem_address + i) % ADDR_MOD) ∨
          wd.detect_protected_war = false)) →
      (detectWar hic sp wd istate false inter).1 = true ∧
      ∃ l, l.region_end_type = RegionEndType.RE_WAR.toNat ∧
        (detectWar hic sp wd istate false inter).2.log.warLogLines =
          wd.log.warLogLines ++ [l]) ∧
    ((inter = true ∧ hic.new_function = true) →
      (detectWar hic sp wd istate false inter).1 = false ∧
      (detectWar hic sp wd istate false inter).2.log.warLogLines =
        wd.log.warLogLines ++ [functionEntryLine hic istate]) ∧
    ((wd.addWrite istate).1 = true ↔
      ∃ i, i < istate.mem_size ∧
        ((addWriteLoopState wd istate i).addWriteByte (byteState istate i)).1 = true) ∧
    ((wd.addWrite istate).1 = true ↔
      ∃ i, i < istate.mem_size ∧ (wd.addWriteByte (byteState istate i)).1 = true) := by
  refine ⟨fun hne hb => ?_, fun he => detectWar_entry_write hic sp wd istate inter he, ?_,
    addWrite_fst_iff_byte wd istate⟩
  · have hw : (wd.addWrite istate).1 = true := by
      rw [(addWrite_spec wd istate).2.2.2.1]
      obtain ⟨i, hi, h1, h2⟩ := hb
      exact ⟨i, hi, (warAt_iff_mem wd _).mpr ⟨h1, h2⟩⟩
    obtain ⟨h1, h2⟩ := detectWar_war_line hic sp wd istate inter hne hw
    exact ⟨h1, _, rfl, h2⟩
  · rw [addWrite_fst_iff_byte]
    constructor
    · rintro ⟨i, hi, h⟩
      exact ⟨i, hi, by rw [addWriteLoopState_byte]; exact h⟩
    · rintro ⟨i, hi, h⟩
      exact ⟨i, hi, by rw [addWriteLoopState_byte] at h; exact h⟩

/-- Witness for C3 (amended): after reads of 0x100 and 0x101, the 2-byte write at 0x100 on
an intra-procedural detector appends exactly one record. -/
theorem detectWar_multibyte_write_witness :
    ∃ l, l.region_end_type = RegionEndType.RE_WAR.toNat ∧
      (detectWar (exampleCall false 256 2 16 3 false).hic (exampleCall false 256 2 16 3 false).sp
        (runDetect false (WarDetector.init "w.csv" true)
          [exampleCall true 256 1 8 1 false, exampleCall true 257 1 12 2 false])
        (exampleCall false 256 2 16 3 false).istate false false).2.log.warLogLines =
      (runDetect false (WarDetector.init "w.csv" true)
          [exampleCall true 256 1 8 1 false, exampleCall true 257 1 12 2 false]).log.warLogLines
        ++ [l] :=
  ((detectWar_multibyte_write (exampleCall false 256 2 16 3 false).hic
    (exampleCall false 256 2 16 3 false).sp
    (runDetect false (WarDetector.init "w.csv" true)
      [exampleCall true 256 1 8 1 false, exampleCall true 257 1 12 2 false])
    (exampleCall false 256 2 16 3 false).istate false).1 (by decide)
    ⟨0, by decide, by decide, Or.inl (by decide)⟩).2

/-- C5 (as stated, refuted): bytes 0x100 and 0x101 were read at (pc 8, icount 1) and
(pc 12, icount 2); in the 2-byte write at 0x100 both bytes raise WAR, the lowest being
0x100, yet the violating read and write and the logged record are those of byte 0x101. -/
theorem addWrite_violating_not_first :
    ((runDetect false (WarDetector.init "w.csv" true)
        [exampleCall true 256 1 8 1 false, exampleCall true 257 1 12 2 false]).addWriteByte
      (byteState (exampleCall false 256 2 16 3 false).istate 0)).1 = true ∧
    ((runDetect false (WarDetector.init "w.csv" true)
        [exampleCall true 256 1 8 1 false, exampleCall true 257 1 12 2 false]).addWrite
      (exampleCall false 256 2 16 3 false).istate).2.getViolatingRead = ⟨257, 12, 2⟩ ∧
    ((runDetect false (WarDetector.init "w.csv" true)
        [exampleCall true 256 1 8 1 false, exampleCall true 257 1 12 2 false]).addWrite
      (exampleCall false 256 2 16 3 false).istate).2.getViolatingWrite = ⟨257, 16, 3⟩ ∧
    (runDetect false (WarDetector.init "w.csv" true)
        [exampleCall true 256 1 8 1 false, exampleCall true 257 1 12 2 false,
          exampleCall false 256 2 16 3 false]).log.warLogLines.map
      (fun l => (l.memory_address, l.read_instruction_count, l.read_code_address)) =
      [(257, 2, 12)] := by
  decide

/-- C5 (amended): when byte `i` of a width-N write raises WAR and no later byte of the loop
does, the violating read returned after `addWrite(InstructionState)` is the read-set entry of
byte `i` and the violating write is the record of byte `i`: the last byte in loop order
(highest offset) that detected WAR. The WAR record that `detectWar` then logs carries that
byte address as memory_address, the pc and icount of that read-set entry, and the pc and
icount of the write. -/
theorem addWrite_violating_is_last (hic : HookInstructionCount) (sp : Nat) (wd : WarDetector)
    (istate : InstructionState) (inter : Bool) (i : Nat) (hi : i < istate.mem_size)
    (hwar : (wd.addWriteByte (byteState istate i)).1 = true)
    (hlast : ∀ j, i < j → j < istate.mem_size →
      (wd.addWriteByte (byteState istate j)).1 = false) :
    AccessSet.find wd.reads (byteState istate i) =
      some (wd.addWrite istate).2.getViolatingRead ∧
    (wd.addWrite istate).2.getViolatingWrite = byteState istate i ∧
    (¬ (inter = true ∧ hic.new_function = true) →
      ∃ l, (detectWar hic sp wd istate false inter).2.log.warLogLines =
          wd.log.warLogLines ++ [l] ∧
        l.memory_address = (istate.mem_address + i) % ADDR_MOD ∧
        AccessSet.find wd.reads (byteState istate i) =
          some ⟨l.memory_address, l.read_code_address, l.read_instruction_count⟩ ∧
        l.write_code_address = istate.pc ∧
        l.write_instruction_count = istate.icount) := by
  obtain ⟨pre, post, e, hpost⟩ := byteStates_split istate i hi
  have hm : warAt wd (byteState istate i).address = true := by
    rw [← addWriteByte_fst]; exact hwar
  have hp : ∀ m2 ∈ post, warAt wd m2.address = false := by
    intro m2 h2
    obtain ⟨j, hj1, hj2, rfl⟩ := hpost m2 h2
    have := hlast j hj1 hj2
    rw [addWriteByte_fst] at this
    exact this
  have hv := addWriteFold_violating_last pre post (byteState istate i) false wd hm hp
  have e2 : WarDetector.byteStates istate = pre ++ byteState istate i :: post := e
  have hvr : AccessSet.find wd.reads (byteState istate i) =
      some (wd.addWrite istate).2.violatingRead := by
    unfold WarDetector.addWrite; rw [e2]; exact hv.1
  have hvw : (wd.addWrite istate).2.violatingWrite = byteState istate i := by
    unfold WarDetector.addWrite; rw [e2]; exact hv.2
  refine ⟨hvr, hvw, fun hne => ?_⟩
  have hw : (wd.addWrite istate).1 = true := (addWrite_fst_iff_byte wd istate).mpr ⟨i, hi, hwar⟩
  obtain ⟨_, h2⟩ := detectWar_war_line hic sp wd istate inter hne hw
  have hmem := AccessSet.find_some_mem hvr
  refine ⟨_, h2, hmem.2, ?_, ?_, ?_⟩
  · rw [hvr]; rfl
  · show (wd.addWrite istate).2.violatingWrite.pc = istate.pc
    rw [hvw]; rfl
  · show (wd.addWrite istate).2.violatingWrite.icount = istate.icount
    rw [hvw]; rfl

/-- Witness for C5 (amended): in the example above byte 1 (address 0x101) is the last byte
that raises WAR, and the violating write is its record. -/
theorem addWrite_violating_is_last_witness :
    ((runDetect false (WarDetector.init "w.csv" true)
        [exampleCall true 256 1 8 1 false, exampleCall true 257 1 12 2 false]).addWrite
      (exampleCall false 256 2 16 3 false).istate).2.getViolatingWrite =
      byteState (exampleCall false 256 2 16 3 false).istate 1 :=
  (addWrite_violating_is_last (exampleCall false 256 2 16 3 false).hic
    (exampleCall false 256 2 16 3 false).sp
    (runDetect false (WarDetector.init "w.csv" true)
      [exampleCall true 256 1 8 1 false, exampleCall true 257 1 12 2 false])
    (exampleCall false 256 2 16 3 false).istate false 1 (by decide) (by decide)
    (fun j h1 h2 => absurd h2 (by
      have : (exampleCall false 256 2 16 3 false).istate.mem_size = 2 := rfl
      omega))).2.1

/-! ## The trace W(a) R(a) W(a) -/

/-- C4: for every byte address `a` and width-1 calls W(a), R(a), W(a) made through
`detectWar` on a freshly constructed intra-procedural detector: with
`detect_protected_war` = true the log stays empty; with `detect_protected_war` = false the
log is empty after the first two calls and holds exactly one record after the third, a WAR
record whose read icount, read pc and memory address are those of the R(a) call. -/
theorem detectWar_write_read_write (logfile : String) (a : Nat) (c1 c2 c3 : DetectCall)
    (ha : a < ADDR_MOD)
    (h1 : c1.is_read = false ∧ c1.istate.mem_address = a ∧ c1.istate.mem_size = 1)
    (h2 : c2.is_read = true ∧ c2.istate.mem_address = a ∧ c2.istate.mem_size = 1)
    (h3 : c3.is_read = false ∧ c3.istate.mem_address = a ∧ c3.istate.mem_size = 1) :
    (runDetect false (WarDetector.init logfile true) [c1, c2, c3]).log.warLogLines = [] ∧
    (runDetect false (WarDetector.init logfile false) [c1, c2]).log.warLogLines = [] ∧
    ∃ l, (runDetect false (WarDetector.init logfile false) [c1, c2, c3]).log.warLogLines = [l] ∧
      l.region_end_type = RegionEndType.RE_WAR.toNat ∧
      l.read_instruction_count = c2.istate.icount ∧
      l.read_code_address = c2.istate.pc ∧
      l.memory_address = a ∧
      l.write_instruction_count = c3.istate.icount ∧
      l.write_code_address = c3.istate.pc := by
  obtain ⟨hic1, sp1, ⟨pc1, ic1, ad1, sz1, fa1, fn1⟩, r1⟩ := c1
  obtain ⟨hic2, sp2, ⟨pc2, ic2, ad2, sz2, fa2, fn2⟩, r2⟩ := c2
  obtain ⟨hic3, sp3, ⟨pc3, ic3, ad3, sz3, fa3, fn3⟩, r3⟩ := c3
  obtain ⟨e1, e2, e3⟩ := h1
  obtain ⟨f1, f2, f3⟩ := h2
  obtain ⟨g1, g2, g3⟩ := h3
  dsimp only at e1 e2 e3 f1 f2 f3 g1 g2 g3
  subst e1 e2 e3 f1 f2 f3 g1 g2 g3
  have hmod : ad3 % ADDR_MOD = ad3 := Nat.mod_eq_of_lt ha
  refine ⟨?_, ?_, ?_⟩
  · simp [runDetect, stepDetect, detectWar, detectWarEntry, WarDetector.addWrite,
      WarDetector.addRead, WarDetector.byteStates, WarDetector.addWriteStep,
      WarDetector.addWriteByte, WarDetector.addReadByte, WarDetector.init, WarDetector.reset,
      AccessSet.find, AccessSet.insert, AccessSet.erase, AccessSet.clear, WarLog.init,
      List.range_succ, List.range_zero]
  · simp [runDetect, stepDetect, detectWar, detectWarEntry, WarDetector.addWrite,
      WarDetector.addRead, WarDetector.byteStates, WarDetector.addWriteStep,
      WarDetector.addWriteByte, WarDetector.addReadByte, WarDetector.init, WarDetector.reset,
      AccessSet.find, AccessSet.insert, AccessSet.erase, AccessSet.clear, WarLog.init,
      List.range_succ, List.range_zero]
  · simp [runDetect, stepDetect, detectWar, detectWarEntry, WarDetector.addWrite,
      WarDetector.addRead, WarDetector.byteStates, WarDetector.addWriteStep,
      WarDetector.addWriteByte, WarDetector.addReadByte, WarDetector.init, WarDetector.reset,
      AccessSet.find, AccessSet.insert, AccessSet.erase, AccessSet.clear, WarLog.init,
      WarLog.add, warLine, WarDetector.getViolatingRead, WarDetector.getViolatingWrite,
      List.range_succ, List.range_zero, hmod]

/-- Witness for C4 at address 0x100: with protecting writes honoured the log stays empty. -/
theorem detectWar_write_read_write_witness :
    (runDetect false (WarDetector.init "w.csv" true)
      [exampleCall false 256 1 8 1 false, exampleCall true 256 1 12 2 false,
        exampleCall false 256 1 16 3 false]).log.warLogLines = [] :=
  (detectWar_write_read_write "w.csv" 256 (exampleCall false 256 1 8 1 false)
    (exampleCall true 256 1 12 2 false) (exampleCall false 256 1 16 3 false)
    (by decide) ⟨rfl, rfl, rfl⟩ ⟨rfl, rfl, rfl⟩ ⟨rfl, rfl, rfl⟩).1

/-! ## Writes to bytes not read since a reset -/

/-- C10: start from any detector state (either `detect_protected_war`), call `reset()`, then
make any calls of `detectWar`; if no read among them covers a byte of the write `w`, then
`addWrite` returns no WAR for `w`, `detectWar` reports none, and the number of WAR records
in the log does not change. -/
theorem write_unread_after_reset_no_war (wd0 : WarDetector) (inter : Bool)
    (ops : List DetectCall) (w : DetectCall) (hw : w.is_read = false)
    (hno : ∀ c ∈ ops, c.is_read = true → ∀ b, covers w b = true → covers c b = false) :
    ((runDetect inter wd0.reset ops).addWrite w.istate).1 = false ∧
    (detectWar w.hic w.sp (runDetect inter wd0.reset ops) w.istate w.is_read inter).1 = false ∧
    countWar (stepDetect inter (runDetect inter wd0.reset ops) w).log =
      countWar (runDetect inter wd0.reset ops).log := by
  have hquiet : ((runDetect inter wd0.reset ops).addWrite w.istate).1 = false := by
    cases hh : ((runDetect inter wd0.reset ops).addWrite w.istate).1 with
    | false => rfl
    | true =>
      obtain ⟨i, hi, hwar⟩ := (addWrite_spec _ w.istate).2.2.2.1.mp hh
      have hrd : AccessSet.hasAddr (runDetect inter wd0.reset ops).reads
          ((w.istate.mem_address + i) % ADDR_MOD) = true := by
        unfold warAt at hwar
        rw [Bool.and_eq_true] at hwar
        exact hwar.1
      obtain ⟨c, hc, hcr, hcov⟩ := runDetect_reads_covered inter wd0.reset rfl ops _ hrd
      have := hno c hc hcr _ ((covers_iff w _).mpr ⟨i, hi, rfl⟩)
      rw [this] at hcov
      cases hcov
  have hentry : ((detectWarEntry w.hic (runDetect inter wd0.reset ops) w.istate
      inter).addWrite w.istate).1 = false := by
    rcases detectWarEntry_reads w.hic (runDetect inter wd0.reset ops) w.istate inter with
      e | ⟨_, e, _⟩
    · rw [e]; exact hquiet
    · exact addWrite_fst_false_of_reads_nil _ _ e
  refine ⟨hquiet, ?_, ?_⟩
  · rw [hw, detectWar_write_quiet _ _ _ _ _ hentry]
  · unfold stepDetect
    rw [hw, detectWar_write_quiet _ _ _ _ _ hentry]
    show countWar ((detectWarEntry w.hic (runDetect inter wd0.reset ops) w.istate
      inter).addWrite w.istate).2.log = _
    rw [(addWrite_spec _ w.istate).2.2.1]
    rcases detectWarEntry_reads w.hic (runDetect inter wd0.reset ops) w.istate inter with
      e | ⟨_, _, e⟩
    · rw [e]
    · rw [countWar_lines_append _ _ _ e]
      rfl

/-- Witness for C10: after a reset, a read of 0x100 and a write of 0x300, the write of
0x200 raises no WAR (scenario R(0x100) W(0x200)). -/
theorem write_unread_after_reset_no_war_witness :
    ((runDetect false (WarDetector.init "w.csv" false).reset
      [exampleCall true 256 1 8 1 false, exampleCall false 768 2 12 2 false]).addWrite
      (exampleCall false 512 1 16 3 false).istate).1 = false :=
  (write_unread_after_reset_no_war (WarDetector.init "w.csv" false) false
    [exampleCall true 256 1 8 1 false, exampleCall false 768 2 12 2 false]
    (exampleCall false 512 1 16 3 false) rfl (by
      intro c hc hr b hb
      obtain ⟨i, hi, rfl⟩ := (covers_iff _ b).mp hb
      have hi0 : i = 0 := by
        have : (exampleCall false 512 1 16 3 false).istate.mem_size = 1 := rfl
        omega
      subst hi0
      simp only [List.mem_cons, List.mem_singleton, List.not_mem_nil, or_false] at hc
      rcases hc with rfl | rfl
      · decide
      · exact absurd hr (by decide))).1

/-! ## Instruction counts of WAR records -/

/-- C7: drive a freshly constructed detector (either policy, intra- or inter-procedural)
through `detectWar` with calls whose icount is non-decreasing. Every WAR record a call
appends has read icount ≤ write icount, and both are at least the icount of the call at which
the detector was last reset (0 when it has not been reset). -/
theorem war_record_icounts_ordered (logfile : String) (dpw inter : Bool)
    (cs : List DetectCall) (c : DetectCall)
    (hmono : List.Pairwise (fun x y => x ≤ y) ((cs ++ [c]).map (fun x => x.istate.icount)))
    (l : WarLogLine)
    (hl : (runDetect inter (WarDetector.init logfile dpw) (cs ++ [c])).log.warLogLines =
      (runDetect inter (WarDetector.init logfile dpw) cs).log.warLogLines ++ [l])
    (hwar : l.region_end_type = RegionEndType.RE_WAR.toNat) :
    l.read_instruction_count ≤ l.write_instruction_count ∧
    regionStart inter (WarDetector.init logfile dpw) cs ≤ l.read_instruction_count ∧
    regionStart inter (WarDetector.init logfile dpw) cs ≤ l.write_instruction_count := by
  have hmono2 := hmono
  rw [List.map_append, List.pairwise_append] at hmono2
  obtain ⟨hm1, _, hm3⟩ := hmono2
  obtain ⟨ihR, _⟩ := runDetect_reads_icount inter (WarDetector.init logfile dpw) rfl cs hm1
  have hle : ∀ d ∈ cs, d.istate.icount ≤ c.istate.icount := by
    intro d hd
    exact hm3 _ (List.mem_map_of_mem _ hd) _ (by simp)
  rw [runDetect_snoc] at hl
  rcases stepDetect_summary inter (runDetect inter (WarDetector.init logfile dpw) cs) c with
    ⟨_, h1, _⟩ | ⟨_, h1, _⟩ | ⟨_, _, hw, h1, _⟩
  · rw [h1] at hl
    have := List.append_cancel_left hl
    simp only [List.cons.injEq, and_true] at this
    rw [← this] at hwar
    have h10 : ¬ ((1 : Nat) = 0) := by decide
    exact absurd hwar h10
  · rw [h1] at hl
    have := congrArg List.length hl
    simp at this
  · rw [h1] at hl
    have := List.append_cancel_left hl
    simp only [List.cons.injEq, and_true] at this
    obtain ⟨v1, _, v3⟩ := addWrite_violating_of_war _ c.istate hw
    obtain ⟨i, _, hi⟩ := (byteStates_mem_iff c.istate _).mp v3
    obtain ⟨s1, d, hd, s2⟩ := ihR _ v1
    have hwi : l.write_instruction_count = c.istate.icount := by
      rw [← this]
      show ((runDetect inter (WarDetector.init logfile dpw) cs).addWrite
        c.istate).2.violatingWrite.icount = _
      rw [hi]
    have hri : l.read_instruction_count = ((runDetect inter (WarDetector.init logfile dpw)
        cs).addWrite c.istate).2.violatingRead.icount := by
      rw [← this]; rfl
    rw [hwi, hri]
    refine ⟨?_, s1, ?_⟩
    · rw [s2]; exact hle d hd
    · exact le_trans s1 (by rw [s2]; exact hle d hd)

/-- Witness for C7: read of 0x100 at icount 1, write of 0x100 at icount 2; the WAR record
has read icount 1 ≤ write icount 2. -/
theorem war_record_icounts_ordered_witness :
    (warLine ⟨256, 8, 1⟩ ⟨256, 12, 2⟩ (exampleCall false 256 1 12 2 false).istate
      MemAccessType.MEM_GLOBAL).read_instruction_count ≤
    (warLine ⟨256, 8, 1⟩ ⟨256, 12, 2⟩ (exampleCall false 256 1 12 2 false).istate
      MemAccessType.MEM_GLOBAL).write_instruction_count :=
  (war_record_icounts_ordered "w.csv" true false [exampleCall true 256 1 8 1 false]
    (exampleCall false 256 1 12 2 false) (by decide)
    (warLine ⟨256, 8, 1⟩ ⟨256, 12, 2⟩ (exampleCall false 256 1 12 2 false).istate
      MemAccessType.MEM_GLOBAL) (by decide) rfl).1

/-! ## FUNCTION_ENTRY records -/

/-- C6 (as stated, refuted): with an empty function map no instruction is a function entry,
yet the first memory event of the trace puts a FUNCTION_ENTRY record into the log of the
inter-procedural detector, because `new_function` is initialised to true. -/
theorem functionEntry_record_without_entry :
    followsFunctionEntry [] [TraceEvent.instruction 4 536875008] = false ∧
    countFunctionEntry ((HookIdempotencyStatistics.init [] 536879104).runTrace
      [TraceEvent.instruction 4 536875008]).warDetectorInterProcedural.log = 0 ∧
    countFunctionEntry ((HookIdempotencyStatistics.init [] 536879104).runTrace
      [TraceEvent.instruction 4 536875008,
        TraceEvent.memory ⟨256, 1, MemType.MEM_READ⟩ 536875008]).warDetectorInterProcedural.log
      = 1 := by
  decide

/-- C6 (amended): for every trace from the constructed analyzer, a memory event adds a
FUNCTION_ENTRY record to the log of each inter-procedural detector exactly when it is the
first memory event of the trace or the first memory event following a function-entry
instruction, and then it adds exactly one; the logs of the two intra-procedural detectors
never contain a FUNCTION_ENTRY record. -/
theorem functionEntry_record_iff (fm : List (Nat × List String)) (estack : Nat)
    (pre : List TraceEvent) (arg : hook_arg_t) (sp : Nat) :
    countFunctionEntry ((HookIdempotencyStatistics.init fm estack).runTrace
        (pre ++ [TraceEvent.memory arg sp])).warDetectorInterProcedural.log =
      countFunctionEntry
        ((HookIdempotencyStatistics.init fm estack).runTrace pre).warDetectorInterProcedural.log
      + (if noMemoryYet pre = true ∨ followsFunctionEntry fm pre = true then 1 else 0) ∧
    countFunctionEntry ((HookIdempotencyStatistics.init fm estack).runTrace
        (pre ++ [TraceEvent.memory arg sp])).warDetectorNoProtectedInterProcedural.log =
      countFunctionEntry ((HookIdempotencyStatistics.init fm estack).runTrace
        pre).warDetectorNoProtectedInterProcedural.log
      + (if noMemoryYet pre = true ∨ followsFunctionEntry fm pre = true then 1 else 0) ∧
    countFunctionEntry ((HookIdempotencyStatistics.init fm estack).runTrace
        (pre ++ [TraceEvent.memory arg sp])).warDetector.log = 0 ∧
    countFunctionEntry ((HookIdempotencyStatistics.init fm estack).runTrace
        (pre ++ [TraceEvent.memory arg sp])).warDetectorNoProtected.log = 0 := by
  obtain ⟨i1, i2⟩ := runTrace_intra_no_functionEntry fm estack (pre ++ [TraceEvent.memory arg sp])
  refine ⟨?_, ?_, i1, i2⟩
  · rw [runTrace_snoc]
    obtain ⟨r1, _, _, _⟩ := run_interProcedural
      ((HookIdempotencyStatistics.init fm estack).runTrace pre) arg sp
    show countFunctionEntry (((HookIdempotencyStatistics.init fm estack).runTrace pre).run arg
      sp).warDetectorInterProcedural.log = _
    rw [r1, countFunctionEntry_step]
    simp only [(runTrace_new_function fm estack pre).2, Bool.or_eq_true, true_and]
  · rw [runTrace_snoc]
    obtain ⟨_, r2, _, _⟩ := run_interProcedural
      ((HookIdempotencyStatistics.init fm estack).runTrace pre) arg sp
    show countFunctionEntry (((HookIdempotencyStatistics.init fm estack).runTrace pre).run arg
      sp).warDetectorNoProtectedInterProcedural.log = _
    rw [r2, countFunctionEntry_step]
    simp only [(runTrace_new_function fm estack pre).2, Bool.or_eq_true, true_and]

/-! ## Independence of the four detectors -/

/-- C8: for every analyzer state and every trace, each of the four detectors ends in the
state (log included) it reaches when it is the only detector driven over the same trace with
its own `inter_procedural` flag; the tracker, `new_function` included, evolves the same. -/
theorem detectors_independent (h : HookIdempotencyStatistics) (tr : List TraceEvent) :
    SoloAnalyzer.runTrace false ⟨h.hook_instr_cnt, h.warDetector⟩ tr =
      ⟨(h.runTrace tr).hook_instr_cnt, (h.runTrace tr).warDetector⟩ ∧
    SoloAnalyzer.runTrace false ⟨h.hook_instr_cnt, h.warDetectorNoProtected⟩ tr =
      ⟨(h.runTrace tr).hook_instr_cnt, (h.runTrace tr).warDetectorNoProtected⟩ ∧
    SoloAnalyzer.runTrace true ⟨h.hook_instr_cnt, h.warDetectorInterProcedural⟩ tr =
      ⟨(h.runTrace tr).hook_instr_cnt, (h.runTrace tr).warDetectorInterProcedural⟩ ∧
    SoloAnalyzer.runTrace true ⟨h.hook_instr_cnt, h.warDetectorNoProtectedInterProcedural⟩ tr =
      ⟨(h.runTrace tr).hook_instr_cnt,
        (h.runTrace tr).warDetectorNoProtectedInterProcedural⟩ := by
  induction tr generalizing h with
  | nil => exact ⟨rfl, rfl, rfl, rfl⟩
  | cons e tr ih =>
    have hrun : h.runTrace (e :: tr) = (h.step e).runTrace tr := rfl
    rw [hrun]
    obtain ⟨i1, i2, i3, i4⟩ := ih (h.step e)
    rw [← i1, ← i2, ← i3, ← i4]
    cases e with
    | instruction address sp => exact ⟨rfl, rfl, rfl, rfl⟩
    | memory arg sp => exact ⟨rfl, rfl, rfl, rfl⟩

/-! ## What reset() clears -/

/-- C17 (as stated, refuted): after the WAR of R(0x100) at (pc 8, icount 1) and W(0x100) at
(pc 12, icount 2), `reset()` leaves the violating read (0x100, pc 0, icount 1) and the
violating write (0x100, pc 0, icount 2): address and icount are left over. -/
theorem reset_keeps_violating_fields :
    (runDetect false (WarDetector.init "w.csv" true)
      [exampleCall true 256 1 8 1 false,
        exampleCall false 256 1 12 2 false]).reset.getViolatingRead = ⟨256, 0, 1⟩ ∧
    (runDetect false (WarDetector.init "w.csv" true)
      [exampleCall true 256 1 8 1 false,
        exampleCall false 256 1 12 2 false]).reset.getViolatingWrite = ⟨256, 0, 2⟩ := by
  decide

/-- C17 (amended): for every detector state, after `reset()` the read set is empty, the
write set is empty, and the two violating records have pc 0 and otherwise the address and
icount they had before; the log and the policy flag are untouched. A freshly constructed
detector has both violating records equal to (0, 0, 0). Hence, after any sequence of
`detectWar` calls on a freshly constructed detector, `reset()` leaves `getViolatingRead()` and
`getViolatingWrite()` at (0, 0, 0) when the log holds no WAR record, and otherwise at
(memory address, 0, read icount) and (memory address, 0, write icount) of the most recent WAR
record of the log. -/
theorem reset_clears_sets_and_pc (wd : WarDetector) (logfile : String) (dpw inter : Bool)
    (cs : List DetectCall) :
    wd.reset.reads = [] ∧
    wd.reset.writes = [] ∧
    wd.reset.getViolatingRead = ⟨wd.violatingRead.address, 0, wd.violatingRead.icount⟩ ∧
    wd.reset.getViolatingWrite = ⟨wd.violatingWrite.address, 0, wd.violatingWrite.icount⟩ ∧
    wd.reset.log = wd.log ∧
    wd.reset.detect_protected_war = wd.detect_protected_war ∧
    (WarDetector.init logfile dpw).getViolatingRead = ⟨0, 0, 0⟩ ∧
    (WarDetector.init logfile dpw).getViolatingWrite = ⟨0, 0, 0⟩ ∧
    (lastWarLine (runDetect inter (WarDetector.init logfile dpw) cs).log = none →
      (runDetect inter (WarDetector.init logfile dpw) cs).reset.getViolatingRead = ⟨0, 0, 0⟩ ∧
      (runDetect inter (WarDetector.init logfile dpw) cs).reset.getViolatingWrite =
        ⟨0, 0, 0⟩) ∧
    (∀ l, lastWarLine (runDetect inter (WarDetector.init logfile dpw) cs).log = some l →
      (runDetect inter (WarDetector.init logfile dpw) cs).reset.getViolatingRead =
        ⟨l.memory_address, 0, l.read_instruction_count⟩ ∧
      (runDetect inter (WarDetector.init logfile dpw) cs).reset.getViolatingWrite =
        ⟨l.memory_address, 0, l.write_instruction_count⟩) := by
  refine ⟨rfl, rfl, rfl, rfl, rfl, rfl, rfl, rfl, ?_, ?_⟩
  · intro hn
    obtain ⟨i1, i2⟩ := (runDetect_violating inter logfile dpw cs).1 hn
    have r1 : (runDetect inter (WarDetector.init logfile dpw) cs).reset.getViolatingRead =
        ⟨(runDetect inter (WarDetector.init logfile dpw) cs).violatingRead.address, 0,
          (runDetect inter (WarDetector.init logfile dpw) cs).violatingRead.icount⟩ := rfl
    have r2 : (runDetect inter (WarDetector.init logfile dpw) cs).reset.getViolatingWrite =
        ⟨(runDetect inter (WarDetector.init logfile dpw) cs).violatingWrite.address, 0,
          (runDetect inter (WarDetector.init logfile dpw) cs).violatingWrite.icount⟩ := rfl
    rw [r1, r2, i1, i2]
    exact ⟨rfl, rfl⟩
  · intro l hl
    obtain ⟨i1, i2⟩ := (runDetect_violating inter logfile dpw cs).2 l hl
    have r1 : (runDetect inter (WarDetector.init logfile dpw) cs).reset.getViolatingRead =
        ⟨(runDetect inter (WarDetector.init logfile dpw) cs).violatingRead.address, 0,
          (runDetect inter (WarDetector.init logfile dpw) cs).violatingRead.icount⟩ := rfl
    have r2 : (runDetect inter (WarDetector.init logfile dpw) cs).reset.getViolatingWrite =
        ⟨(runDetect inter (WarDetector.init logfile dpw) cs).violatingWrite.address, 0,
          (runDetect inter (WarDetector.init logfile dpw) cs).violatingWrite.icount⟩ := rfl
    rw [r1, r2, i1, i2]
    exact ⟨rfl, rfl⟩

/-- C17 (amended), on a run: after R(0x100) at (pc 8, icount 1), the WAR write W(0x100) at
(pc 12, icount 2) and a read R(0x200) at (pc 16, icount 3) that enters a function, the most
recent WAR record of the inter-procedural log is the one of that write, and `reset()` leaves
the getters at (0x100, 0, 1) and (0x100, 0, 2). -/
theorem reset_clears_sets_and_pc_witness :
    lastWarLine (runDetect true (WarDetector.init "w.csv" true)
      [exampleCall true 256 1 8 1 false, exampleCall false 256 1 12 2 false,
        exampleCall true 512 1 16 3 true]).log =
      some (warLine ⟨256, 8, 1⟩ ⟨256, 12, 2⟩ (exampleCall false 256 1 12 2 false).istate
        (getMemAccessType (exampleCall false 256 1 12 2 false).hic
          (exampleCall false 256 1 12 2 false).sp (exampleCall false 256 1 12 2 false).istate)) ∧
    (runDetect true (WarDetector.init "w.csv" true)
      [exampleCall true 256 1 8 1 false, exampleCall false 256 1 12 2 false,
        exampleCall true 512 1 16 3 true]).reset.getViolatingRead = ⟨256, 0, 1⟩ ∧
    (runDetect true (WarDetector.init "w.csv" true)
      [exampleCall true 256 1 8 1 false, exampleCall false 256 1 12 2 false,
        exampleCall true 512 1 16 3 true]).reset.getViolatingWrite = ⟨256, 0, 2⟩ :=
  ⟨by decide,
    (reset_clears_sets_and_pc (WarDetector.init "w.csv" true) "w.csv" true true
      [exampleCall true 256 1 8 1 false, exampleCall false 256 1 12 2 false,
        exampleCall true 512 1 16 3 true]).2.2.2.2.2.2.2.2.2
      (warLine ⟨256, 8, 1⟩ ⟨256, 12, 2⟩ (exampleCall false 256 1 12 2 false).istate
        (getMemAccessType (exampleCall false 256 1 12 2 false).hic
          (exampleCall false 256 1 12 2 false).sp (exampleCall false 256 1 12 2 false).istate))
      (by decide)⟩

/-! ## The detector after a WAR -/

/-- C18: whenever `detectWar` reports a WAR for a write of width N at A, the detector it
leaves is the one obtained by applying the write again after the reset; that second
`addWrite` returns no WAR; the read set is empty; the write set holds exactly the records of
the bytes A..A+N-1 (modulo 2^32) with the pc and icount of the write, one per address, and,
N being at most 2^32, it is the list of those N records. -/
theorem detectWar_war_leaves_write (hic : HookInstructionCount) (sp : Nat) (wd : WarDetector)
    (istate : InstructionState) (inter : Bool)
    (hwar : (detectWar hic sp wd istate false inter).1 = true) :
    (detectWar hic sp wd istate false inter).2 =
      ((afterWarReset hic sp wd istate inter).addWrite istate).2 ∧
    ((afterWarReset hic sp wd istate inter).addWrite istate).1 = false ∧
    (detectWar hic sp wd istate false inter).2.reads = [] ∧
    (∀ x, x ∈ (detectWar hic sp wd istate false inter).2.writes ↔
      ∃ i, i < istate.mem_size ∧
        x = ⟨(istate.mem_address + i) % ADDR_MOD, istate.pc, istate.icount⟩) ∧
    AccessSet.WF (detectWar hic sp wd istate false inter).2.writes ∧
    (istate.mem_size ≤ ADDR_MOD →
      (detectWar hic sp wd istate false inter).2.writes =
        (WarDetector.byteStates istate).reverse ∧
      (detectWar hic sp wd istate false inter).2.writes.length = istate.mem_size) := by
  obtain ⟨_, h2⟩ := detectWar_war_unfold hic sp wd istate inter hwar
  have h3 := afterWarReset_addWrite hic sp wd istate inter
  rw [h2, h3]
  have hwf0 : AccessSet.WF ([] : AccessSet) := by
    unfold AccessSet.WF
    exact List.nodup_nil
  obtain ⟨w, hmem⟩ := AccessSet.upsertFold (WarDetector.byteStates istate) [] hwf0
    (byteStates_coherent istate)
  refine ⟨rfl, rfl, rfl, ?_, w, ?_⟩
  · intro x
    show x ∈ (WarDetector.byteStates istate).foldl AccessSet.upsert [] ↔ _
    rw [hmem x, byteStates_mem_iff]
    simp
  · intro hN
    have e := upsertFold_fresh (WarDetector.byteStates istate) [] (byteStates_nodup istate hN)
      (fun m _ x hx => by cases hx)
    rw [List.append_nil] at e
    refine ⟨e, ?_⟩
    show ((WarDetector.byteStates istate).foldl AccessSet.upsert []).length = _
    rw [e, List.length_reverse]
    unfold WarDetector.byteStates
    rw [List.length_map, List.length_range]

/-- Witness for C18: R(0x100, 4 bytes) then W(0x102, 2 bytes) is a WAR; afterwards the read
set is empty. -/
theorem detectWar_war_leaves_write_witness :
    (detectWar (exampleCall false 258 2 12 2 false).hic (exampleCall false 258 2 12 2 false).sp
      (runDetect false (WarDetector.init "w.csv" true) [exampleCall true 256 4 8 1 false])
      (exampleCall false 258 2 12 2 false).istate false false).2.reads = [] :=
  (detectWar_war_leaves_write (exampleCall false 258 2 12 2 false).hic
    (exampleCall false 258 2 12 2 false).sp
    (runDetect false (WarDetector.init "w.csv" true) [exampleCall true 256 4 8 1 false])
    (exampleCall false 258 2 12 2 false).istate false (by decide)).2.2.1

/-! ## The non-WAR rows of the write decision -/

/-- C19 (as stated, refuted): with `detect_protected_war` = true, after W(0x100) at
(pc 4, icount 0) and R(0x100) at (pc 8, icount 1) the byte is in both sets; the write
b = (0x100, pc 12, icount 2) returns no WAR and the write set still holds (0x100, 4, 0),
not b. -/
theorem addWriteByte_protected_keeps_entry :
    ((runDetect false (WarDetector.init "w.csv" true)
      [exampleCall false 256 1 4 0 false, exampleCall true 256 1 8 1 false]).addWriteByte
      ⟨256, 12, 2⟩).1 = false ∧
    (runDetect false (WarDetector.init "w.csv" true)
      [exampleCall false 256 1 4 0 false, exampleCall true 256 1 8 1 false]).reads =
      [⟨256, 8, 1⟩] ∧
    ((runDetect false (WarDetector.init "w.csv" true)
      [exampleCall false 256 1 4 0 false, exampleCall true 256 1 8 1 false]).addWriteByte
      ⟨256, 12, 2⟩).2.writes = [⟨256, 4, 0⟩] := by
  decide

/-- C19 (amended): with `detect_protected_war` = true and `b.address` in both sets,
`addWrite(b)` returns no WAR and leaves the whole detector, write set included, unchanged
(the entry keeps the pc and icount of the earlier write). When `b.address` is not in the read
set, it returns no WAR and the write set ends up holding `b` for that address (inserted when
absent, replaced when present), all other entries and the read set unchanged. -/
theorem addWriteByte_no_war_rows (wd : WarDetector) (b : MemAccessState) :
    ((∃ r ∈ wd.reads, r.address = b.address) → (∃ w ∈ wd.writes, w.address = b.address) →
      wd.detect_protected_war = true → wd.addWriteByte b = (false, wd)) ∧
    ((¬ ∃ r ∈ wd.reads, r.address = b.address) → AccessSet.WF wd.writes →
      (wd.addWriteByte b).1 = false ∧
      AccessSet.find (wd.addWriteByte b).2.writes b = some b ∧
      (∀ x, x.address ≠ b.address →
        (x ∈ (wd.addWriteByte b).2.writes ↔ x ∈ wd.writes)) ∧
      (∀ x ∈ (wd.addWriteByte b).2.writes, x.address = b.address → x = b) ∧
      AccessSet.WF (wd.addWriteByte b).2.writes ∧
      (wd.addWriteByte b).2.reads = wd.reads ∧
      (wd.addWriteByte b).2.violatingRead = wd.violatingRead ∧
      (wd.addWriteByte b).2.violatingWrite = wd.violatingWrite) := by
  constructor
  · intro hr hw hd
    obtain ⟨rd, hrd⟩ := Option.isSome_iff_exists.mp ((AccessSet.find_isSome_iff wd.reads b).mpr hr)
    obtain ⟨wv, hwv⟩ := Option.isSome_iff_exists.mp ((AccessSet.find_isSome_iff wd.writes b).mpr hw)
    unfold WarDetector.addWriteByte
    rw [hrd, hwv]
    simp [hd]
  · intro hr hwf
    have hf : AccessSet.find wd.reads b = none :=
      (AccessSet.find_eq_none_iff wd.reads b).mpr (fun x hx hxa => hr ⟨x, hx, hxa⟩)
    rw [addWriteByte_eq_upsert wd b hf]
    have hmem := fun x => AccessSet.upsert_mem wd.writes b x hwf
    have hb : b ∈ AccessSet.upsert wd.writes b := (hmem b).mpr (Or.inr rfl)
    have hsame : ∀ x ∈ AccessSet.upsert wd.writes b, x.address = b.address → x = b := by
      intro x hx hxa
      rcases (hmem x).mp hx with ⟨_, h2⟩ | h2
      · exact absurd hxa h2
      · exact h2
    refine ⟨rfl, ?_, ?_, hsame, AccessSet.upsert_WF wd.writes b hwf, rfl, rfl, rfl⟩
    · show AccessSet.find (AccessSet.upsert wd.writes b) b = some b
      cases hfind : AccessSet.find (AccessSet.upsert wd.writes b) b with
      | none => exact absurd rfl ((AccessSet.find_eq_none_iff _ b).mp hfind b hb)
      | some r =>
        have hm := AccessSet.find_some_mem hfind
        rw [hsame r hm.1 hm.2]
    · intro x hx
      show x ∈ AccessSet.upsert wd.writes b ↔ _
      rw [hmem x]
      constructor
      · rintro (⟨h1, _⟩ | h1)
        · exact h1
        · rw [h1] at hx; exact absurd rfl hx
      · intro h1
        exact Or.inl ⟨h1, hx⟩

/-- Witness for C19 (amended): on a fresh detector the write (0x100, pc 12, icount 2) is
inserted into the write set. -/
theorem addWriteByte_no_war_rows_witness :
    AccessSet.find ((WarDetector.init "w.csv" true).addWriteByte ⟨256, 12, 2⟩).2.writes
      ⟨256, 12, 2⟩ = some ⟨256, 12, 2⟩ :=
  ((addWriteByte_no_war_rows (WarDetector.init "w.csv" true) ⟨256, 12, 2⟩).2
    (by decide) (by unfold AccessSet.WF; decide)).2.1

/-! ## The effect of addRead -/

/-- C20: for every detector state (its read set holding one entry per address) and every
read of width N at A with pc p and icount c: after `addRead` the read set holds, for each
byte address of the range, the entry (address, p, c) and no other entry with that address;
entries for all other addresses are unchanged; the write set and the violating records are
unchanged; the read set still has at most one entry per address. -/
theorem addRead_upserts (wd : WarDetector) (istate : InstructionState)
    (hwf : AccessSet.WF wd.reads) :
    (∀ i, i < istate.mem_size →
      (⟨(istate.mem_address + i) % ADDR_MOD, istate.pc, istate.icount⟩ : MemAccessState) ∈
        (wd.addRead istate).reads ∧
      ∀ x ∈ (wd.addRead istate).reads, x.address = (istate.mem_address + i) % ADDR_MOD →
        x = ⟨(istate.mem_address + i) % ADDR_MOD, istate.pc, istate.icount⟩) ∧
    (∀ x, (∀ i, i < istate.mem_size → x.address ≠ (istate.mem_address + i) % ADDR_MOD) →
      (x ∈ (wd.addRead istate).reads ↔ x ∈ wd.reads)) ∧
    (wd.addRead istate).writes = wd.writes ∧
    (wd.addRead istate).getViolatingRead = wd.getViolatingRead ∧
    (wd.addRead istate).getViolatingWrite = wd.getViolatingWrite ∧
    AccessSet.WF (wd.addRead istate).reads := by
  have he : wd.addRead istate =
      { wd with reads := (WarDetector.byteStates istate).foldl AccessSet.upsert wd.reads } :=
    addReadFold_eq_upsert _ wd
  obtain ⟨w, hmem⟩ := AccessSet.upsertFold (WarDetector.byteStates istate) wd.reads hwf
    (byteStates_coherent istate)
  rw [he]
  refine ⟨fun i hi => ⟨?_, ?_⟩, ?_, rfl, rfl, rfl, w⟩
  · show _ ∈ (WarDetector.byteStates istate).foldl AccessSet.upsert wd.reads
    rw [hmem]
    exact Or.inr ((byteStates_mem_iff istate _).mpr ⟨i, hi, rfl⟩)
  · intro x hx hxa
    have hx2 : x ∈ (WarDetector.byteStates istate).foldl AccessSet.upsert wd.reads := hx
    have hbi := (byteStates_mem_iff istate
      ⟨(istate.mem_address + i) % ADDR_MOD, istate.pc, istate.icount⟩).mpr ⟨i, hi, rfl⟩
    rcases (hmem x).mp hx2 with ⟨_, h2⟩ | h2
    · exact absurd hxa.symm (h2 _ hbi)
    · exact byteStates_coherent istate x h2 _ hbi hxa
  · intro x hx
    show x ∈ (WarDetector.byteStates istate).foldl AccessSet.upsert wd.reads ↔ _
    rw [hmem]
    constructor
    · rintro (⟨h1, _⟩ | h1)
      · exact h1
      · obtain ⟨i, hi, rfl⟩ := (byteStates_mem_iff istate x).mp h1
        exact absurd rfl (hx i hi)
    · intro h1
      refine Or.inl ⟨h1, ?_⟩
      intro m hm hma
      obtain ⟨i, hi, rfl⟩ := (byteStates_mem_iff istate m).mp hm
      exact hx i hi hma.symm

/-- Witness for C20: a 4-byte read at 0x100 (pc 8, icount 1) over a read set that already
holds 0x101 from (pc 4, icount 0) leaves the entry (0x101, 8, 1). -/
theorem addRead_upserts_witness :
    (⟨(256 + 1) % ADDR_MOD, 8, 1⟩ : MemAccessState) ∈
      (({ WarDetector.init "w.csv" true with reads := [⟨257, 4, 0⟩] }).addRead
        (exampleCall true 256 4 8 1 false).istate).reads :=
  ((addRead_upserts ({ WarDetector.init "w.csv" true with reads := [⟨257, 4, 0⟩] })
    (exampleCall true 256 4 8 1 false).istate (by unfold AccessSet.WF; decide)).1 1
    (by decide)).1

/-! ## The size limit -/

/-- C11 (as stated, refuted): with `max_idempotent_secion_size` = 1000, after 1001
instructions the intra-procedural detector has never been reset (its log is empty, the
region started at icount 0) and icount is 1001; the write that arrives then adds no record:
no SIZE_LIMIT record is appended. -/
theorem sizeLimit_exceeded_no_record :
    (HookIdempotencyStatistics.init [] 536879104).max_idempotent_secion_size = 1000 ∧
    ((HookIdempotencyStatistics.init [] 536879104).runTrace
      (List.replicate 1001 (TraceEvent.instruction 4 536875008))).hook_instr_cnt.count = 1001 ∧
    ((HookIdempotencyStatistics.init [] 536879104).runTrace
      (List.replicate 1001 (TraceEvent.instruction 4 536875008))).warDetector.log.warLogLines
      = [] ∧
    ((HookIdempotencyStatistics.init [] 536879104).runTrace
      (List.replicate 1001 (TraceEvent.instruction 4 536875008) ++
        [TraceEvent.memory ⟨256, 4, MemType.MEM_WRITE⟩ 536875008])).warDetector.log.warLogLines
      = [] := by
  refine ⟨rfl, ?_, ?_, ?_⟩
  · rw [runTrace_instructions_count _ _ _ _ (by decide)]
    decide
  · rw [runTrace_instructions]
    rfl
  · rw [write_after_instructions _ _ _ _ _ _ rfl rfl]
    rfl

/-- C11 (amended): `max_idempotent_secion_size` (default 1000) is never consulted: for
every analyzer state, every value of the limit and every trace, the run is the same as with
any other value of the limit, and no record with cause SIZE_LIMIT is ever appended to any of
the four logs; a write that arrives when icount minus the region-start icount exceeds the
limit is processed as any other write. -/
theorem sizeLimit_never_applied (h : HookIdempotencyStatistics) (limit : Nat)
    (tr : List TraceEvent) :
    HookIdempotencyStatistics.runTrace { h with max_idempotent_secion_size := limit } tr =
      { h.runTrace tr with max_idempotent_secion_size := limit } ∧
    countSizeLimit (h.runTrace tr).warDetector.log = countSizeLimit h.warDetector.log ∧
    countSizeLimit (h.runTrace tr).warDetectorNoProtected.log =
      countSizeLimit h.warDetectorNoProtected.log ∧
    countSizeLimit (h.runTrace tr).warDetectorInterProcedural.log =
      countSizeLimit h.warDetectorInterProcedural.log ∧
    countSizeLimit (h.runTrace tr).warDetectorNoProtectedInterProcedural.log =
      countSizeLimit h.warDetectorNoProtectedInterProcedural.log :=
  ⟨runTrace_limit h limit tr, runTrace_countSizeLimit h tr⟩

/-! ## The codings of the records -/

/-- C13: one call of `detectWar` leaves the log as it was or appends one record, and every
record it appends has `access_type_str` and `region_end_type_str` equal to the entries of the
name tables at `access_type` and `region_end_type`; the tables and enumerators have the
fixed codings UNKNOWN=0, NONE=1, LOCAL=2, STACK=3, GLOBAL=4 and WAR=0, FUNCTION_ENTRY=1,
SIZE_LIMIT=2, FORCED=3; a FUNCTION_ENTRY record carries (1, NONE), a WAR record one of
(2, LOCAL), (3, STACK), (4, GLOBAL). -/
theorem detectWar_record_codings (inter : Bool) (wd : WarDetector) (c : DetectCall) :
    ((stepDetect inter wd c).log.warLogLines = wd.log.warLogLines ∨
      ∃ l, (stepDetect inter wd c).log.warLogLines = wd.log.warLogLines ++ [l]) ∧
    (∀ l, (stepDetect inter wd c).log.warLogLines = wd.log.warLogLines ++ [l] →
      l.access_type_str = strAt MemAccessTypeStr l.access_type ∧
      l.region_end_type_str = strAt RegionEndTypeStr l.region_end_type ∧
      ((l.region_end_type = 1 ∧ l.region_end_type_str = "FUNCTION_ENTRY" ∧
          l.access_type = 1 ∧ l.access_type_str = "NONE") ∨
        (l.region_end_type = 0 ∧ l.region_end_type_str = "WAR" ∧
          ((l.access_type = 2 ∧ l.access_type_str = "LOCAL") ∨
            (l.access_type = 3 ∧ l.access_type_str = "STACK") ∨
            (l.access_type = 4 ∧ l.access_type_str = "GLOBAL"))))) ∧
    (List.map (strAt MemAccessTypeStr) [0, 1, 2, 3, 4] =
      ["UNKNOWN", "NONE", "LOCAL", "STACK", "GLOBAL"]) ∧
    (List.map (strAt RegionEndTypeStr) [0, 1, 2, 3] =
      ["WAR", "FUNCTION_ENTRY", "SIZE_LIMIT", "FORCED"]) ∧
    (List.map MemAccessType.toNat [MemAccessType.UNKNOWN, MemAccessType.MEM_NONE,
      MemAccessType.MEM_LOCAL, MemAccessType.MEM_STACK, MemAccessType.MEM_GLOBAL] =
      [0, 1, 2, 3, 4]) ∧
    (List.map RegionEndType.toNat [RegionEndType.RE_WAR, RegionEndType.RE_FUNCTION_ENTRY,
      RegionEndType.RE_SIZE_LIMIT, RegionEndType.RE_FORCED] = [0, 1, 2, 3]) := by
  refine ⟨?_, ?_, by decide, by decide, by decide, by decide⟩
  · rcases stepDetect_summary inter wd c with ⟨_, hl, _⟩ | ⟨_, hl, _⟩ | ⟨_, _, _, hl, _⟩
    · exact Or.inr ⟨_, hl⟩
    · exact Or.inl hl
    · exact Or.inr ⟨_, hl⟩
  · intro l h
    rcases stepDetect_summary inter wd c with ⟨_, hl, _⟩ | ⟨_, hl, _⟩ | ⟨_, _, _, hl, _⟩
    · rw [hl] at h
      have e := List.append_cancel_left h
      simp only [List.cons.injEq, and_true] at e
      rw [← e]
      exact ⟨rfl, rfl, Or.inl ⟨rfl, rfl, rfl, rfl⟩⟩
    · rw [hl] at h
      have := congrArg List.length h
      simp at this
    · rw [hl] at h
      have e := List.append_cancel_left h
      simp only [List.cons.injEq, and_true] at e
      rw [← e]
      refine ⟨rfl, rfl, Or.inr ⟨rfl, rfl, ?_⟩⟩
      rcases getMemAccessType_range c.hic c.sp c.istate with g | g | g
      · left
        unfold warLine
        rw [g]
        exact ⟨rfl, rfl⟩
      · right; left
        unfold warLine
        rw [g]
        exact ⟨rfl, rfl⟩
      · right; right
        unfold warLine
        rw [g]
        exact ⟨rfl, rfl⟩

/-- Witness for C13: the record appended by W(0x100) after R(0x100) is coded (4, GLOBAL)
and (0, WAR). -/
theorem detectWar_record_codings_witness :
    (warLine ⟨256, 8, 1⟩ ⟨256, 12, 2⟩ (exampleCall false 256 1 12 2 false).istate
      MemAccessType.MEM_GLOBAL).access_type_str =
    strAt MemAccessTypeStr (warLine ⟨256, 8, 1⟩ ⟨256, 12, 2⟩
      (exampleCall false 256 1 12 2 false).istate MemAccessType.MEM_GLOBAL).access_type :=
  ((detectWar_record_codings false
    (runDetect false (WarDetector.init "w.csv" true) [exampleCall true 256 1 8 1 false])
    (exampleCall false 256 1 12 2 false)).2.1
    (warLine ⟨256, 8, 1⟩ ⟨256, 12, 2⟩ (exampleCall false 256 1 12 2 false).istate
      MemAccessType.MEM_GLOBAL) (by decide)).1

/-! ## The instruction tracker at a function entry -/

/-- C16 (the code at the failing input): the tracker has counted 2^32 - 1 instructions and
the next instruction, at 0x1000, is the entry of `main` (alias `start`). After `run` the
64-bit count is 2^32 but `function_entry_icount`, an `armaddr_t`, is 0. The other fields are
as claimed: the address, the first name registered, and `new_function`. -/
theorem run_function_entry_icount_truncated :
    (HookInstructionCount.run
      { HookInstructionCount.init [(4096, ["main", "start"])] 536879104 with
        count := 4294967295 } 4096 536875008).count = 4294967296 ∧
    (HookInstructionCount.run
      { HookInstructionCount.init [(4096, ["main", "start"])] 536879104 with
        count := 4294967295 } 4096 536875008).function_entry_icount = 0 ∧
    (HookInstructionCount.run
      { HookInstructionCount.init [(4096, ["main", "start"])] 536879104 with
        count := 4294967295 } 4096 536875008).function_address = 4096 ∧
    (HookInstructionCount.run
      { HookInstructionCount.init [(4096, ["main", "start"])] 536879104 with
        count := 4294967295 } 4096 536875008).function_name = some "main" ∧
    (HookInstructionCount.run
      { HookInstructionCount.init [(4096, ["main", "start"])] 536879104 with
        count := 4294967295 } 4096 536875008).new_function = true := by
  decide

/-! ## The CSV row of a record -/

/-- C12: for every record whose function name is assigned and contains no comma (the two
name fields pointing into the name tables, as in every record `detectWar` builds), the row
written by `operator<<` is the eleven fields in the order read_icount, write_icount, read_pc,
write_pc, memory_address, function_address, function_name, access_class_int,
access_class_name, end_cause_int, end_cause_name, numbers in decimal, joined by ',' with no
quoting; splitting the row on ',' gives back the eleven fields and parsing the decimal ones
gives back the numbers. -/
theorem print_row_round_trip (l : WarLogLine) (name : String)
    (hn : l.function_name = some name) (hc : ',' ∉ name.data)
    (h1 : l.access_type_str ∈ MemAccessTypeStr)
    (h2 : l.region_end_type_str ∈ RegionEndTypeStr) :
    ∃ row, l.print = some row ∧
      row = List.intercalate [',']
        [decimal l.read_instruction_count, decimal l.write_instruction_count,
          decimal l.read_code_address, decimal l.write_code_address,
          decimal l.memory_address, decimal l.function_address, name.data,
          decimal l.access_type, l.access_type_str.data, decimal l.region_end_type,
          l.region_end_type_str.data] ∧
      splitRow ',' row =
        [decimal l.read_instruction_count, decimal l.write_instruction_count,
          decimal l.read_code_address, decimal l.write_code_address,
          decimal l.memory_address, decimal l.function_address, name.data,
          decimal l.access_type, l.access_type_str.data, decimal l.region_end_type,
          l.region_end_type_str.data] ∧
      List.map parseDecimal
        [decimal l.read_instruction_count, decimal l.write_instruction_count,
          decimal l.read_code_address, decimal l.write_code_address,
          decimal l.memory_address, decimal l.function_address,
          decimal l.access_type, decimal l.region_end_type] =
        [some l.read_instruction_count, some l.write_instruction_count,
          some l.read_code_address, some l.write_code_address,
          some l.memory_address, some l.function_address,
          some l.access_type, some l.region_end_type] := by
  have t1 := tableStr_no_comma.1 _ h1
  have t2 := tableStr_no_comma.2 _ h2
  refine ⟨_, by unfold WarLogLine.print; rw [hn], ?_, ?_, ?_⟩
  · simp [List.intercalate, List.intersperse]
  · rw [splitRow_append _ _ _ (decimal_no_comma _), splitRow_append _ _ _ (decimal_no_comma _),
      splitRow_append _ _ _ (decimal_no_comma _), splitRow_append _ _ _ (decimal_no_comma _),
      splitRow_append _ _ _ (decimal_no_comma _), splitRow_append _ _ _ (decimal_no_comma _),
      splitRow_append _ _ _ hc, splitRow_append _ _ _ (decimal_no_comma _),
      splitRow_append _ _ _ t1, splitRow_append _ _ _ (decimal_no_comma _),
      splitRow_no_sep _ _ t2]
  · simp only [List.map_cons, List.map_nil, parseDecimal_decimal]

/-- Witness for C12: the FUNCTION_ENTRY record of `main` at 0x1000 entered at icount 1000
is printed as a row. -/
theorem print_row_round_trip_witness :
    ∃ row, WarLogLine.print ⟨0, 1000, 0, 0, 0, 4096, some "main", 1, "NONE", 1,
        "FUNCTION_ENTRY"⟩ = some row ∧
      row = "0,1000,0,0,0,4096,main,1,NONE,1,FUNCTION_ENTRY".data := by
  obtain ⟨row, hr, _, _, _⟩ := print_row_round_trip
    ⟨0, 1000, 0, 0, 0, 4096, some "main", 1, "NONE", 1, "FUNCTION_ENTRY"⟩ "main" rfl
    (by decide) (by decide) (by decide)
  refine ⟨row, hr, ?_⟩
  have h2 : WarLogLine.print ⟨0, 1000, 0, 0, 0, 4096, some "main", 1, "NONE", 1,
      "FUNCTION_ENTRY"⟩ = some "0,1000,0,0,0,4096,main,1,NONE,1,FUNCTION_ENTRY".data := by
    decide
  rw [h2] at hr
  exact (Option.some.inj hr).symm

/-! ## The path of a log file -/

/-- C14 (the code at the failing input): with an empty `out_dir`, as resolved when no plugin
argument names a directory, `WarLog::write` opens "/" followed by the sink name, a path
under the filesystem root; with `out_dir` = "out" it opens "out/" followed by the name. -/
theorem write_path_empty_out_dir :
    resolveOutDir [] = "" ∧
    (WarLog.write (WarLog.init "idempotent-sections-intra-procedural.csv") (resolveOutDir [])
      (fun _ => true)).filename_cmplt = "/idempotent-sections-intra-procedural.csv" ∧
    (WarLog.write (WarLog.init "idempotent-sections-intra-procedural.csv") (resolveOutDir [])
      (fun _ => true)).filename_cmplt.data.head? = some '/' ∧
    (WarLog.write (WarLog.init "idempotent-sections-intra-procedural.csv") "out"
      (fun _ => true)).filename_cmplt = "out/idempotent-sections-intra-procedural.csv" := by
  decide

/-! ## The output directory -/

/-- C15 (as stated, refuted): in the argument "xidempotent-stats-output-dir=/tmp" the key
text comes after another character, yet the argument is not ignored: `out_dir` is "/tmp". -/
theorem resolveOutDir_key_inside_argument :
    resolveOutDir ["xidempotent-stats-output-dir=/tmp"] = "/tmp" ∧
    resolveOutDir ["verbose", "log=idempotent-stats-output-dir=a",
      "idempotent-stats-output-dir=b"] = "a" := by
  decide

/-- C15 (amended): for every plugin argument list, `out_dir` is empty when no argument
contains the text idempotent-stats-output-dir= ; otherwise it is taken from the first
argument that contains that text anywhere, and it is what follows the first occurrence of
the text in that argument. Arguments that do not contain the text are ignored. -/
theorem resolveOutDir_first_containing (args : List String) :
    ((∀ a ∈ args, ∀ j, ¬ ∃ t, a.data.drop j = find_arg.data ++ t) → resolveOutDir args = "") ∧
    (∀ pre a post pos, args = pre ++ a :: post →
      (∀ x ∈ pre, ∀ j, ¬ ∃ t, x.data.drop j = find_arg.data ++ t) →
      (∃ t, a.data.drop pos = find_arg.data ++ t) →
      (∀ j, j < pos → ¬ ∃ t, a.data.drop j = find_arg.data ++ t) →
      a.data = a.data.take pos ++ find_arg.data ++ (resolveOutDir args).data) := by
  have hnone : ∀ a : String, (∀ j, ¬ ∃ t, a.data.drop j = find_arg.data ++ t) →
      strFind a.data find_arg.data = none := by
    intro a h
    cases hs : strFind a.data find_arg.data with
    | none => rfl
    | some pos => exact absurd (strFind_some _ _ pos hs).1 (h pos)
  constructor
  · intro h
    exact resolveOutDir_none args (fun a ha => hnone a (h a ha))
  · intro pre a post pos hargs hpre hocc hfirst
    have hfa : strFind a.data find_arg.data = some pos := by
      cases hs : strFind a.data find_arg.data with
      | none => exact absurd hocc (strFind_none _ _ hs pos)
      | some q =>
        obtain ⟨q1, q2⟩ := strFind_some _ _ q hs
        rcases Nat.lt_trichotomy q pos with hlt | heq | hgt
        · exact absurd q1 (hfirst q hlt)
        · rw [heq]
        · exact absurd hocc (q2 pos hgt)
    rw [hargs, resolveOutDir_first pre a post pos (fun x hx => hnone x (hpre x hx)) hfa]
    obtain ⟨t, ht⟩ := hocc
    have hlen : find_arg.length = find_arg.data.length := rfl
    have hdrop : a.data.drop (pos + find_arg.length) = t := by
      rw [← List.drop_drop, ht, hlen, List.drop_left]
    show a.data = a.data.take pos ++ find_arg.data ++ List.drop (pos + find_arg.length) a.data
    rw [hdrop, List.append_assoc, ← ht, List.take_append_drop]

/-- Witness for C15 (amended): with the arguments "verbose" and
"idempotent-stats-output-dir=out" the second argument is key followed by `out_dir`. -/
theorem resolveOutDir_first_containing_witness :
    "idempotent-stats-output-dir=out".data =
      "idempotent-stats-output-dir=out".data.take 0 ++ find_arg.data ++
        (resolveOutDir ["verbose", "idempotent-stats-output-dir=out"]).data :=
  (resolveOutDir_first_containing ["verbose", "idempotent-stats-output-dir=out"]).2
    ["verbose"] "idempotent-stats-output-dir=out" [] 0 rfl
    (by
      intro x hx
      rw [List.mem_singleton] at hx
      subst hx
      exact strFind_none _ _ (by decide))
    ⟨"out".data, by decide⟩
    (fun j hj => absurd hj (Nat.not_lt_zero j))

/-! ## One record per call -/

/-- C21: for every detector state, every memory event and both values of
`inter_procedural`, one call of `detectWar` leaves the log as it was or appends exactly one
record. When it takes the function-entry branch the record is the FUNCTION_ENTRY record and
the call reports no WAR: the reset leaves the read set empty, so `addWrite` on the detector
after the reset returns no WAR. -/
theorem detectWar_at_most_one_record (hic : HookInstructionCount) (sp : Nat)
    (wd : WarDetector) (istate : InstructionState) (is_read inter : Bool) :
    ((detectWar hic sp wd istate is_read inter).2.log.warLogLines = wd.log.warLogLines ∨
      ∃ l, (detectWar hic sp wd istate is_read inter).2.log.warLogLines =
        wd.log.warLogLines ++ [l]) ∧
    ((inter = true ∧ hic.new_function = true) →
      (detectWar hic sp wd istate is_read inter).2.log.warLogLines =
        wd.log.warLogLines ++ [functionEntryLine hic istate] ∧
      (detectWar hic sp wd istate is_read inter).1 = false ∧
      countWar (detectWar hic sp wd istate is_read inter).2.log = countWar wd.log ∧
      (detectWarEntry hic wd istate inter).reads = [] ∧
      ((detectWarEntry hic wd istate inter).addWrite istate).1 = false) := by
  constructor
  · rcases stepDetect_summary inter wd ⟨hic, sp, istate, is_read⟩ with
      ⟨_, hl, _⟩ | ⟨_, hl, _⟩ | ⟨_, _, _, hl, _⟩
    · exact Or.inr ⟨_, hl⟩
    · exact Or.inl hl
    · exact Or.inr ⟨_, hl⟩
  · intro he
    have hreads : (detectWarEntry hic wd istate inter).reads = [] := by
      rw [detectWarEntry_taken hic wd istate inter he]
      rfl
    have hline : (detectWar hic sp wd istate is_read inter).2.log.warLogLines =
        wd.log.warLogLines ++ [functionEntryLine hic istate] ∧
        (detectWar hic sp wd istate is_read inter).1 = false := by
      cases is_read with
      | true =>
        obtain ⟨a, b⟩ := detectWar_entry_read hic sp wd istate inter he
        exact ⟨b, a⟩
      | false =>
        obtain ⟨a, b⟩ := detectWar_entry_write hic sp wd istate inter he
        exact ⟨b, a⟩
    refine ⟨hline.1, hline.2, ?_, hreads, addWrite_fst_false_of_reads_nil _ _ hreads⟩
    rw [countWar_lines_append _ _ _ hline.1]
    rfl

/-- Witness for C21: R(0x100), then W(0x100) at a function entry on the inter-procedural
detector: the call appends the FUNCTION_ENTRY record and reports no WAR. -/
theorem detectWar_at_most_one_record_witness :
    (detectWar (exampleCall false 256 1 12 2 true).hic (exampleCall false 256 1 12 2 true).sp
      (runDetect true (WarDetector.init "w.csv" true) [exampleCall true 256 1 8 1 false])
      (exampleCall false 256 1 12 2 true).istate false true).1 = false :=
  ((detectWar_at_most_one_record (exampleCall false 256 1 12 2 true).hic
    (exampleCall false 256 1 12 2 true).sp
    (runDetect true (WarDetector.init "w.csv" true) [exampleCall true 256 1 8 1 false])
    (exampleCall false 256 1 12 2 true).istate false true).2 ⟨rfl, rfl⟩).2.1

/-! ## The fields of a WAR record -/

/-- C22: drive a freshly constructed detector (either policy, intra- or inter-procedural)
through `detectWar`. Every WAR record a call appends comes from a write; its memory_address
is a byte address of that write's range; its read icount and read pc are those of the most
recent read call since the detector's last reset that covers that byte; its write icount and
write pc are those of the write. -/
theorem war_record_fields (logfile : String) (dpw inter : Bool) (cs : List DetectCall)
    (c : DetectCall) (l : WarLogLine)
    (hl : (runDetect inter (WarDetector.init logfile dpw) (cs ++ [c])).log.warLogLines =
      (runDetect inter (WarDetector.init logfile dpw) cs).log.warLogLines ++ [l])
    (hwar : l.region_end_type = RegionEndType.RE_WAR.toNat) :
    c.is_read = false ∧
    covers c l.memory_address = true ∧
    l.write_instruction_count = c.istate.icount ∧
    l.write_code_address = c.istate.pc ∧
    ∃ h1 r h2, regionCalls inter (WarDetector.init logfile dpw) cs = h1 ++ r :: h2 ∧
      r.is_read = true ∧ covers r l.memory_address = true ∧
      (∀ y ∈ h2, y.is_read = true → covers y l.memory_address = false) ∧
      l.read_instruction_count = r.istate.icount ∧
      l.read_code_address = r.istate.pc := by
  obtain ⟨_, hrec⟩ := runDetect_reads_recent inter (WarDetector.init logfile dpw) rfl cs
  rw [runDetect_snoc] at hl
  rcases stepDetect_summary inter (runDetect inter (WarDetector.init logfile dpw) cs) c with
    ⟨_, h1, _⟩ | ⟨_, h1, _⟩ | ⟨_, hr, hw, h1, _⟩
  · rw [h1] at hl
    have := List.append_cancel_left hl
    simp only [List.cons.injEq, and_true] at this
    rw [← this] at hwar
    have h10 : ¬ ((1 : Nat) = 0) := by decide
    exact absurd hwar h10
  · rw [h1] at hl
    have := congrArg List.length hl
    simp at this
  · rw [h1] at hl
    have e := List.append_cancel_left hl
    simp only [List.cons.injEq, and_true] at e
    obtain ⟨v1, v2, v3⟩ := addWrite_violating_of_war _ c.istate hw
    obtain ⟨i, hi, hvw⟩ := (byteStates_mem_iff c.istate _).mp v3
    obtain ⟨q1, r, q2, qe, r1, r2, r3, r4, r5⟩ := hrec _ v1
    have hma : l.memory_address = ((runDetect inter (WarDetector.init logfile dpw)
        cs).addWrite c.istate).2.violatingRead.address := by
      rw [← e]; rfl
    have hcov : covers c l.memory_address = true := by
      rw [hma, v2, hvw]
      exact (covers_iff c _).mpr ⟨i, hi, rfl⟩
    refine ⟨hr, hcov, ?_, ?_, q1, r, q2, qe, r1, ?_, ?_, ?_, ?_⟩
    · rw [← e]
      show ((runDetect inter (WarDetector.init logfile dpw) cs).addWrite
        c.istate).2.violatingWrite.icount = _
      rw [hvw]
    · rw [← e]
      show ((runDetect inter (WarDetector.init logfile dpw) cs).addWrite
        c.istate).2.violatingWrite.pc = _
      rw [hvw]
    · rw [hma]; exact r2
    · rw [hma]; exact r5
    · rw [← e]; exact r4
    · rw [← e]; exact r3

/-- Witness for C22: reads of 0x100 at (pc 8, icount 1) and again at (pc 10, icount 2), then
a write at (pc 12, icount 3): the WAR record carries the second read. -/
theorem war_record_fields_witness :
    ∃ h1 r h2, regionCalls false (WarDetector.init "w.csv" true)
        [exampleCall true 256 1 8 1 false, exampleCall true 256 1 10 2 false] =
        h1 ++ r :: h2 ∧
      r.is_read = true ∧ covers r 256 = true ∧
      (∀ y ∈ h2, y.is_read = true → covers y 256 = false) ∧
      2 = r.istate.icount ∧ 10 = r.istate.pc :=
  (war_record_fields "w.csv" true false
    [exampleCall true 256 1 8 1 false, exampleCall true 256 1 10 2 false]
    (exampleCall false 256 1 12 3 false)
    (warLine ⟨256, 10, 2⟩ ⟨256, 12, 3⟩ (exampleCall false 256 1 12 3 false).istate
      MemAccessType.MEM_GLOBAL) (by decide) rfl).2.2.2.2

end ICEmu
